import Mathlib

/-!
Shallow embedding of the pathfinding core (graph generation aside):
the priority queue, adjacency construction, Dijkstra and A* engines,
and path reconstruction, translated from the TypeScript source.

Modelling conventions:
* JS numbers appearing as distances are modelled by JNum: a finite
  rational, positive infinity, or undef (covering both the undefined
  of a missing record key and NaN, which behave identically in every
  operation the source performs: all comparisons false).
* JS values flowing through the reconstruction loop (a string, null,
  or undefined) are modelled by JSV.  Property access with an
  undefined key coerces to the string "undefined", as in JS.
* Records (distances, previous) are total functions updated with
  Function.update; a missing key reads as undef.
* The while loops run on explicit fuel and return none when the fuel
  is exhausted, so a terminating JS execution corresponds exactly to
  a some result.
* Math.sqrt is abstracted by a parameter sqrtFn : Q -> Q supplied to
  the A* runner; every theorem about it either quantifies over the
  parameter or instantiates it with Rat.sqrt at inputs that are
  perfect squares, where Math.sqrt is exact.
-/

namespace PF

/-- A graph node: identifier, 3D position, hazard flag.  The rendering
fields (fx, color, val, isStart, isEnd) play no role in the search
engine and are omitted. -/
structure Node where
  id : String
  x : ℚ
  y : ℚ
  z : ℚ
  isBomb : Bool
deriving DecidableEq, Repr

/-- An edge: endpoint identifiers and a weight.  The source resolves a
possibly object-valued endpoint to its id string before use, so the
embedding stores the resolved identifiers. -/
structure Link where
  source : String
  target : String
  distance : ℚ
deriving DecidableEq, Repr

structure GraphData where
  nodes : List Node
  links : List Link
deriving DecidableEq, Repr

structure VisitedStep where
  id : String
  «from» : Option String
deriving DecidableEq, Repr

/-- A JS number as used for tentative distances: finite, Infinity, or
undefined/NaN (which the source never distinguishes). -/
inductive JNum where
  | undef : JNum
  | inf : JNum
  | fin : ℚ → JNum
deriving DecidableEq, Repr

namespace JNum

/-- Addition of a finite weight, as the source computes alt = distances[u] + w. -/
def add : JNum → ℚ → JNum
  | undef, _ => undef
  | inf, _ => inf
  | fin q, w => fin (q + w)

/-- The JS strict less-than: any comparison involving undefined/NaN is
false, Infinity is below nothing and above every finite number. -/
def lt : JNum → JNum → Bool
  | fin a, fin b => a < b
  | fin _, inf => true
  | _, _ => false

/-- The finite value; the algorithms only extract it under a guard that
forces finiteness. -/
def toQ : JNum → ℚ
  | fin q => q
  | _ => 0

/-- The JS test x === Infinity. -/
def isInf : JNum → Bool
  | inf => true
  | _ => false

end JNum

/-- A JS value held by the previous record or the reconstruction cursor:
a string, null, or undefined. -/
inductive JSV where
  | undef : JSV
  | null : JSV
  | str : String → JSV
deriving DecidableEq, Repr

/-- Convert to the string-or-null type of VisitedStep.from (JS never
distinguishes undefined from null there: both render as no predecessor). -/
def JSV.toOpt : JSV → Option String
  | .str s => some s
  | _ => none

structure PQItem where
  id : String
  priority : ℚ
deriving DecidableEq, Repr

/-- The comparator (a, b) => a.priority - b.priority: a sorts no later
than b exactly when a.priority ≤ b.priority. -/
def pqLE (a b : PQItem) : Prop := a.priority ≤ b.priority

instance : DecidableRel pqLE := fun a b => inferInstanceAs (Decidable (a.priority ≤ b.priority))

/-- enqueue: push then sort by priority.  Array.prototype.sort is a
stable sort, and the stable sorted permutation of a list under a total
preorder is unique, so any stable sort embeds it; insertionSort is used
because it is stable and structurally recursive. -/
def pqEnqueue (items : List PQItem) (id : String) (priority : ℚ) : List PQItem :=
  List.insertionSort pqLE (items ++ [⟨id, priority⟩])

/-- dequeue: Array.prototype.shift. -/
def pqDequeue (items : List PQItem) : Option (PQItem × List PQItem) :=
  match items with
  | [] => none
  | x :: rest => some (x, rest)

def pqIsEmpty (items : List PQItem) : Bool := items.isEmpty

/-- An adjacency entry: neighbor identifier and edge weight. -/
structure AdjEntry where
  id : String
  weight : ℚ
deriving DecidableEq, Repr

/-- The adjacency index: a JS object, modelled as an association list
(key order is JS insertion order; values are neighbor arrays). -/
abbrev AdjIndex := List (String × List AdjEntry)

/-- Property read adj[k]. -/
def adjOf (adj : AdjIndex) (k : String) : Option (List AdjEntry) :=
  (adj.find? (fun p => p.1 == k)).map (fun p => p.2)

/-- Assignment adj[k] = v on a JS object: overwrite in place when the key
exists, append otherwise. -/
def objSet (adj : AdjIndex) (k : String) (v : List AdjEntry) : AdjIndex :=
  match adj with
  | [] => [(k, v)]
  | (k', v') :: rest =>
    if k' == k then (k, v) :: rest else (k', v') :: objSet rest k v

/-- adj[k].push e, used only under a guard that k is present. -/
def objPush (adj : AdjIndex) (k : String) (e : AdjEntry) : AdjIndex :=
  match adj with
  | [] => []
  | (k', v') :: rest =>
    if k' == k then (k', v' ++ [e]) :: rest else (k', v') :: objPush rest k e

/-- The key list of the index in JS insertion order. -/
def adjKeys (adj : AdjIndex) : List String := adj.map (fun p => p.1)

/-- One step of the node forEach: adj[n.id] = []. -/
def initStep (adj : AdjIndex) (n : Node) : AdjIndex := objSet adj n.id []

/-- One step of the link forEach: push both directions when both
endpoints have entries, otherwise skip the link. -/
def linkStep (adj : AdjIndex) (l : Link) : AdjIndex :=
  if (adjOf adj l.source).isSome && (adjOf adj l.target).isSome then
    objPush (objPush adj l.source ⟨l.target, l.distance⟩) l.target ⟨l.source, l.distance⟩
  else adj

/-- buildAdjacencyList: an empty entry per node, then both directions of
every link whose endpoints both have entries. -/
def buildAdjacencyList (graph : GraphData) : AdjIndex :=
  graph.links.foldl linkStep (graph.nodes.foldl initStep [])

/-- nodeMap.get after the forEach of Map.set calls: the last node with a
given id wins. -/
def nodeMapGet (graph : GraphData) (u : String) : Option Node :=
  (graph.nodes.foldl (fun (m : String → Option Node) n => Function.update m n.id (some n))
    (fun _ => none)) u

/-- Euclidean distance with the square root abstracted (Math.sqrt is
floating point; sqrtFn stands for it). -/
def getDistance (sqrtFn : ℚ → ℚ) (n1 n2 : Node) : ℚ :=
  sqrtFn ((n1.x - n2.x) ^ 2 + (n1.y - n2.y) ^ 2 + (n1.z - n2.z) ^ 2)

structure AlgoResult where
  path : List JSV
  visitedHistory : List VisitedStep
  cost : JNum
  explodedAt : Option String
deriving DecidableEq, Repr

/-- Property read previous[curr] for a cursor value: an undefined key
coerces to the string "undefined" exactly as JS property access does.
A null cursor never reaches a read (the loop has exited), but JS would
coerce it to the string "null". -/
def jsRead (prev : String → JSV) : JSV → JSV
  | .str s => prev s
  | .undef => prev "undefined"
  | .null => prev "null"

/-- The reconstruction while loop: prepend the cursor, step to its
predecessor, break once the path outgrows the node count.  The fuel
argument only makes the recursion structural; n + 2 is always enough
because every iteration grows the path, whose length the guard caps. -/
def reconLoop (prev : String → JSV) (n : Nat) : Nat → JSV → List JSV → List JSV
  | 0, _, path => path
  | fuel + 1, curr, path =>
    match curr with
    | .null => path
    | c =>
      let path' := c :: path
      if path'.length > n then path'
      else reconLoop prev n fuel (jsRead prev c) path'

/-- Shared tail of both runners: the Infinity check, the predecessor walk
from the end node, and the head-equals-start guard. -/
def reconstruct (prev : String → JSV) (n : Nat) (startId endId : String)
    (hist : List VisitedStep) (cost : JNum) : AlgoResult :=
  if cost.isInf then ⟨[], hist, .fin 0, none⟩
  else
    let path := reconLoop prev n (n + 2) (.str endId) []
    if path.head? ≠ some (.str startId) then ⟨[], hist, .fin 0, none⟩
    else ⟨path, hist, cost, none⟩

/-- The hazard test the loops perform on an extracted identifier: the
node exists, is flagged, and is neither the start nor the end. -/
def isHazard (nmap : String → Option Node) (startId endId u : String) : Bool :=
  match nmap u with
  | some n => n.isBomb && u ≠ startId && u ≠ endId
  | none => false

/-- State of the Dijkstra loop. -/
structure DState where
  dist : String → JNum
  prev : String → JSV
  hist : List VisitedStep
  pq : List PQItem
  vset : List String

/-- One neighbor relaxation: compute alt from the current distance of u,
and on strict improvement update distance and predecessor and enqueue. -/
def relaxStep (u : String) (st : DState) (nb : AdjEntry) : DState :=
  let alt := (st.dist u).add nb.weight
  if alt.lt (st.dist nb.id) then
    { st with
      dist := Function.update st.dist nb.id alt
      prev := Function.update st.prev nb.id (.str u)
      pq := pqEnqueue st.pq nb.id alt.toQ }
  else st

/-- The forEach over adj[u]: relax each neighbor in order, recomputing
alt from the current distance of u each time, as the source does. -/
def relaxD (u : String) (adjL : List AdjEntry) (s : DState) : DState :=
  adjL.foldl (relaxStep u) s

/-- One result of running the Dijkstra while loop to completion: the
final state, and the hazard identifier when the loop aborted. -/
def dijkstraLoop (nmap : String → Option Node) (adj : AdjIndex)
    (startId endId : String) : Nat → DState → Option (DState × Option String)
  | 0, s => if s.pq.isEmpty then some (s, none) else none
  | fuel + 1, s =>
    match s.pq with
    | [] => some (s, none)
    | item :: rest =>
      let u := item.id
      let s1 : DState := { s with pq := rest }
      if u ∈ s1.vset then dijkstraLoop nmap adj startId endId fuel s1
      else
        let s2 : DState :=
          { s1 with vset := u :: s1.vset, hist := s1.hist ++ [⟨u, (s1.prev u).toOpt⟩] }
        if isHazard nmap startId endId u then
          some (s2, some u)
        else if u = endId then some (s2, none)
        else
          match adjOf adj u with
          | some adjL => dijkstraLoop nmap adj startId endId fuel (relaxD u adjL s2)
          | none => dijkstraLoop nmap adj startId endId fuel s2

/-- runDijkstra, with the while loop on explicit fuel; none signals fuel
exhaustion (the JS loop would still be running). -/
def runDijkstra (graph : GraphData) (startId endId : String) (fuel : Nat) :
    Option AlgoResult :=
  let adj := buildAdjacencyList graph
  let nmap := nodeMapGet graph
  let dist0 : String → JNum :=
    Function.update (graph.nodes.foldl (fun d n => Function.update d n.id .inf)
      (fun _ => .undef)) startId (.fin 0)
  let prev0 : String → JSV :=
    graph.nodes.foldl (fun p n => Function.update p n.id .null) (fun _ => .undef)
  let s0 : DState := ⟨dist0, prev0, [], [⟨startId, 0⟩], []⟩
  match dijkstraLoop nmap adj startId endId fuel s0 with
  | none => none
  | some (s, some u) => some ⟨[], s.hist, .fin 0, some u⟩
  | some (s, none) =>
    some (reconstruct s.prev graph.nodes.length startId endId s.hist (s.dist endId))

/-- State of the A* loop. -/
structure AState where
  gScore : String → JNum
  fScore : String → JNum
  prev : String → JSV
  hist : List VisitedStep
  pq : List PQItem
  vset : List String

/-- The forEach over adj[u] in A*: relax each neighbor with the g-score,
enqueue with the f-score (g plus heuristic). -/
def relaxA (h : String → ℚ) (u : String) (adjL : List AdjEntry) (s : AState) : AState :=
  adjL.foldl
    (fun st nb =>
      let tentativeG := (st.gScore u).add nb.weight
      if tentativeG.lt (st.gScore nb.id) then
        let f := tentativeG.add (h nb.id)
        { st with
          prev := Function.update st.prev nb.id (.str u)
          gScore := Function.update st.gScore nb.id tentativeG
          fScore := Function.update st.fScore nb.id f
          pq := pqEnqueue st.pq nb.id f.toQ }
      else st)
    s

/-- The A* while loop.  Unlike Dijkstra it checks the bomb and the goal
before the settled check, records a step only on the first extraction,
and relaxes neighbors even on a stale extraction. -/
def aStarLoop (nmap : String → Option Node) (adj : AdjIndex) (h : String → ℚ)
    (startId endId : String) : Nat → AState → Option (AState × Option String)
  | 0, s => if s.pq.isEmpty then some (s, none) else none
  | fuel + 1, s =>
    match s.pq with
    | [] => some (s, none)
    | item :: rest =>
      let u := item.id
      let s1 : AState := { s with pq := rest }
      if isHazard nmap startId endId u then
        some ({ s1 with hist := s1.hist ++ [⟨u, (s1.prev u).toOpt⟩] }, some u)
      else if u = endId then
        some ({ s1 with hist := s1.hist ++ [⟨u, (s1.prev u).toOpt⟩] }, none)
      else
        let s2 : AState :=
          if u ∈ s1.vset then s1
          else { s1 with vset := u :: s1.vset, hist := s1.hist ++ [⟨u, (s1.prev u).toOpt⟩] }
        match adjOf adj u with
        | some adjL => aStarLoop nmap adj h startId endId fuel (relaxA h u adjL s2)
        | none => aStarLoop nmap adj h startId endId fuel s2

/-- The A* engine with the heuristic abstracted; the source closes over
nodeMap and endNode to build it. -/
def runAStarH (graph : GraphData) (h : String → ℚ) (startId endId : String)
    (fuel : Nat) : Option AlgoResult :=
  let adj := buildAdjacencyList graph
  let nmap := nodeMapGet graph
  let g0 : String → JNum :=
    Function.update (graph.nodes.foldl (fun d n => Function.update d n.id .inf)
      (fun _ => .undef)) startId (.fin 0)
  let f0 : String → JNum :=
    Function.update (graph.nodes.foldl (fun d n => Function.update d n.id .inf)
      (fun _ => .undef)) startId (.fin (h startId))
  let prev0 : String → JSV :=
    graph.nodes.foldl (fun p n => Function.update p n.id .null) (fun _ => .undef)
  let s0 : AState := ⟨g0, f0, prev0, [], [⟨startId, h startId⟩], []⟩
  match aStarLoop nmap adj h startId endId fuel s0 with
  | none => none
  | some (s, some u) => some ⟨[], s.hist, .fin 0, some u⟩
  | some (s, none) =>
    some (reconstruct s.prev graph.nodes.length startId endId s.hist (s.gScore endId))

/-- runAStar: look up the end node (returning the no-path result when it
is absent), then run the loop with the Euclidean heuristic. -/
def runAStar (sqrtFn : ℚ → ℚ) (graph : GraphData) (startId endId : String)
    (fuel : Nat) : Option AlgoResult :=
  match nodeMapGet graph endId with
  | none => some ⟨[], [], .fin 0, none⟩
  | some endNode =>
    runAStarH graph
      (fun id =>
        match nodeMapGet graph id with
        | none => 0
        | some n => getDistance sqrtFn n endNode)
      startId endId fuel

/-! ### Derived notions used to state the claims -/

/-- The node identifiers of a graph, in order. -/
def nodeIds (graph : GraphData) : List String := graph.nodes.map (fun n => n.id)

/-- All link weights are nonnegative, as the data model specifies for
edge weights. -/
def NonnegWeights (graph : GraphData) : Prop := ∀ l ∈ graph.links, 0 ≤ l.distance

/-- No node of the graph is flagged hazardous. -/
def HazardFree (graph : GraphData) : Prop := ∀ n ∈ graph.nodes, n.isBomb = false

/-- The neighbor entry ⟨v, w⟩ appears in the adjacency index under u. -/
def AdjStep (adj : AdjIndex) (u v : String) (w : ℚ) : Prop :=
  ∃ L, adjOf adj u = some L ∧ (⟨v, w⟩ : AdjEntry) ∈ L

/-- A walk through the adjacency index: the node sequence visited and
its total weight.  A trivial walk still requires its node to have an
entry, so walks live entirely inside the index. -/
inductive IsWalk (adj : AdjIndex) : String → String → List String → ℚ → Prop where
  | nil (u : String) (h : (adjOf adj u).isSome) : IsWalk adj u u [u] 0
  | cons {u v e : String} {l : List String} {c w : ℚ}
      (hstep : AdjStep adj u v w) (tail : IsWalk adj v e l c) :
      IsWalk adj u e (u :: l) (w + c)

/-- The end node is reachable from the start in the adjacency index. -/
def Reachable (adj : AdjIndex) (s e : String) : Prop := ∃ l c, IsWalk adj s e l c

/-- The settled ids of a result, in settlement order. -/
def histIds (hist : List VisitedStep) : List String := hist.map (fun v => v.id)

/-- A priority-queue fuel bound: one initial entry plus one enqueue per
adjacency entry suffices for every extraction the loops can perform
(each neighbor list is relaxed at most once in Dijkstra; the same bound
applies to A* when the heuristic is consistent). -/
def adjDegSum (adj : AdjIndex) : Nat := (adj.map (fun p => p.2.length)).sum

def dijkstraFuel (graph : GraphData) : Nat := 1 + adjDegSum (buildAdjacencyList graph)

/-! ### Invariants of the search loops -/

/-- Each recorded step's predecessor appears among the strictly earlier
steps; stated on the reversed history, newest first. -/
def RevOK : List VisitedStep → Prop
  | [] => True
  | v :: rest => (∀ u, v.«from» = some u → u ∈ histIds rest) ∧ RevOK rest

/-- The predecessor chain from the start to v: the node sequence whose
links are recorded in prev, tip last, exactly what reconstruction walks. -/
inductive PrevChain (prev : String → JSV) (s : String) : String → List String → Prop where
  | base : prev s = .null → PrevChain prev s s [s]
  | step {u v : String} {ids : List String} :
      PrevChain prev s u ids → prev v = .str u → PrevChain prev s v (ids ++ [v])

/-- v carries a finite distance realized by its predecessor chain, a
duplicate-free walk through settled nodes. -/
def ChainOK (adj : AdjIndex) (prev : String → JSV) (dist : String → JNum)
    (startId v : String) (vset : List String) : Prop :=
  ∃ ids dv, dist v = .fin dv ∧ PrevChain prev startId v ids ∧
    IsWalk adj startId v ids dv ∧ ids.Nodup ∧ ∀ x ∈ ids, x = v ∨ x ∈ vset

/-- The invariant of the Dijkstra loop that holds for arbitrary edge
weights. -/
structure DInvB (nmap : String → Option Node) (adj : AdjIndex) (startId endId : String)
    (s : DState) : Prop where
  sorted : List.Sorted pqLE s.pq
  vset_hist : s.vset = (histIds s.hist).reverse
  nodup : (histIds s.hist).Nodup
  revok : RevOK s.hist.reverse
  prev_hist : ∀ v u, s.prev v = .str u → u ∈ histIds s.hist
  no_end : endId ∉ s.vset
  no_hazard : ∀ u ∈ histIds s.hist, isHazard nmap startId endId u = false
  pq_ids : ∀ it ∈ s.pq, it.id = startId ∨ it.id ∈ adjKeys adj
  vset_ids : ∀ v ∈ s.vset, v = startId ∨ v ∈ adjKeys adj
  dist_keys : ∀ v ∈ adjKeys adj, s.dist v ≠ .undef
  dist_sound : ∀ v c, s.dist v = .fin c → (v = startId ∧ c = 0) ∨ ∃ l, IsWalk adj startId v l c
  cover : ∀ v c, s.dist v = .fin c → v ∉ s.vset → ∃ it ∈ s.pq, it.id = v ∧ it.priority ≤ c
  prev_key : ∀ v u, s.prev v = .str u → (adjOf adj u).isSome
  prev_dom : ∀ k, k ∉ adjKeys adj → s.prev k = .undef
  start_fin : ∃ c, s.dist startId = .fin c

/-- The additional invariant of the Dijkstra loop under nonnegative
weights and a start node present in the index. -/
structure DInvO (adj : AdjIndex) (startId : String) (s : DState) : Prop where
  settled_min : ∀ u ∈ s.vset, ∃ du, s.dist u = .fin du ∧
    ∀ l c, IsWalk adj startId u l c → du ≤ c
  settled_relaxed : ∀ u ∈ s.vset, ∀ du, s.dist u = .fin du → ∀ L, adjOf adj u = some L →
    ∀ nb ∈ L, ∃ dy, s.dist nb.id = .fin dy ∧ dy ≤ du + nb.weight
  chain_settled : ∀ v ∈ s.vset, ChainOK adj s.prev s.dist startId v s.vset
  chain_queued : ∀ it ∈ s.pq, ChainOK adj s.prev s.dist startId it.id s.vset
  pq_dist : ∀ it ∈ s.pq, ∃ c, s.dist it.id = .fin c ∧ c ≤ it.priority
  prev_start : s.prev startId = .null
  dist_start : s.dist startId = .fin 0

/-- The optimality invariant in the middle of relaxing the neighbor list
of the freshly settled node u: u's own relaxation obligations are
deferred for the entries still pending. -/
structure DInvO2 (adj : AdjIndex) (startId u : String) (pending : List AdjEntry)
    (s : DState) : Prop where
  settled_min : ∀ x ∈ s.vset, ∃ dx, s.dist x = .fin dx ∧
    ∀ l c, IsWalk adj startId x l c → dx ≤ c
  settled_relaxed2 : ∀ x ∈ s.vset, ∀ dx, s.dist x = .fin dx → ∀ L, adjOf adj x = some L →
    ∀ nb ∈ L, (x = u ∧ nb ∈ pending) ∨ ∃ dy, s.dist nb.id = .fin dy ∧ dy ≤ dx + nb.weight
  chain_settled : ∀ v ∈ s.vset, ChainOK adj s.prev s.dist startId v s.vset
  chain_queued : ∀ it ∈ s.pq, ChainOK adj s.prev s.dist startId it.id s.vset
  pq_dist : ∀ it ∈ s.pq, ∃ c, s.dist it.id = .fin c ∧ c ≤ it.priority
  prev_start : s.prev startId = .null
  dist_start : s.dist startId = .fin 0

/-- The facts the Dijkstra loop guarantees about a completed run under
nonnegative weights, on top of DBasicPost. -/
structure DOptPost (adj : AdjIndex) (startId endId : String)
    (out : DState × Option String) : Prop where
  end_settled : out.2 = none → endId ∈ out.1.vset →
    ChainOK adj out.1.prev out.1.dist startId endId out.1.vset ∧
    (∃ de, out.1.dist endId = .fin de ∧ ∀ l c, IsWalk adj startId endId l c → de ≤ c)
  no_settle : out.2 = none → endId ∉ out.1.vset → DInvO adj startId out.1
  pq_empty : out.2 = none → endId ∉ out.1.vset → out.1.pq = []
  vset_sub : ∀ v ∈ out.1.vset, v = startId ∨ v ∈ adjKeys adj

/-- The facts the Dijkstra loop guarantees about a completed run from
state s, independent of any weight assumption. -/
structure DBasicPost (nmap : String → Option Node) (adj : AdjIndex) (startId endId : String)
    (s : DState) (out : DState × Option String) : Prop where
  ext : ∃ tail, out.1.hist = s.hist ++ tail
  nodup : (histIds out.1.hist).Nodup
  revok : RevOK out.1.hist.reverse
  dist_keys : ∀ v ∈ adjKeys adj, out.1.dist v ≠ .undef
  dist_sound : ∀ v c, out.1.dist v = .fin c →
    (v = startId ∧ c = 0) ∨ ∃ l, IsWalk adj startId v l c
  cover : ∀ v c, out.1.dist v = .fin c → v ∉ out.1.vset →
    ∃ it ∈ out.1.pq, it.id = v ∧ it.priority ≤ c
  hazexit : ∀ u, out.2 = some u → isHazard nmap startId endId u = true ∧
    ∃ pre f, out.1.hist = pre ++ [⟨u, f⟩]
  nohaz : out.2 = none → ∀ u ∈ histIds out.1.hist, isHazard nmap startId endId u = false
  endexit : out.2 = none →
    (out.1.pq = [] ∧ endId ∉ out.1.vset) ∨ ∃ pre f, out.1.hist = pre ++ [⟨endId, f⟩]
  vset_hist : out.1.vset = (histIds out.1.hist).reverse
  prev_key : ∀ v u, out.1.prev v = .str u → (adjOf adj u).isSome
  prev_dom : ∀ k, k ∉ adjKeys adj → out.1.prev k = .undef
  start_fin : ∃ c, out.1.dist startId = .fin c

/-- The invariant of the A* loop that holds for arbitrary edge weights
and an arbitrary heuristic. -/
structure AInvB (nmap : String → Option Node) (adj : AdjIndex) (h : String → ℚ)
    (startId endId : String) (s : AState) : Prop where
  sorted : List.Sorted pqLE s.pq
  vset_hist : s.vset = (histIds s.hist).reverse
  nodup : (histIds s.hist).Nodup
  revok : RevOK s.hist.reverse
  prev_hist : ∀ v u, s.prev v = .str u → u ∈ histIds s.hist
  no_end : endId ∉ s.vset
  no_hazard : ∀ u ∈ histIds s.hist, isHazard nmap startId endId u = false
  pq_ids : ∀ it ∈ s.pq, it.id = startId ∨ it.id ∈ adjKeys adj
  vset_ids : ∀ v ∈ s.vset, v = startId ∨ v ∈ adjKeys adj
  g_keys : ∀ v ∈ adjKeys adj, s.gScore v ≠ .undef
  g_sound : ∀ v c, s.gScore v = .fin c → (v = startId ∧ c = 0) ∨ ∃ l, IsWalk adj startId v l c
  cover : ∀ v c, s.gScore v = .fin c → v ∉ s.vset →
    ∃ it ∈ s.pq, it.id = v ∧ it.priority ≤ c + h v
  prev_key : ∀ v u, s.prev v = .str u → (adjOf adj u).isSome
  prev_dom : ∀ k, k ∉ adjKeys adj → s.prev k = .undef
  start_fin : ∃ c, s.gScore startId = .fin c

/-- The facts the A* loop guarantees about a completed run from state s,
independent of any weight or heuristic assumption. -/
structure ABasicPost (nmap : String → Option Node) (adj : AdjIndex) (h : String → ℚ)
    (startId endId : String) (s : AState) (out : AState × Option String) : Prop where
  ext : ∃ tail, out.1.hist = s.hist ++ tail
  nodup : (histIds out.1.hist).Nodup
  revok : RevOK out.1.hist.reverse
  g_keys : ∀ v ∈ adjKeys adj, out.1.gScore v ≠ .undef
  g_sound : ∀ v c, out.1.gScore v = .fin c →
    (v = startId ∧ c = 0) ∨ ∃ l, IsWalk adj startId v l c
  cover : out.2 = none → endId ∉ histIds out.1.hist →
    ∀ v c, out.1.gScore v = .fin c → v ∉ out.1.vset →
    ∃ it ∈ out.1.pq, it.id = v ∧ it.priority ≤ c + h v
  hazexit : ∀ u, out.2 = some u → isHazard nmap startId endId u = true ∧
    ∃ pre f, out.1.hist = pre ++ [⟨u, f⟩]
  nohaz : out.2 = none → ∀ u ∈ histIds out.1.hist, isHazard nmap startId endId u = false
  endexit : out.2 = none →
    (out.1.pq = [] ∧ endId ∉ histIds out.1.hist ∧ endId ∉ out.1.vset) ∨
    ∃ pre f, out.1.hist = pre ++ [⟨endId, f⟩]
  prev_key : ∀ v u, out.1.prev v = .str u → (adjOf adj u).isSome
  prev_dom : ∀ k, k ∉ adjKeys adj → out.1.prev k = .undef
  start_fin : ∃ c, out.1.gScore startId = .fin c

/-! ### A specification-level priority queue, for the queue contract -/

/-- An operation on the priority queue. -/
inductive QOp where
  | enq (id : String) (priority : ℚ) : QOp
  | deq : QOp
deriving DecidableEq, Repr

/-- Modelled from the spec: pending items tagged with enqueue timestamps,
kept sorted by priority and, among equal priorities, by timestamp, so the
head is always the lowest-priority pending item, the first inserted among
equal priorities.  extract-min removes the head. -/
def specInsert (x : Nat × String × ℚ) : List (Nat × String × ℚ) → List (Nat × String × ℚ)
  | [] => [x]
  | y :: ys =>
    if x.2.2 < y.2.2 ∨ (x.2.2 = y.2.2 ∧ x.1 < y.1) then x :: y :: ys
    else y :: specInsert x ys

/-- Run a sequence of operations on the specification queue, threading a
timestamp counter. -/
def specRun : List QOp → List (Nat × String × ℚ) × Nat → List (Nat × String × ℚ) × Nat
  | [], st => st
  | .enq i p :: ops, (pend, t) => specRun ops (specInsert (t, i, p) pend, t + 1)
  | .deq :: ops, (pend, t) => specRun ops (pend.tail, t)

/-- Run a sequence of operations on the implementation queue. -/
def pqRun : List QOp → List PQItem → List PQItem
  | [], q => q
  | .enq i p :: ops, q => pqRun ops (pqEnqueue q i p)
  | .deq :: ops, q =>
    pqRun ops (match pqDequeue q with | none => q | some (_, rest) => rest)

/-- The state after extracting and settling the head entry. -/
def settleState (s : DState) (it : PQItem) (rest : List PQItem) : DState :=
  { s with
    pq := rest
    vset := it.id :: s.vset
    hist := s.hist ++ [⟨it.id, (s.prev it.id).toOpt⟩] }

/-- One A* neighbor relaxation, the body of the forEach in the source:
on strict g-improvement update predecessor, g, f, and enqueue with the
f-score. -/
def relaxAStep (h : String → ℚ) (u : String) (st : AState) (nb : AdjEntry) : AState :=
  let tentativeG := (st.gScore u).add nb.weight
  if tentativeG.lt (st.gScore nb.id) then
    let f := tentativeG.add (h nb.id)
    { st with
      prev := Function.update st.prev nb.id (.str u)
      gScore := Function.update st.gScore nb.id tentativeG
      fScore := Function.update st.fScore nb.id f
      pq := pqEnqueue st.pq nb.id f.toQ }
  else st

/-- The A* state after extracting and settling a fresh head entry. -/
def aSettle (s : AState) (it : PQItem) (rest : List PQItem) : AState :=
  { s with
    pq := rest
    vset := it.id :: s.vset
    hist := s.hist ++ [⟨it.id, (s.prev it.id).toOpt⟩] }

/-- The initial distance map of runDijkstra: every node starts at
Infinity, then the start identifier is set to 0 (even when it is not a
node). -/
def distInit (graph : GraphData) (startId : String) : String → JNum :=
  Function.update (graph.nodes.foldl (fun d n => Function.update d n.id .inf)
    (fun _ => .undef)) startId (.fin 0)

/-- The initial predecessor map of both runners: every node starts at
null. -/
def prevInit (graph : GraphData) : String → JSV :=
  graph.nodes.foldl (fun p n => Function.update p n.id .null) (fun _ => .undef)

/-- The initial state of the Dijkstra loop. -/
def dInit (graph : GraphData) (startId : String) : DState :=
  ⟨distInit graph startId, prevInit graph, [], [⟨startId, 0⟩], []⟩

/-- The initial f-score map of runAStarH. -/
def fInit (graph : GraphData) (h : String → ℚ) (startId : String) : String → JNum :=
  Function.update (graph.nodes.foldl (fun d n => Function.update d n.id .inf)
    (fun _ => .undef)) startId (.fin (h startId))

/-- The initial state of the A* loop. -/
def aInit (graph : GraphData) (h : String → ℚ) (startId : String) : AState :=
  ⟨distInit graph startId, fInit graph h startId, prevInit graph, [],
    [⟨startId, h startId⟩], []⟩

/-- The strict lexicographic order on timestamped pending items:
priority first, then insertion order. -/
def specLT (x y : Nat × String × ℚ) : Prop :=
  x.2.2 < y.2.2 ∨ (x.2.2 = y.2.2 ∧ x.1 < y.1)

/-- Forget the timestamp of a pending item. -/
def forgetT (x : Nat × String × ℚ) : PQItem := ⟨x.2.1, x.2.2⟩

/-- Insert after every entry of no larger priority: where a stable sort
puts a newly appended item into an already sorted list. -/
def insertAfterLE (x : PQItem) : List PQItem → List PQItem
  | [] => [x]
  | y :: ys => if x.priority < y.priority then x :: y :: ys else y :: insertAfterLE x ys

/-- The heuristic runAStar closes over: Euclidean distance to the end
node through the abstracted square root, 0 for unknown identifiers. -/
def euclidH (sqrtFn : ℚ → ℚ) (graph : GraphData) (endNode : Node) : String → ℚ :=
  fun id =>
    match nodeMapGet graph id with
    | none => 0
    | some n => getDistance sqrtFn n endNode

/-- h never overestimates across an edge of the index. -/
def Consistent (adj : AdjIndex) (h : String → ℚ) : Prop :=
  ∀ a b w, AdjStep adj a b w → h a ≤ w + h b

/-- The optimality invariant of the A* loop under nonnegative weights
and a consistent heuristic. -/
structure AInvO (adj : AdjIndex) (h : String → ℚ) (startId : String) (s : AState) :
    Prop where
  settled_min : ∀ x ∈ s.vset, ∃ dx, s.gScore x = .fin dx ∧
    ∀ l c, IsWalk adj startId x l c → dx ≤ c
  settled_relaxed : ∀ x ∈ s.vset, ∀ dx, s.gScore x = .fin dx → ∀ L, adjOf adj x = some L →
    ∀ nb ∈ L, ∃ dy, s.gScore nb.id = .fin dy ∧ dy ≤ dx + nb.weight
  chain_settled : ∀ v ∈ s.vset, ChainOK adj s.prev s.gScore startId v s.vset
  chain_queued : ∀ it ∈ s.pq, ChainOK adj s.prev s.gScore startId it.id s.vset
  pq_g : ∀ it ∈ s.pq, ∃ c, s.gScore it.id = .fin c ∧ c + h it.id ≤ it.priority
  prev_start : s.prev startId = .null
  g_start : s.gScore startId = .fin 0

/-- The A* optimality invariant in the middle of relaxing the neighbor
list of the freshly settled node u. -/
structure AInvO2 (adj : AdjIndex) (h : String → ℚ) (startId u : String)
    (pending : List AdjEntry) (s : AState) : Prop where
  settled_min : ∀ x ∈ s.vset, ∃ dx, s.gScore x = .fin dx ∧
    ∀ l c, IsWalk adj startId x l c → dx ≤ c
  settled_relaxed2 : ∀ x ∈ s.vset, ∀ dx, s.gScore x = .fin dx → ∀ L, adjOf adj x = some L →
    ∀ nb ∈ L, (x = u ∧ nb ∈ pending) ∨ ∃ dy, s.gScore nb.id = .fin dy ∧ dy ≤ dx + nb.weight
  chain_settled : ∀ v ∈ s.vset, ChainOK adj s.prev s.gScore startId v s.vset
  chain_queued : ∀ it ∈ s.pq, ChainOK adj s.prev s.gScore startId it.id s.vset
  pq_g : ∀ it ∈ s.pq, ∃ c, s.gScore it.id = .fin c ∧ c + h it.id ≤ it.priority
  prev_start : s.prev startId = .null
  g_start : s.gScore startId = .fin 0

/-- The facts a completed A* run guarantees under nonnegative weights
and a consistent heuristic.  The end entered the history exactly when it
was ever extracted, and the loop breaks at that extraction. -/
structure AOptPost (adj : AdjIndex) (h : String → ℚ) (startId endId : String)
    (out : AState × Option String) : Prop where
  endopt : out.2 = none → endId ∈ histIds out.1.hist →
    ChainOK adj out.1.prev out.1.gScore startId endId out.1.vset ∧
    (∃ de, out.1.gScore endId = .fin de ∧ ∀ l c, IsWalk adj startId endId l c → de ≤ c)
  no_settle : out.2 = none → endId ∉ histIds out.1.hist → AInvO adj h startId out.1
  pq_empty : out.2 = none → endId ∉ histIds out.1.hist → out.1.pq = []
  vset_sub : ∀ v ∈ out.1.vset, v = startId ∨ v ∈ adjKeys adj

/-! ### Concrete graphs used as counterexamples and witnesses -/

/-- Three collinear nodes (positions 0, 11 and 1 on the x axis) whose
direct start-to-end link is heavily overweighted: the straight-line
heuristic to E then overestimates the two-hop cost through M, so A*
settles E via the direct link.  Every pairwise squared distance is a
perfect square, so Math.sqrt computes these heuristics exactly. -/
def gHeur : GraphData :=
  ⟨[⟨"S", 0, 0, 0, false⟩, ⟨"M", 11, 0, 0, false⟩, ⟨"E", 1, 0, 0, false⟩],
   [⟨"S", "E", 10⟩, ⟨"S", "M", 1⟩, ⟨"M", "E", 1⟩]⟩

/-- Two nodes, one literally named "undefined", and an end identifier
absent from the graph: the predecessor walk reads previous[undefined],
which JS coerces to previous["undefined"], resurrecting a real chain. -/
def gUndef : GraphData :=
  ⟨[⟨"A", 0, 0, 0, false⟩, ⟨"undefined", 1, 0, 0, false⟩],
   [⟨"A", "undefined", 1⟩]⟩

/-- A hazard adjacent to the start and an isolated end node: the search
aborts on the hazard even though the end is unreachable. -/
def gAbort : GraphData :=
  ⟨[⟨"A", 0, 0, 0, false⟩, ⟨"B", 1, 0, 0, true⟩, ⟨"C", 50, 0, 0, false⟩],
   [⟨"A", "B", 1⟩]⟩

/-- A three node line with a hazard in the middle, the spec's own
short-circuit scenario. -/
def gLine3 : GraphData :=
  ⟨[⟨"A", 0, 0, 0, false⟩, ⟨"B", 1, 0, 0, true⟩, ⟨"C", 2, 0, 0, false⟩],
   [⟨"A", "B", 1⟩, ⟨"B", "C", 1⟩]⟩

/-- The hazard-free variant of the line. -/
def gLine3Free : GraphData :=
  ⟨[⟨"A", 0, 0, 0, false⟩, ⟨"B", 1, 0, 0, false⟩, ⟨"C", 2, 0, 0, false⟩],
   [⟨"A", "B", 1⟩, ⟨"B", "C", 1⟩]⟩

/-! ### Priority queue ordering facts -/

instance : IsTotal PQItem pqLE := ⟨fun a b => le_total a.priority b.priority⟩

instance : IsTrans PQItem pqLE := ⟨fun _ _ _ h h2 => le_trans h h2⟩

theorem pqEnqueue_perm (items : List PQItem) (id : String) (p : ℚ) :
    List.Perm (pqEnqueue items id p) (items ++ [⟨id, p⟩]) :=
  List.perm_insertionSort _ _

theorem mem_pqEnqueue {items : List PQItem} {id : String} {p : ℚ} {x : PQItem} :
    x ∈ pqEnqueue items id p ↔ x ∈ items ∨ x = ⟨id, p⟩ := by
  rw [pqEnqueue, List.mem_insertionSort, List.mem_append, List.mem_singleton]

theorem pqEnqueue_sorted (items : List PQItem) (id : String) (p : ℚ) :
    List.Sorted pqLE (pqEnqueue items id p) :=
  List.sorted_insertionSort _ _

theorem pqEnqueue_length (items : List PQItem) (id : String) (p : ℚ) :
    (pqEnqueue items id p).length = items.length + 1 := by
  rw [(pqEnqueue_perm items id p).length_eq, List.length_append]
  rfl

theorem sorted_head_min {x : PQItem} {rest : List PQItem}
    (h : List.Sorted pqLE (x :: rest)) : ∀ y ∈ rest, x.priority ≤ y.priority :=
  fun y hy => List.rel_of_sorted_cons h y hy

/-! ### Adjacency index lemmas -/

theorem adjOf_nil (k : String) : adjOf [] k = none := rfl

theorem adjOf_cons (k' : String) (v' : List AdjEntry) (tl : AdjIndex) (k : String) :
    adjOf ((k', v') :: tl) k = if k' = k then some v' else adjOf tl k := by
  by_cases h : k' = k <;> simp [adjOf, List.find?_cons, h]

theorem adjOf_isSome_iff {adj : AdjIndex} {k : String} :
    (adjOf adj k).isSome ↔ k ∈ adjKeys adj := by
  induction adj with
  | nil => simp [adjOf, adjKeys]
  | cons hd tl ih =>
    rw [show (hd.1, hd.2) :: tl = hd :: tl from rfl, ← @Prod.mk.eta _ _ hd, adjOf_cons]
    by_cases h : hd.1 = k
    · simp [h, adjKeys]
    · simpa [adjKeys, h, Ne.symm h] using ih

theorem adjOf_objSet_self (adj : AdjIndex) (k : String) (v : List AdjEntry) :
    adjOf (objSet adj k v) k = some v := by
  induction adj with
  | nil => simp [objSet, adjOf_cons]
  | cons hd tl ih =>
    rcases hd with ⟨k', v'⟩
    by_cases h : k' = k
    · simp [objSet, h, adjOf_cons]
    · simp [objSet, h, adjOf_cons, ih]

theorem adjOf_objSet_ne (adj : AdjIndex) {k k' : String} (v : List AdjEntry)
    (h : k' ≠ k) : adjOf (objSet adj k v) k' = adjOf adj k' := by
  induction adj with
  | nil => simp [objSet, adjOf_cons, Ne.symm h]
  | cons hd tl ih =>
    rcases hd with ⟨k1, v1⟩
    by_cases hh : k1 = k
    · subst hh
      simp [objSet, adjOf_cons, Ne.symm h, h]
    · simp only [objSet, beq_iff_eq, hh, if_false]
      by_cases hk : k1 = k'
      · simp [adjOf_cons, hk]
      · simp [adjOf_cons, hk, ih]

theorem adjKeys_objPush (adj : AdjIndex) (k : String) (e : AdjEntry) :
    adjKeys (objPush adj k e) = adjKeys adj := by
  induction adj with
  | nil => rfl
  | cons hd tl ih =>
    rcases hd with ⟨k1, v1⟩
    by_cases h : k1 = k
    · simp [objPush, h, adjKeys]
    · simp only [objPush, beq_iff_eq, h, if_false]
      simpa [adjKeys] using ih

theorem adjOf_objPush_self {adj : AdjIndex} {k : String} {l : List AdjEntry}
    (e : AdjEntry) (h : adjOf adj k = some l) :
    adjOf (objPush adj k e) k = some (l ++ [e]) := by
  induction adj with
  | nil => simp [adjOf_nil] at h
  | cons hd tl ih =>
    rcases hd with ⟨k1, v1⟩
    by_cases hh : k1 = k
    · rw [adjOf_cons, if_pos hh] at h
      cases h
      simp [objPush, hh, adjOf_cons]
    · rw [adjOf_cons, if_neg hh] at h
      simp only [objPush, beq_iff_eq, hh, if_false]
      simp [adjOf_cons, hh, ih h]

theorem adjOf_objPush_ne (adj : AdjIndex) {k k' : String} (e : AdjEntry)
    (h : k' ≠ k) : adjOf (objPush adj k e) k' = adjOf adj k' := by
  induction adj with
  | nil => rfl
  | cons hd tl ih =>
    rcases hd with ⟨k1, v1⟩
    by_cases hh : k1 = k
    · subst hh
      simp [objPush, adjOf_cons, Ne.symm h, h]
    · simp only [objPush, beq_iff_eq, hh, if_false]
      by_cases hk : k1 = k'
      · simp [adjOf_cons, hk]
      · simp [adjOf_cons, hk, ih]

theorem objPush_of_none {adj : AdjIndex} {k : String} (e : AdjEntry)
    (h : adjOf adj k = none) : objPush adj k e = adj := by
  induction adj with
  | nil => rfl
  | cons hd tl ih =>
    rcases hd with ⟨k1, v1⟩
    by_cases hh : k1 = k
    · simp [adjOf_cons, hh] at h
    · rw [adjOf_cons, if_neg hh] at h
      simp [objPush, hh, ih h]

theorem adjOf_objPush_isSome (adj : AdjIndex) (k : String) (e : AdjEntry) (k' : String) :
    (adjOf (objPush adj k e) k').isSome = (adjOf adj k').isSome := by
  by_cases h : k' = k
  · subst h
    cases hl : adjOf adj k' with
    | none => rw [objPush_of_none e hl, hl]
    | some l => rw [adjOf_objPush_self e hl]; rfl
  · rw [adjOf_objPush_ne adj e h]

/-! ### Properties of buildAdjacencyList -/

theorem initFold_adjOf (nodes : List Node) (adj : AdjIndex) (k : String) :
    adjOf (nodes.foldl initStep adj) k =
      if k ∈ nodes.map (fun n => n.id) then some [] else adjOf adj k := by
  induction nodes generalizing adj with
  | nil => simp
  | cons n ns ih =>
    simp only [List.foldl_cons, List.map_cons, List.mem_cons]
    rw [ih]
    by_cases h : k ∈ ns.map (fun n => n.id)
    · simp [h]
    · by_cases h2 : k = n.id
      · simp [h, h2, initStep, adjOf_objSet_self]
      · simp [h, h2, initStep, adjOf_objSet_ne _ _ h2]

theorem linkStep_isSome (adj : AdjIndex) (l : Link) (k : String) :
    (adjOf (linkStep adj l) k).isSome = (adjOf adj k).isSome := by
  unfold linkStep
  split
  · rw [adjOf_objPush_isSome, adjOf_objPush_isSome]
  · rfl

theorem linksFold_isSome (ls : List Link) (adj : AdjIndex) (k : String) :
    (adjOf (ls.foldl linkStep adj) k).isSome = (adjOf adj k).isSome := by
  induction ls generalizing adj with
  | nil => rfl
  | cons l ls ih => rw [List.foldl_cons, ih, linkStep_isSome]

/-- C6, existence part: the index has an entry exactly for the node
identifiers of the graph. -/
theorem build_isSome_iff (g : GraphData) (k : String) :
    (adjOf (buildAdjacencyList g) k).isSome ↔ k ∈ nodeIds g := by
  rw [buildAdjacencyList, linksFold_isSome, initFold_adjOf]
  by_cases h : k ∈ g.nodes.map (fun n => n.id) <;> simp [h, nodeIds, adjOf_nil]

theorem adjStep_objPush_iff {adj : AdjIndex} {k : String} {lk : List AdjEntry}
    {e : AdjEntry} (h : adjOf adj k = some lk) {a b : String} {w : ℚ} :
    AdjStep (objPush adj k e) a b w ↔ AdjStep adj a b w ∨ (a = k ∧ (⟨b, w⟩ : AdjEntry) = e) := by
  by_cases ha : a = k
  · subst ha
    constructor
    · rintro ⟨L, hL, hm⟩
      rw [adjOf_objPush_self e h] at hL
      cases hL
      rcases List.mem_append.mp hm with hm | hm
      · exact Or.inl ⟨lk, h, hm⟩
      · exact Or.inr ⟨rfl, List.mem_singleton.mp hm⟩
    · rintro (⟨L, hL, hm⟩ | ⟨-, hm⟩)
      · rw [h] at hL
        cases hL
        exact ⟨_, adjOf_objPush_self e h, List.mem_append.mpr (Or.inl hm)⟩
      · exact ⟨_, adjOf_objPush_self e h,
          List.mem_append.mpr (Or.inr (List.mem_singleton.mpr hm))⟩
  · rw [AdjStep, adjOf_objPush_ne adj e ha]
    simp [AdjStep, ha]

theorem adjStep_linkStep_iff {adj : AdjIndex} {l : Link} {a b : String} {w : ℚ} :
    AdjStep (linkStep adj l) a b w ↔
      AdjStep adj a b w ∨
        (((adjOf adj l.source).isSome ∧ (adjOf adj l.target).isSome) ∧
          ((a = l.source ∧ b = l.target) ∨ (a = l.target ∧ b = l.source)) ∧ w = l.distance) := by
  unfold linkStep
  cases hg : ((adjOf adj l.source).isSome && (adjOf adj l.target).isSome) with
  | false =>
    simp only [Bool.false_eq_true, if_false]
    rw [Bool.and_eq_false_iff] at hg
    constructor
    · exact Or.inl
    · rintro (h | ⟨⟨h1, h2⟩, -⟩)
      · exact h
      · rcases hg with hg | hg <;> simp [hg] at h1 h2
  | true =>
    simp only [if_true]
    rw [Bool.and_eq_true] at hg
    obtain ⟨ls, hls⟩ := Option.isSome_iff_exists.mp hg.1
    obtain ⟨lt, hlt⟩ := Option.isSome_iff_exists.mp hg.2
    have hmid : adjOf (objPush adj l.source ⟨l.target, l.distance⟩) l.target =
        some (if l.target = l.source then ls ++ [⟨l.target, l.distance⟩] else lt) := by
      by_cases he : l.target = l.source
      · rw [if_pos he, he, adjOf_objPush_self _ hls]
      · rw [if_neg he, adjOf_objPush_ne adj _ he, hlt]
    rw [adjStep_objPush_iff hmid, adjStep_objPush_iff hls]
    have hg1 : (adjOf adj l.source).isSome := hg.1
    have hg2 : (adjOf adj l.target).isSome := hg.2
    constructor
    · rintro ((h | ⟨ha, hb⟩) | ⟨ha, hb⟩)
      · exact Or.inl h
      · cases hb
        exact Or.inr ⟨⟨hg1, hg2⟩, Or.inl ⟨ha, rfl⟩, rfl⟩
      · cases hb
        exact Or.inr ⟨⟨hg1, hg2⟩, Or.inr ⟨ha, rfl⟩, rfl⟩
    · rintro (h | ⟨-, (⟨ha, hb⟩ | ⟨ha, hb⟩), hw⟩)
      · exact Or.inl (Or.inl h)
      · subst ha hb hw
        exact Or.inl (Or.inr ⟨rfl, rfl⟩)
      · subst ha hb hw
        exact Or.inr ⟨rfl, rfl⟩

theorem adjStep_initFold {nodes : List Node} {a b : String} {w : ℚ} :
    ¬ AdjStep (nodes.foldl initStep []) a b w := by
  rintro ⟨L, hL, hm⟩
  rw [initFold_adjOf] at hL
  by_cases h : a ∈ nodes.map (fun n => n.id)
  · rw [if_pos h] at hL
    cases hL
    exact List.not_mem_nil _ hm
  · rw [if_neg h] at hL
    exact Option.noConfusion hL

/-- C6, symmetry part: B is a neighbor of A with weight w exactly when A
is a neighbor of B with weight w. -/
theorem build_symm (g : GraphData) (a b : String) (w : ℚ) :
    AdjStep (buildAdjacencyList g) a b w ↔ AdjStep (buildAdjacencyList g) b a w := by
  rw [buildAdjacencyList]
  have main : ∀ (ls : List Link) (adj : AdjIndex),
      (∀ x y ω, AdjStep adj x y ω ↔ AdjStep adj y x ω) →
      ∀ x y ω, AdjStep (ls.foldl linkStep adj) x y ω ↔
        AdjStep (ls.foldl linkStep adj) y x ω := by
    intro ls
    induction ls with
    | nil => intro adj h; exact h
    | cons l ls ih =>
      intro adj h x y ω
      refine ih _ (fun x y ω => ?_) x y ω
      rw [adjStep_linkStep_iff, adjStep_linkStep_iff, h x y ω]
      constructor <;>
        · rintro (h1 | ⟨hg, (⟨ha, hb⟩ | ⟨ha, hb⟩), hw⟩)
          · exact Or.inl h1
          · exact Or.inr ⟨hg, Or.inr ⟨hb, ha⟩, hw⟩
          · exact Or.inr ⟨hg, Or.inl ⟨hb, ha⟩, hw⟩
  exact main g.links _ (fun x y ω => iff_of_false adjStep_initFold adjStep_initFold) a b w

/-- Every recorded neighbor weight is the weight of some link. -/
theorem build_weights {g : GraphData} {a b : String} {w : ℚ}
    (h : AdjStep (buildAdjacencyList g) a b w) : ∃ l ∈ g.links, l.distance = w := by
  rw [buildAdjacencyList] at h
  have main : ∀ (ls : List Link) (adj : AdjIndex),
      (∀ x y ω, AdjStep adj x y ω → ∃ l ∈ g.links, l.distance = ω) →
      (∀ l ∈ ls, l ∈ g.links) →
      ∀ x y ω, AdjStep (ls.foldl linkStep adj) x y ω → ∃ l ∈ g.links, l.distance = ω := by
    intro ls
    induction ls with
    | nil => intro adj h _; exact h
    | cons l ls ih =>
      intro adj h hls x y ω hstep
      refine ih _ (fun x y ω hs => ?_) (fun l hl => hls l (List.mem_cons_of_mem _ hl)) x y ω hstep
      rcases adjStep_linkStep_iff.mp hs with hs | ⟨-, -, hw⟩
      · exact h x y ω hs
      · exact ⟨l, hls l (List.mem_cons_self l ls), hw.symm⟩
  exact main g.links _ (fun x y ω hs => absurd hs adjStep_initFold) (fun _ h => h) a b w h

/-- Every recorded neighbor identifier has its own entry. -/
theorem build_closed {g : GraphData} {a b : String} {w : ℚ}
    (h : AdjStep (buildAdjacencyList g) a b w) :
    (adjOf (buildAdjacencyList g) b).isSome ∧ (adjOf (buildAdjacencyList g) a).isSome := by
  have hkeys : ∀ k, (adjOf (buildAdjacencyList g) k).isSome =
      (adjOf (g.nodes.foldl initStep []) k).isSome := by
    intro k
    rw [buildAdjacencyList, linksFold_isSome]
  have main : ∀ (ls : List Link) (adj : AdjIndex),
      (∀ x y ω, AdjStep adj x y ω →
        (adjOf adj y).isSome ∧ (adjOf adj x).isSome) →
      ∀ x y ω, AdjStep (ls.foldl linkStep adj) x y ω →
        (adjOf (ls.foldl linkStep adj) y).isSome ∧ (adjOf (ls.foldl linkStep adj) x).isSome := by
    intro ls
    induction ls with
    | nil => intro adj h; exact h
    | cons l ls ih =>
      intro adj h x y ω hstep
      refine ih _ (fun x y ω hs => ?_) x y ω hstep
      have hiso : ∀ k, (adjOf (linkStep adj l) k).isSome = (adjOf adj k).isSome :=
        linkStep_isSome adj l
      rcases adjStep_linkStep_iff.mp hs with hs | ⟨⟨h1, h2⟩, hor, -⟩
      · rcases h x y ω hs with ⟨hy, hx⟩
        rw [hiso, hiso]
        exact ⟨hy, hx⟩
      · rw [hiso, hiso]
        rcases hor with ⟨ha, hb⟩ | ⟨ha, hb⟩ <;> subst ha hb
        · exact ⟨h2, h1⟩
        · exact ⟨h1, h2⟩
  exact main g.links _ (fun x y ω hs => absurd hs adjStep_initFold) a b w h

/-- C6, defensive part: links with a missing endpoint contribute nothing;
building from the filtered link list yields the same index. -/
theorem build_skips_invalid (g : GraphData) :
    buildAdjacencyList g =
      buildAdjacencyList
        ⟨g.nodes, g.links.filter
          (fun l => decide (l.source ∈ nodeIds g) && decide (l.target ∈ nodeIds g))⟩ := by
  have hinit : ∀ k, (adjOf (g.nodes.foldl initStep []) k).isSome = decide (k ∈ nodeIds g) := by
    intro k
    rw [initFold_adjOf]
    by_cases h : k ∈ g.nodes.map (fun n => n.id) <;> simp [h, nodeIds, adjOf_nil]
  have main : ∀ (ls : List Link) (adj : AdjIndex),
      (∀ k, (adjOf adj k).isSome = decide (k ∈ nodeIds g)) →
      ls.foldl linkStep adj =
        (ls.filter (fun l => decide (l.source ∈ nodeIds g) && decide (l.target ∈ nodeIds g))).foldl
          linkStep adj := by
    intro ls
    induction ls with
    | nil => intro adj _; rfl
    | cons l ls ih =>
      intro adj hkeys
      have hpres : ∀ k, (adjOf (linkStep adj l) k).isSome = decide (k ∈ nodeIds g) := by
        intro k
        rw [linkStep_isSome, hkeys]
      by_cases hv : (decide (l.source ∈ nodeIds g) && decide (l.target ∈ nodeIds g)) = true
      · rw [List.filter_cons, if_pos hv, List.foldl_cons, List.foldl_cons, ih _ hpres]
      · rw [List.filter_cons, if_neg hv, List.foldl_cons]
        have hskip : linkStep adj l = adj := by
          rw [linkStep, if_neg]
          rw [hkeys, hkeys]
          simpa using hv
        rw [hskip, ih _ hkeys]
  exact main g.links _ hinit

/-! ### Walk lemmas -/

theorem IsWalk.src_isSome {adj : AdjIndex} {s e : String} {l : List String} {c : ℚ}
    (h : IsWalk adj s e l c) : (adjOf adj s).isSome := by
  cases h with
  | nil _ hs => exact hs
  | cons hstep _ =>
    obtain ⟨L, hL, -⟩ := hstep
    rw [hL]
    rfl

theorem IsWalk.tgt_isSome {adj : AdjIndex} {s e : String} {l : List String} {c : ℚ}
    (h : IsWalk adj s e l c) : (adjOf adj e).isSome := by
  induction h with
  | nil _ hs => exact hs
  | cons _ _ ih => exact ih

theorem IsWalk.ne_nil {adj : AdjIndex} {s e : String} {l : List String} {c : ℚ}
    (h : IsWalk adj s e l c) : l ≠ [] := by
  cases h <;> simp

theorem IsWalk.head_eq {adj : AdjIndex} {s e : String} {l : List String} {c : ℚ}
    (h : IsWalk adj s e l c) : l.head? = some s := by
  cases h <;> rfl

theorem IsWalk.getLast_eq {adj : AdjIndex} {s e : String} {l : List String} {c : ℚ}
    (h : IsWalk adj s e l c) : l.getLast? = some e := by
  induction h with
  | nil => rfl
  | cons hstep tail ih =>
    rw [List.getLast?_cons, ih]
    cases tail <;> simp_all

theorem IsWalk.cost_nonneg {adj : AdjIndex} {s e : String} {l : List String} {c : ℚ}
    (hnn : ∀ a b w, AdjStep adj a b w → 0 ≤ w) (h : IsWalk adj s e l c) : 0 ≤ c := by
  induction h with
  | nil => exact le_refl 0
  | cons hstep _ ih => exact add_nonneg (hnn _ _ _ hstep) ih

theorem IsWalk.append_edge {adj : AdjIndex} {s u v : String} {l : List String} {c w : ℚ}
    (h : IsWalk adj s u l c) (hstep : AdjStep adj u v w) (hv : (adjOf adj v).isSome) :
    IsWalk adj s v (l ++ [v]) (c + w) := by
  induction h with
  | nil x hx =>
    rw [show (0 : ℚ) + w = w + 0 by ring]
    exact IsWalk.cons hstep (IsWalk.nil v hv)
  | @cons u0 v0 e0 l0 c0 w0 hstep0 tail ih =>
    rw [add_assoc]
    exact IsWalk.cons hstep0 (ih hstep)

/-! ### History order lemmas -/

theorem histIds_append (h1 h2 : List VisitedStep) :
    histIds (h1 ++ h2) = histIds h1 ++ histIds h2 := List.map_append _ _ _

theorem mem_histIds {hist : List VisitedStep} {u : String} :
    u ∈ histIds hist ↔ ∃ f, (⟨u, f⟩ : VisitedStep) ∈ hist := by
  constructor
  · intro h
    obtain ⟨v, hv, he⟩ := List.mem_map.mp h
    exact ⟨v.«from», by cases v; cases he; exact hv⟩
  · rintro ⟨f, hf⟩
    exact List.mem_map.mpr ⟨⟨u, f⟩, hf, rfl⟩

theorem histIds_reverse_mem {hist : List VisitedStep} {u : String} :
    u ∈ histIds hist.reverse ↔ u ∈ histIds hist := by
  simp [histIds, List.mem_reverse]

theorem revok_push {hist : List VisitedStep} {v : VisitedStep}
    (h : RevOK hist.reverse) (hf : ∀ u, v.«from» = some u → u ∈ histIds hist) :
    RevOK (hist ++ [v]).reverse := by
  rw [List.reverse_append, List.reverse_singleton, List.singleton_append]
  exact ⟨fun u hu => histIds_reverse_mem.mpr (hf u hu), h⟩

theorem revok_split {xs ys : List VisitedStep} {v : VisitedStep}
    (h : RevOK (xs ++ v :: ys)) : ∀ u, v.«from» = some u → u ∈ histIds ys := by
  induction xs with
  | nil => exact h.1
  | cons x xs ih => exact ih h.2

/-- The index-free form of settlement-order integrity: any entry's
predecessor appears among the entries strictly before it. -/
theorem revok_earlier {hist pre post : List VisitedStep} {v : VisitedStep}
    (h : RevOK hist.reverse) (he : hist = pre ++ v :: post) :
    ∀ u, v.«from» = some u → u ∈ histIds pre := by
  subst he
  rw [List.reverse_append, List.reverse_cons, List.append_assoc, List.singleton_append] at h
  intro u hu
  exact histIds_reverse_mem.mp (revok_split h u hu)

/-! ### JNum inversion lemmas -/

theorem JNum.lt_fin_left {a b : JNum} (h : a.lt b = true) : ∃ q, a = .fin q := by
  cases a <;> cases b <;> simp [JNum.lt] at h ⊢

theorem JNum.add_fin_inv {a : JNum} {w q : ℚ} (h : a.add w = .fin q) :
    ∃ p, a = .fin p ∧ q = p + w := by
  cases a <;> simp [JNum.add] at h ⊢
  exact h.symm

theorem JNum.not_lt_fin {a : JNum} {p q : ℚ} (ha : a = .fin p) (h : (JNum.fin q).lt a = false) :
    p ≤ q := by
  subst ha
  simp [JNum.lt] at h
  exact h

/-! ### Dijkstra loop: basic invariant preservation -/

section DijkstraBasic

variable {nmap : String → Option Node} {adj : AdjIndex} {startId endId : String}

theorem relaxStep_pres_B
    (hclosed : ∀ a b w, AdjStep adj a b w → (adjOf adj b).isSome ∧ (adjOf adj a).isSome)
    {s : DState} {u : String} {nb : AdjEntry}
    (hstep : AdjStep adj u nb.id nb.weight)
    (hu : u ∈ s.vset)
    (hinv : DInvB nmap adj startId endId s) :
    DInvB nmap adj startId endId (relaxStep u s nb) := by
  rw [relaxStep]
  cases hlt : ((s.dist u).add nb.weight).lt (s.dist nb.id) with
  | false => simpa [hlt] using hinv
  | true =>
    simp only [hlt, if_true]
    obtain ⟨q, hq⟩ := JNum.lt_fin_left hlt
    obtain ⟨p, hp, hpq⟩ := JNum.add_fin_inv hq
    have hmemkeys : nb.id ∈ adjKeys adj := adjOf_isSome_iff.mp (hclosed _ _ _ hstep).1
    have huh : u ∈ histIds s.hist := by
      have h2 := hinv.vset_hist ▸ hu
      exact List.mem_reverse.mp h2
    refine ⟨?_, hinv.vset_hist, hinv.nodup, hinv.revok, ?_, hinv.no_end, hinv.no_hazard,
      ?_, hinv.vset_ids, ?_, ?_, ?_, ?_, ?_, ?_⟩
    · exact pqEnqueue_sorted _ _ _
    · intro v x hvx
      dsimp only at hvx ⊢
      by_cases hv : v = nb.id
      · subst hv
        rw [Function.update_same] at hvx
        cases hvx
        exact huh
      · rw [Function.update_noteq hv] at hvx
        exact hinv.prev_hist v x hvx
    · intro it hit
      dsimp only at hit
      rcases mem_pqEnqueue.mp hit with hit | hit
      · exact hinv.pq_ids it hit
      · subst hit
        exact Or.inr hmemkeys
    · intro v hv
      dsimp only
      by_cases hveq : v = nb.id
      · subst hveq
        rw [Function.update_same, hq]
        exact fun h => JNum.noConfusion h
      · rw [Function.update_noteq hveq]
        exact hinv.dist_keys v hv
    · intro v c hvc
      dsimp only at hvc
      by_cases hveq : v = nb.id
      · subst hveq
        rw [Function.update_same, hq] at hvc
        cases hvc
        right
        rcases hinv.dist_sound u p hp with ⟨hus, hp0⟩ | ⟨l, hl⟩
        · refine ⟨[startId, nb.id], ?_⟩
          rw [hpq, hp0, show (0 : ℚ) + nb.weight = nb.weight + 0 by ring]
          exact IsWalk.cons (hus ▸ hstep) (IsWalk.nil _ (hclosed _ _ _ hstep).1)
        · exact ⟨l ++ [nb.id], hpq ▸ hl.append_edge hstep (hclosed _ _ _ hstep).1⟩
      · rw [Function.update_noteq hveq] at hvc
        exact hinv.dist_sound v c hvc
    · intro v c hvc hvset
      dsimp only at hvc hvset ⊢
      by_cases hveq : v = nb.id
      · subst hveq
        rw [Function.update_same, hq] at hvc
        cases hvc
        exact ⟨⟨nb.id, q⟩, mem_pqEnqueue.mpr (Or.inr (by rw [hq]; rfl)), rfl, le_refl q⟩
      · rw [Function.update_noteq hveq] at hvc
        obtain ⟨it, hit, hid, hle⟩ := hinv.cover v c hvc hvset
        exact ⟨it, mem_pqEnqueue.mpr (Or.inl hit), hid, hle⟩
    · intro v x hvx
      dsimp only at hvx
      by_cases hveq : v = nb.id
      · subst hveq
        rw [Function.update_same] at hvx
        cases hvx
        exact (hclosed _ _ _ hstep).2
      · rw [Function.update_noteq hveq] at hvx
        exact hinv.prev_key v x hvx
    · intro k hk
      dsimp only
      have hkne : k ≠ nb.id := fun he => hk (he ▸ hmemkeys)
      rw [Function.update_noteq hkne]
      exact hinv.prev_dom k hk
    · dsimp only
      by_cases hsy : startId = nb.id
      · exact ⟨q, by rw [hsy, Function.update_same, hq]⟩
      · obtain ⟨c0, hc0⟩ := hinv.start_fin
        exact ⟨c0, by rw [Function.update_noteq hsy, hc0]⟩

theorem relaxStep_vset (u : String) (s : DState) (nb : AdjEntry) :
    (relaxStep u s nb).vset = s.vset := by
  rw [relaxStep]
  split <;> rfl

theorem relaxStep_hist (u : String) (s : DState) (nb : AdjEntry) :
    (relaxStep u s nb).hist = s.hist := by
  rw [relaxStep]
  split <;> rfl

theorem relaxD_vset (u : String) (adjL : List AdjEntry) (s : DState) :
    (relaxD u adjL s).vset = s.vset := by
  induction adjL generalizing s with
  | nil => rfl
  | cons nb rest ih => rw [relaxD, List.foldl_cons, ← relaxD, ih, relaxStep_vset]

theorem relaxD_hist (u : String) (adjL : List AdjEntry) (s : DState) :
    (relaxD u adjL s).hist = s.hist := by
  induction adjL generalizing s with
  | nil => rfl
  | cons nb rest ih => rw [relaxD, List.foldl_cons, ← relaxD, ih, relaxStep_hist]

theorem relaxD_pres_B
    (hclosed : ∀ a b w, AdjStep adj a b w → (adjOf adj b).isSome ∧ (adjOf adj a).isSome)
    {s : DState} {u : String} {L : List AdjEntry} {adjL : List AdjEntry}
    (hadj : adjOf adj u = some L) (hsub : ∀ nb ∈ adjL, nb ∈ L)
    (hu : u ∈ s.vset)
    (hinv : DInvB nmap adj startId endId s) :
    DInvB nmap adj startId endId (relaxD u adjL s) := by
  induction adjL generalizing s with
  | nil => exact hinv
  | cons nb rest ih =>
    rw [relaxD, List.foldl_cons, ← relaxD]
    have hstep : AdjStep adj u nb.id nb.weight :=
      ⟨L, hadj, hsub nb (List.mem_cons_self nb rest)⟩
    exact ih (fun x hx => hsub x (List.mem_cons_of_mem nb hx))
      ((relaxStep_vset u s nb).symm ▸ hu)
      (relaxStep_pres_B hclosed hstep hu hinv)

theorem JSV.toOpt_eq_some {j : JSV} {x : String} (h : j.toOpt = some x) : j = .str x := by
  cases j <;> simp [JSV.toOpt] at h ⊢
  exact h

theorem settle_hist_nodup {s : DState} {it : PQItem} {f : Option String}
    (hinv : DInvB nmap adj startId endId s) (hnotv : it.id ∉ s.vset) :
    (histIds (s.hist ++ [⟨it.id, f⟩])).Nodup := by
  rw [histIds_append]
  have hni : it.id ∉ histIds s.hist := by
    intro hmem
    exact hnotv (hinv.vset_hist ▸ List.mem_reverse.mpr hmem)
  refine List.Nodup.append hinv.nodup (List.nodup_singleton _) ?_
  intro x hx hx2
  rw [show histIds ([⟨it.id, f⟩] : List VisitedStep) = [it.id] from rfl,
    List.mem_singleton] at hx2
  exact hni (hx2 ▸ hx)

theorem settle_revok {s : DState} {it : PQItem}
    (hinv : DInvB nmap adj startId endId s) :
    RevOK ((s.hist ++ ([⟨it.id, (s.prev it.id).toOpt⟩] : List VisitedStep)).reverse) :=
  revok_push hinv.revok (fun x hx => hinv.prev_hist _ _ (JSV.toOpt_eq_some hx))

theorem cover_after_pop {s : DState} {it : PQItem} {rest : List PQItem}
    (hpq : s.pq = it :: rest)
    (hinv : DInvB nmap adj startId endId s) :
    ∀ v c, s.dist v = .fin c → v ∉ it.id :: s.vset →
      ∃ it2 ∈ rest, it2.id = v ∧ it2.priority ≤ c := by
  intro v c hvc hv
  rw [List.mem_cons] at hv
  push_neg at hv
  obtain ⟨it2, hit2, hid, hle⟩ := hinv.cover v c hvc hv.2
  rw [hpq] at hit2
  rcases List.mem_cons.mp hit2 with h | h
  · exact absurd (h ▸ hid) (Ne.symm hv.1)
  · exact ⟨it2, h, hid, hle⟩

/-- Settling a non-hazard, non-end head preserves the basic invariant. -/
theorem settle_pres_B {s : DState} {it : PQItem} {rest : List PQItem}
    (hpq : s.pq = it :: rest)
    (hnotv : it.id ∉ s.vset)
    (hnotbomb : isHazard nmap startId endId it.id = false)
    (hnotend : it.id ≠ endId)
    (hinv : DInvB nmap adj startId endId s) :
    DInvB nmap adj startId endId (settleState s it rest) := by
  unfold settleState
  refine ⟨?_, ?_, ?_, ?_, ?_, ?_, ?_, ?_, ?_, hinv.dist_keys, hinv.dist_sound, ?_,
    hinv.prev_key, hinv.prev_dom, hinv.start_fin⟩ <;> dsimp only
  · exact (List.sorted_cons.mp (hpq ▸ hinv.sorted)).2
  · rw [histIds_append, List.reverse_append, hinv.vset_hist]
    rfl
  · exact settle_hist_nodup hinv hnotv
  · exact settle_revok hinv
  · intro v u hvu
    rw [histIds_append]
    exact List.mem_append.mpr (Or.inl (hinv.prev_hist v u hvu))
  · rw [List.mem_cons]
    rintro (h | h)
    · exact hnotend h.symm
    · exact hinv.no_end h
  · intro u hu
    rw [histIds_append] at hu
    rcases List.mem_append.mp hu with hu | hu
    · exact hinv.no_hazard u hu
    · have he : u = it.id := by simpa [histIds] using hu
      rw [he]
      exact hnotbomb
  · intro x hx
    exact hinv.pq_ids x (hpq ▸ List.mem_cons_of_mem it hx)
  · intro v hv
    rcases List.mem_cons.mp hv with hv | hv
    · exact hv ▸ hinv.pq_ids it (hpq ▸ List.mem_cons_self it rest)
    · exact hinv.vset_ids v hv
  · exact cover_after_pop hpq hinv

/-- Discarding a stale head entry preserves the basic invariant. -/
theorem stale_pres_B {s : DState} {it : PQItem} {rest : List PQItem}
    (hpq : s.pq = it :: rest)
    (hv : it.id ∈ s.vset)
    (hinv : DInvB nmap adj startId endId s) :
    DInvB nmap adj startId endId { s with pq := rest } := by
  refine ⟨(List.sorted_cons.mp (hpq ▸ hinv.sorted)).2, hinv.vset_hist, hinv.nodup, hinv.revok,
    hinv.prev_hist, hinv.no_end, hinv.no_hazard, ?_, hinv.vset_ids, hinv.dist_keys,
    hinv.dist_sound, ?_, hinv.prev_key, hinv.prev_dom, hinv.start_fin⟩
  · intro x hx
    exact hinv.pq_ids x (hpq ▸ List.mem_cons_of_mem it hx)
  · intro v c hvc hvset
    obtain ⟨it2, hit2, hid, hle⟩ := hinv.cover v c hvc hvset
    rw [hpq] at hit2
    rcases List.mem_cons.mp hit2 with h | h
    · exact absurd (h ▸ hv) (hid ▸ hvset)
    · exact ⟨it2, h, hid, hle⟩

/-- A terminated run of the Dijkstra loop satisfies the basic
post-condition. -/
theorem dloopB
    (hclosed : ∀ a b w, AdjStep adj a b w → (adjOf adj b).isSome ∧ (adjOf adj a).isSome) :
    ∀ (fuel : Nat) (s : DState) (out : DState × Option String),
    DInvB nmap adj startId endId s →
    dijkstraLoop nmap adj startId endId fuel s = some out →
    DBasicPost nmap adj startId endId s out := by
  intro fuel
  induction fuel with
  | zero =>
    intro s out hinv hrun
    rw [dijkstraLoop] at hrun
    by_cases hq : s.pq.isEmpty
    · rw [if_pos hq] at hrun
      cases hrun
      exact ⟨⟨[], (List.append_nil _).symm⟩, hinv.nodup, hinv.revok, hinv.dist_keys,
        hinv.dist_sound, hinv.cover, fun u h => Option.noConfusion h,
        fun _ => hinv.no_hazard, fun _ => Or.inl ⟨List.isEmpty_iff.mp hq, hinv.no_end⟩,
        hinv.vset_hist, hinv.prev_key, hinv.prev_dom, hinv.start_fin⟩
    · rw [if_neg hq] at hrun
      exact Option.noConfusion hrun
  | succ n ih =>
    intro s out hinv hrun
    cases hpq : s.pq with
    | nil =>
      rw [dijkstraLoop, hpq] at hrun
      cases hrun
      exact ⟨⟨[], (List.append_nil _).symm⟩, hinv.nodup, hinv.revok, hinv.dist_keys,
        hinv.dist_sound, hinv.cover, fun u h => Option.noConfusion h,
        fun _ => hinv.no_hazard, fun _ => Or.inl ⟨hpq, hinv.no_end⟩,
        hinv.vset_hist, hinv.prev_key, hinv.prev_dom, hinv.start_fin⟩
    | cons it rest =>
      rw [dijkstraLoop, hpq] at hrun
      dsimp only at hrun
      by_cases hvs : it.id ∈ s.vset
      · rw [if_pos hvs] at hrun
        have hinvS := stale_pres_B hpq hvs hinv
        have hrun2 : dijkstraLoop nmap adj startId endId n { s with pq := rest } = some out := hrun
        have post := ih { s with pq := rest } out hinvS hrun2
        obtain ⟨tail, htail⟩ := post.ext
        exact ⟨⟨tail, htail⟩, post.nodup, post.revok, post.dist_keys, post.dist_sound,
          post.cover, post.hazexit, post.nohaz, post.endexit, post.vset_hist,
          post.prev_key, post.prev_dom, post.start_fin⟩
      · rw [if_neg hvs] at hrun
        by_cases hbomb : isHazard nmap startId endId it.id = true
        · rw [if_pos hbomb] at hrun
          cases hrun
          refine ⟨⟨[⟨it.id, (s.prev it.id).toOpt⟩], rfl⟩, settle_hist_nodup hinv hvs,
            settle_revok hinv, hinv.dist_keys, hinv.dist_sound,
            cover_after_pop hpq hinv, ?_, ?_, ?_, ?_, hinv.prev_key, hinv.prev_dom,
            hinv.start_fin⟩
          · intro u hu
            cases hu
            exact ⟨hbomb, s.hist, (s.prev it.id).toOpt, rfl⟩
          · intro h
            exact Option.noConfusion h
          · intro h
            exact Option.noConfusion h
          · rw [histIds_append, List.reverse_append, hinv.vset_hist]
            rfl
        · rw [if_neg hbomb] at hrun
          have hbombf : isHazard nmap startId endId it.id = false := by
            cases hbe : isHazard nmap startId endId it.id
            · rfl
            · exact absurd hbe hbomb
          by_cases hend : it.id = endId
          · rw [if_pos hend] at hrun
            cases hrun
            refine ⟨⟨[⟨it.id, (s.prev it.id).toOpt⟩], rfl⟩, settle_hist_nodup hinv hvs,
              settle_revok hinv, hinv.dist_keys, hinv.dist_sound,
              cover_after_pop hpq hinv, ?_, ?_, ?_, ?_, hinv.prev_key, hinv.prev_dom,
              hinv.start_fin⟩
            · intro u h
              exact Option.noConfusion h
            · intro _ u hu
              rw [histIds_append] at hu
              rcases List.mem_append.mp hu with hu | hu
              · exact hinv.no_hazard u hu
              · have he : u = it.id := by simpa [histIds] using hu
                rw [he]
                exact hbombf
            · intro _
              exact Or.inr ⟨s.hist, (s.prev it.id).toOpt, by rw [hend]⟩
            · rw [histIds_append, List.reverse_append, hinv.vset_hist]
              rfl
          · rw [if_neg hend] at hrun
            have hinv2 := settle_pres_B hpq hvs hbombf hend hinv
            cases hadj : adjOf adj it.id with
            | some adjL =>
              rw [hadj] at hrun
              have hrun2 : dijkstraLoop nmap adj startId endId n
                  (relaxD it.id adjL (settleState s it rest)) = some out := hrun
              have hinv3 := relaxD_pres_B hclosed hadj (fun nb h => h)
                (List.mem_cons_self it.id s.vset) hinv2
              have post := ih _ out hinv3 hrun2
              obtain ⟨tail, htail⟩ := post.ext
              rw [relaxD_hist] at htail
              refine ⟨⟨⟨it.id, (s.prev it.id).toOpt⟩ :: tail, ?_⟩, post.nodup, post.revok,
                post.dist_keys, post.dist_sound, post.cover, post.hazexit, post.nohaz,
                post.endexit, post.vset_hist, post.prev_key, post.prev_dom, post.start_fin⟩
              rw [htail]
              simp [settleState]
            | none =>
              rw [hadj] at hrun
              have hrun2 : dijkstraLoop nmap adj startId endId n
                  (settleState s it rest) = some out := hrun
              have post := ih _ out hinv2 hrun2
              obtain ⟨tail, htail⟩ := post.ext
              refine ⟨⟨⟨it.id, (s.prev it.id).toOpt⟩ :: tail, ?_⟩, post.nodup, post.revok,
                post.dist_keys, post.dist_sound, post.cover, post.hazexit, post.nohaz,
                post.endexit, post.vset_hist, post.prev_key, post.prev_dom, post.start_fin⟩
              rw [htail]
              simp [settleState]

end DijkstraBasic

/-! ### Predecessor chain lemmas -/

theorem PrevChain.ids_ne_nil {prev : String → JSV} {s v : String} {ids : List String}
    (h : PrevChain prev s v ids) : ids ≠ [] := by
  cases h with
  | base _ => simp
  | step _ _ => simp

theorem PrevChain.head_is_start {prev : String → JSV} {s v : String} {ids : List String}
    (h : PrevChain prev s v ids) : ids.head? = some s := by
  induction h with
  | base _ => rfl
  | step hc _ ih =>
    rename_i ids0
    rw [List.head?_append]
    rw [ih]
    rfl

theorem PrevChain.update_outside {prev : String → JSV} {s v x : String} {j : JSV}
    {ids : List String} (h : PrevChain prev s v ids) (hx : x ∉ ids) :
    PrevChain (Function.update prev x j) s v ids := by
  induction h with
  | base hb =>
    have hxs : s ≠ x := fun he => hx (by rw [he]; exact List.mem_singleton_self x)
    exact PrevChain.base (by rw [Function.update_noteq hxs, hb])
  | @step u v0 ids0 hc hp ih =>
    have hvx : v0 ≠ x := fun he => hx (List.mem_append.mpr (Or.inr
      (by rw [he]; exact List.mem_singleton_self x)))
    refine PrevChain.step (ih (fun hm => hx (List.mem_append.mpr (Or.inl hm)))) ?_
    rw [Function.update_noteq hvx, hp]

theorem ChainOK.update_dist_outside {adj : AdjIndex} {prev : String → JSV}
    {dist : String → JNum} {startId v y : String} {d : JNum} {vset : List String}
    (h : ChainOK adj prev dist startId v vset) (hy : y ≠ v) :
    ChainOK adj prev (Function.update dist y d) startId v vset := by
  obtain ⟨ids, dv, hd, hc, hw, hn, hm⟩ := h
  exact ⟨ids, dv, by rw [Function.update_noteq (Ne.symm hy), hd], hc, hw, hn, hm⟩

theorem ChainOK.update_prev_outside {adj : AdjIndex} {prev : String → JSV}
    {dist : String → JNum} {startId v y : String} {j : JSV} {vset : List String}
    (h : ChainOK adj prev dist startId v vset) (hyv : y ≠ v) (hyvset : y ∉ vset) :
    ChainOK adj (Function.update prev y j) dist startId v vset := by
  obtain ⟨ids, dv, hd, hc, hw, hn, hm⟩ := h
  refine ⟨ids, dv, hd, hc.update_outside ?_, hw, hn, hm⟩
  intro hy
  rcases hm y hy with h1 | h1
  · exact hyv h1
  · exact hyvset h1

theorem ChainOK.mono_vset {adj : AdjIndex} {prev : String → JSV}
    {dist : String → JNum} {startId v : String} {vset vset2 : List String}
    (h : ChainOK adj prev dist startId v vset) (hsub : ∀ x ∈ vset, x ∈ vset2) :
    ChainOK adj prev dist startId v vset2 := by
  obtain ⟨ids, dv, hd, hc, hw, hn, hm⟩ := h
  exact ⟨ids, dv, hd, hc, hw, hn, fun x hx => (hm x hx).imp id (hsub x)⟩

/-! ### The queue covers every walk out of the settled region -/

section DijkstraOpt

variable {nmap : String → Option Node} {adj : AdjIndex} {startId endId : String}

theorem frontier_path
    (hclosed : ∀ a b w, AdjStep adj a b w → (adjOf adj b).isSome ∧ (adjOf adj a).isSome)
    (hnonneg : ∀ a b w, AdjStep adj a b w → 0 ≤ w)
    {s : DState}
    (hcover : ∀ v c, s.dist v = .fin c → v ∉ s.vset →
      ∃ it ∈ s.pq, it.id = v ∧ it.priority ≤ c)
    (hmin : ∀ x ∈ s.vset, ∃ dx, s.dist x = .fin dx ∧
      ∀ l c, IsWalk adj startId x l c → dx ≤ c)
    (hrel : ∀ x ∈ s.vset, ∀ dx, s.dist x = .fin dx → ∀ L, adjOf adj x = some L →
      ∀ nb ∈ L, ∃ dy, s.dist nb.id = .fin dy ∧ dy ≤ dx + nb.weight)
    (hchain : ∀ x ∈ s.vset, ChainOK adj s.prev s.dist startId x s.vset) :
    ∀ {v t : String} {l : List String} {c : ℚ}, IsWalk adj v t l c → v ∈ s.vset →
      ∀ dv, s.dist v = .fin dv → t ∉ s.vset →
      ∃ it ∈ s.pq, it.priority ≤ dv + c := by
  intro v t l c hw
  induction hw with
  | nil x _ =>
    intro hx dv _ hnx
    exact absurd hx hnx
  | @cons v0 y t0 l0 c0 w0 hstep tail ih =>
    intro hv dv hdv ht
    obtain ⟨L, hL, hnb⟩ := hstep
    obtain ⟨dy, hdy, hdyle⟩ :=
      hrel v0 hv dv hdv L hL ⟨y, w0⟩ hnb
    by_cases hyv : y ∈ s.vset
    · obtain ⟨dymin, hdymin, hmins⟩ := hmin y hyv
      have heq : dy = dymin := by
        rw [hdy] at hdymin
        exact (JNum.fin.injEq _ _ ▸ hdymin).symm ▸ rfl
      obtain ⟨it, hit, hle⟩ := ih hyv dy (heq ▸ hdymin) ht
      refine ⟨it, hit, le_trans hle ?_⟩
      have : dy ≤ dv + w0 := hdyle
      linarith
    · obtain ⟨it, hit, hid, hle⟩ := hcover y dy hdy hyv
      refine ⟨it, hit, ?_⟩
      have hc0 : 0 ≤ c0 := tail.cost_nonneg hnonneg
      linarith

theorem walk_lower_bound
    (hclosed : ∀ a b w, AdjStep adj a b w → (adjOf adj b).isSome ∧ (adjOf adj a).isSome)
    (hnonneg : ∀ a b w, AdjStep adj a b w → 0 ≤ w)
    {s : DState}
    (hcover : ∀ v c, s.dist v = .fin c → v ∉ s.vset →
      ∃ it ∈ s.pq, it.id = v ∧ it.priority ≤ c)
    (hinvO : DInvO adj startId s)
    {t : String} {l : List String} {c : ℚ}
    (hw : IsWalk adj startId t l c) (ht : t ∉ s.vset) :
    ∃ it ∈ s.pq, it.priority ≤ c := by
  by_cases hs : startId ∈ s.vset
  · obtain ⟨it, hit, hle⟩ := frontier_path hclosed hnonneg hcover hinvO.settled_min
      hinvO.settled_relaxed hinvO.chain_settled hw hs 0 hinvO.dist_start ht
    exact ⟨it, hit, by linarith⟩
  · obtain ⟨it, hit, hid, hle⟩ := hcover startId 0 hinvO.dist_start hs
    exact ⟨it, hit, le_trans hle (hw.cost_nonneg hnonneg)⟩

theorem relaxStep_pres_O2
    (hclosed : ∀ a b w, AdjStep adj a b w → (adjOf adj b).isSome ∧ (adjOf adj a).isSome)
    (hnonneg : ∀ a b w, AdjStep adj a b w → 0 ≤ w)
    {s : DState} {u : String} {nb : AdjEntry} {pending : List AdjEntry} {du : ℚ}
    (hstep : AdjStep adj u nb.id nb.weight)
    (hu : u ∈ s.vset)
    (hdu : s.dist u = .fin du)
    (hinvB : DInvB nmap adj startId endId s)
    (hinv : DInvO2 adj startId u (nb :: pending) s) :
    DInvO2 adj startId u pending (relaxStep u s nb) ∧
      (relaxStep u s nb).dist u = .fin du := by
  have hykeys : (adjOf adj nb.id).isSome := (hclosed _ _ _ hstep).1
  have hw0 : 0 ≤ nb.weight := hnonneg _ _ _ hstep
  obtain ⟨idsU, duC, hduC, hchainU, hwalkU, hndU, hmemU⟩ := hinv.chain_settled u hu
  have hduCeq : duC = du := by
    rw [hdu] at hduC
    exact (JNum.fin.injEq _ _).mp hduC.symm
  rw [hduCeq] at hwalkU
  have hdu0 : 0 ≤ du := hwalkU.cost_nonneg hnonneg
  have hwalkY : IsWalk adj startId nb.id (idsU ++ [nb.id]) (du + nb.weight) :=
    hwalkU.append_edge hstep hykeys
  rw [relaxStep]
  cases hlt : ((s.dist u).add nb.weight).lt (s.dist nb.id) with
  | false =>
    rw [if_neg (by simp [hlt])]
    refine ⟨⟨hinv.settled_min, ?_, hinv.chain_settled, hinv.chain_queued, hinv.pq_dist,
      hinv.prev_start, hinv.dist_start⟩, hdu⟩
    intro x hx dx hdx L hL nb2 hnb2
    rcases hinv.settled_relaxed2 x hx dx hdx L hL nb2 hnb2 with ⟨hxu, hpend⟩ | hob
    · rcases List.mem_cons.mp hpend with he | hpend2
      · subst he
        right
        have hdxu : dx = du := by
          rw [hxu, hdu] at hdx
          exact ((JNum.fin.injEq _ _).mp hdx).symm
        rw [hdu] at hlt
        cases hdy : s.dist nb2.id with
        | undef =>
          exact absurd hdy (hinvB.dist_keys nb2.id (adjOf_isSome_iff.mp
            (hclosed _ _ _ ⟨L, hxu ▸ hL, hnb2⟩).1))
        | inf =>
          rw [hdy] at hlt
          exact absurd (show (true : Bool) = false from hlt) (by simp)
        | fin dy =>
          rw [hdy] at hlt
          simp only [JNum.add, JNum.lt, decide_eq_true_eq] at hlt
          refine ⟨dy, rfl, ?_⟩
          rw [hdxu]
          exact not_lt.mp (by simpa using hlt)
      · exact Or.inl ⟨hxu, hpend2⟩
    · exact Or.inr hob
  | true =>
    simp only [hlt, if_true]
    rw [hdu] at hlt
    obtain ⟨q, hq⟩ := JNum.lt_fin_left hlt
    have hqval : q = du + nb.weight := by
      simp only [JNum.add] at hq
      exact ((JNum.fin.injEq _ _).mp hq).symm
    have hynv : nb.id ∉ s.vset := by
      intro hyv
      obtain ⟨dmin, hdmin, hminp⟩ := hinv.settled_min nb.id hyv
      have h1 : dmin ≤ du + nb.weight := hminp _ _ hwalkY
      rw [hq, hdmin] at hlt
      simp only [JNum.lt, decide_eq_true_eq] at hlt
      rw [hqval] at hlt
      exact absurd hlt (not_lt.mpr h1)
    have hynu : nb.id ≠ u := fun he => hynv (by rw [he]; exact hu)
    have hyns : nb.id ≠ startId := by
      intro he
      rw [he, hinv.dist_start, hq] at hlt
      simp only [JNum.lt, decide_eq_true_eq] at hlt
      rw [hqval] at hlt
      linarith
    have hdistU : Function.update s.dist nb.id ((s.dist u).add nb.weight) u = s.dist u :=
      Function.update_noteq (Ne.symm hynu) _ _
    have hchainNew : ChainOK adj (Function.update s.prev nb.id (.str u))
        (Function.update s.dist nb.id ((s.dist u).add nb.weight)) startId nb.id s.vset := by
      refine ⟨idsU ++ [nb.id], du + nb.weight, ?_, ?_, hwalkY, ?_, ?_⟩
      · rw [Function.update_same, hdu]
        simp [JNum.add]
      · refine PrevChain.step (hchainU.update_outside ?_) (Function.update_same _ _ _)
        intro hmem
        rcases hmemU nb.id hmem with h1 | h1
        · exact hynu h1
        · exact hynv h1
      · rw [List.nodup_append]
        refine ⟨hndU, List.nodup_singleton _, ?_⟩
        intro x hx hx2
        rw [List.mem_singleton] at hx2
        subst hx2
        rcases hmemU nb.id hx with h1 | h1
        · exact hynu h1
        · exact hynv h1
      · intro x hx
        rcases List.mem_append.mp hx with hx | hx
        · rcases hmemU x hx with h1 | h1
          · exact Or.inr (by rw [h1]; exact hu)
          · exact Or.inr h1
        · exact Or.inl (List.mem_singleton.mp hx)
    refine ⟨⟨?_, ?_, ?_, ?_, ?_, ?_, ?_⟩, by rw [hdistU, hdu]⟩
    · intro x hx
      dsimp only at hx ⊢
      obtain ⟨dx, hdx, hminp⟩ := hinv.settled_min x hx
      have hxny : x ≠ nb.id := fun he => hynv (by rw [← he]; exact hx)
      exact ⟨dx, by rw [Function.update_noteq hxny, hdx], hminp⟩
    · intro x hx dx hdx L hL nb2 hnb2
      dsimp only at hx hdx ⊢
      have hxny : x ≠ nb.id := fun he => hynv (by rw [← he]; exact hx)
      rw [Function.update_noteq hxny] at hdx
      rcases hinv.settled_relaxed2 x hx dx hdx L hL nb2 hnb2 with ⟨hxu, hpend⟩ | ⟨dy2, hdy2, hle2⟩
      · rcases List.mem_cons.mp hpend with he | hpend2
        · subst he
          right
          have hdxu : dx = du := by
            rw [hxu, hdu] at hdx
            exact ((JNum.fin.injEq _ _).mp hdx).symm
          refine ⟨q, by rw [Function.update_same, hdu, hq], ?_⟩
          rw [hqval, hdxu]
        · exact Or.inl ⟨hxu, hpend2⟩
      · right
        by_cases hzy : nb2.id = nb.id
        · refine ⟨q, by rw [hzy, Function.update_same, hdu, hq], ?_⟩
          have hqlt : q < dy2 := by
            rw [hq] at hlt
            rw [← hzy, hdy2] at hlt
            simpa [JNum.lt] using hlt
          linarith
        · exact ⟨dy2, by rw [Function.update_noteq hzy, hdy2], hle2⟩
    · intro v hv
      dsimp only at hv ⊢
      have hvny : nb.id ≠ v := fun he => hynv (by rw [he]; exact hv)
      exact ((hinv.chain_settled v hv).update_dist_outside hvny).update_prev_outside hvny hynv
    · intro it hit
      dsimp only at hit ⊢
      rcases mem_pqEnqueue.mp hit with hit | hit
      · by_cases hzy : it.id = nb.id
        · rw [hzy]
          exact hchainNew
        · exact ((hinv.chain_queued it hit).update_dist_outside
            (fun he => hzy he.symm)).update_prev_outside (fun he => hzy he.symm) hynv
      · subst hit
        exact hchainNew
    · intro it hit
      dsimp only at hit ⊢
      rcases mem_pqEnqueue.mp hit with hit | hit
      · obtain ⟨c0, hc0, hle0⟩ := hinv.pq_dist it hit
        by_cases hzy : it.id = nb.id
        · refine ⟨q, by rw [hzy, Function.update_same, hdu, hq], ?_⟩
          have hqlt : q < c0 := by
            rw [hq] at hlt
            rw [← hzy] at hlt
            rw [hc0] at hlt
            simpa [JNum.lt] using hlt
          linarith
        · exact ⟨c0, by rw [Function.update_noteq hzy, hc0], hle0⟩
      · subst hit
        refine ⟨q, by rw [Function.update_same, hdu, hq], ?_⟩
        rw [hdu, hq]
        exact le_refl q
    · dsimp only
      rw [Function.update_noteq (Ne.symm hyns), hinv.prev_start]
    · dsimp only
      rw [Function.update_noteq (Ne.symm hyns), hinv.dist_start]

theorem relaxD_pres_O2
    (hclosed : ∀ a b w, AdjStep adj a b w → (adjOf adj b).isSome ∧ (adjOf adj a).isSome)
    (hnonneg : ∀ a b w, AdjStep adj a b w → 0 ≤ w)
    {s : DState} {u : String} {L adjL : List AdjEntry} {du : ℚ}
    (hadj : adjOf adj u = some L) (hsub : ∀ nb ∈ adjL, nb ∈ L)
    (hu : u ∈ s.vset)
    (hdu : s.dist u = .fin du)
    (hinvB : DInvB nmap adj startId endId s)
    (hinv : DInvO2 adj startId u adjL s) :
    DInvO2 adj startId u [] (relaxD u adjL s) := by
  induction adjL generalizing s with
  | nil => exact hinv
  | cons nb rest ih =>
    rw [relaxD, List.foldl_cons, ← relaxD]
    have hstep : AdjStep adj u nb.id nb.weight :=
      ⟨L, hadj, hsub nb (List.mem_cons_self nb rest)⟩
    obtain ⟨hinv2, hdu2⟩ := relaxStep_pres_O2 hclosed hnonneg hstep hu hdu hinvB hinv
    exact ih (fun x hx => hsub x (List.mem_cons_of_mem nb hx))
      ((relaxStep_vset u s nb).symm ▸ hu) hdu2
      (relaxStep_pres_B hclosed hstep hu hinvB) hinv2

theorem DInvO_of_O2_nil {s : DState} {u : String}
    (hinv : DInvO2 adj startId u [] s) : DInvO adj startId s := by
  refine ⟨hinv.settled_min, ?_, hinv.chain_settled, hinv.chain_queued, hinv.pq_dist,
    hinv.prev_start, hinv.dist_start⟩
  intro x hx dx hdx L hL nb hnb
  rcases hinv.settled_relaxed2 x hx dx hdx L hL nb hnb with ⟨_, hpend⟩ | h
  · exact absurd hpend (List.not_mem_nil nb)
  · exact h

/-- The head of the queue carries a distance no larger than the cost of
any walk from the start to it: it is about to be settled at its true
shortest distance. -/
theorem popped_min
    (hclosed : ∀ a b w, AdjStep adj a b w → (adjOf adj b).isSome ∧ (adjOf adj a).isSome)
    (hnonneg : ∀ a b w, AdjStep adj a b w → 0 ≤ w)
    {s : DState} {it : PQItem} {rest : List PQItem}
    (hpq : s.pq = it :: rest)
    (hnotv : it.id ∉ s.vset)
    (hinvB : DInvB nmap adj startId endId s)
    (hinv : DInvO adj startId s) :
    ∃ d, s.dist it.id = .fin d ∧ ∀ l c, IsWalk adj startId it.id l c → d ≤ c := by
  obtain ⟨d, hd, hdp⟩ := hinv.pq_dist it (hpq ▸ List.mem_cons_self it rest)
  refine ⟨d, hd, ?_⟩
  intro l c hw
  obtain ⟨it2, hit2, hle⟩ := walk_lower_bound hclosed hnonneg hinvB.cover hinv hw hnotv
  rcases List.mem_cons.mp (hpq ▸ hit2) with he | hm
  · rw [he] at hle
    linarith
  · have hhead : it.priority ≤ it2.priority :=
      sorted_head_min (hpq ▸ hinvB.sorted) it2 hm
    linarith

/-- Settling a fresh head entry moves the optimality invariant to the
mid-relax form, with the full neighbor list of the settled node pending. -/
theorem settle_pres_O
    (hclosed : ∀ a b w, AdjStep adj a b w → (adjOf adj b).isSome ∧ (adjOf adj a).isSome)
    (hnonneg : ∀ a b w, AdjStep adj a b w → 0 ≤ w)
    {s : DState} {it : PQItem} {rest : List PQItem}
    (hpq : s.pq = it :: rest)
    (hnotv : it.id ∉ s.vset)
    (hinvB : DInvB nmap adj startId endId s)
    (hinv : DInvO adj startId s)
    (pending : List AdjEntry)
    (hpend : ∀ L, adjOf adj it.id = some L → ∀ nb ∈ L, nb ∈ pending) :
    DInvO2 adj startId it.id pending (settleState s it rest) := by
  unfold settleState
  refine ⟨?_, ?_, ?_, ?_, ?_, hinv.prev_start, hinv.dist_start⟩ <;> dsimp only
  · intro x hx
    rcases List.mem_cons.mp hx with he | hm
    · obtain ⟨d, hd, hmin⟩ := popped_min hclosed hnonneg hpq hnotv hinvB hinv
      exact ⟨d, he ▸ hd, fun l c hw => hmin l c (he ▸ hw)⟩
    · exact hinv.settled_min x hm
  · intro x hx dx hdx L hL nb hnb
    rcases List.mem_cons.mp hx with he | hm
    · exact Or.inl ⟨he, hpend L (he ▸ hL) nb hnb⟩
    · exact Or.inr (hinv.settled_relaxed x hm dx hdx L hL nb hnb)
  · intro v hv
    rcases List.mem_cons.mp hv with he | hm
    · exact he ▸ (hinv.chain_queued it (hpq ▸ List.mem_cons_self it rest)).mono_vset
        (fun x hx => List.mem_cons_of_mem _ hx)
    · exact (hinv.chain_settled v hm).mono_vset (fun x hx => List.mem_cons_of_mem _ hx)
  · intro it2 hit2
    exact (hinv.chain_queued it2 (hpq ▸ List.mem_cons_of_mem it hit2)).mono_vset
      (fun x hx => List.mem_cons_of_mem _ hx)
  · intro it2 hit2
    exact hinv.pq_dist it2 (hpq ▸ List.mem_cons_of_mem it hit2)

/-- Discarding a stale head entry preserves the optimality invariant. -/
theorem stale_pres_O {s : DState} {it : PQItem} {rest : List PQItem}
    (hpq : s.pq = it :: rest)
    (hinv : DInvO adj startId s) :
    DInvO adj startId { s with pq := rest } := by
  refine ⟨hinv.settled_min, hinv.settled_relaxed, hinv.chain_settled, ?_, ?_,
    hinv.prev_start, hinv.dist_start⟩
  · intro it2 hit2
    exact hinv.chain_queued it2 (hpq ▸ List.mem_cons_of_mem it hit2)
  · intro it2 hit2
    exact hinv.pq_dist it2 (hpq ▸ List.mem_cons_of_mem it hit2)

/-- A terminated run of the Dijkstra loop satisfies the optimality
post-condition, under nonnegative weights. -/
theorem dloopO
    (hclosed : ∀ a b w, AdjStep adj a b w → (adjOf adj b).isSome ∧ (adjOf adj a).isSome)
    (hnonneg : ∀ a b w, AdjStep adj a b w → 0 ≤ w) :
    ∀ (fuel : Nat) (s : DState) (out : DState × Option String),
    DInvB nmap adj startId endId s →
    DInvO adj startId s →
    dijkstraLoop nmap adj startId endId fuel s = some out →
    DOptPost adj startId endId out := by
  intro fuel
  induction fuel with
  | zero =>
    intro s out hinvB hinvO hrun
    rw [dijkstraLoop] at hrun
    by_cases hq : s.pq.isEmpty
    · rw [if_pos hq] at hrun
      cases hrun
      exact ⟨fun _ hem => absurd hem hinvB.no_end, fun _ _ => hinvO,
        fun _ _ => List.isEmpty_iff.mp hq, hinvB.vset_ids⟩
    · rw [if_neg hq] at hrun
      exact Option.noConfusion hrun
  | succ n ih =>
    intro s out hinvB hinvO hrun
    cases hpq : s.pq with
    | nil =>
      rw [dijkstraLoop, hpq] at hrun
      cases hrun
      exact ⟨fun _ hem => absurd hem hinvB.no_end, fun _ _ => hinvO, fun _ _ => hpq,
        hinvB.vset_ids⟩
    | cons it rest =>
      rw [dijkstraLoop, hpq] at hrun
      dsimp only at hrun
      by_cases hvs : it.id ∈ s.vset
      · rw [if_pos hvs] at hrun
        have hrun2 : dijkstraLoop nmap adj startId endId n { s with pq := rest } = some out := hrun
        exact ih _ out (stale_pres_B hpq hvs hinvB) (stale_pres_O hpq hinvO) hrun2
      · rw [if_neg hvs] at hrun
        by_cases hbomb : isHazard nmap startId endId it.id = true
        · rw [if_pos hbomb] at hrun
          cases hrun
          refine ⟨fun h => Option.noConfusion h, fun h => Option.noConfusion h,
            fun h => Option.noConfusion h, ?_⟩
          intro v hv
          rcases List.mem_cons.mp hv with hv | hv
          · exact hv ▸ hinvB.pq_ids it (hpq ▸ List.mem_cons_self it rest)
          · exact hinvB.vset_ids v hv
        · rw [if_neg hbomb] at hrun
          have hbombf : isHazard nmap startId endId it.id = false := by
            cases hbe : isHazard nmap startId endId it.id
            · rfl
            · exact absurd hbe hbomb
          by_cases hend : it.id = endId
          · rw [if_pos hend] at hrun
            cases hrun
            refine ⟨?_, ?_, ?_, ?_⟩
            · intro _ _
              constructor
              · exact hend ▸ (hinvO.chain_queued it (hpq ▸ List.mem_cons_self it rest)).mono_vset
                  (fun x hx => List.mem_cons_of_mem _ hx)
              · obtain ⟨d, hd, hmin⟩ := popped_min hclosed hnonneg hpq hvs hinvB hinvO
                exact ⟨d, hend ▸ hd, fun l c hw => hmin l c (hend ▸ hw)⟩
            · intro _ hem
              exact absurd (show endId ∈ it.id :: s.vset from
                hend ▸ List.mem_cons_self it.id s.vset) hem
            · intro _ hem
              exact absurd (show endId ∈ it.id :: s.vset from
                hend ▸ List.mem_cons_self it.id s.vset) hem
            · intro v hv
              rcases List.mem_cons.mp hv with hv | hv
              · exact hv ▸ hinvB.pq_ids it (hpq ▸ List.mem_cons_self it rest)
              · exact hinvB.vset_ids v hv
          · rw [if_neg hend] at hrun
            have hinvB2 := settle_pres_B hpq hvs hbombf hend hinvB
            cases hadj : adjOf adj it.id with
            | some adjL =>
              rw [hadj] at hrun
              have hrun2 : dijkstraLoop nmap adj startId endId n
                  (relaxD it.id adjL (settleState s it rest)) = some out := hrun
              obtain ⟨du, hdu, _⟩ := hinvO.pq_dist it (hpq ▸ List.mem_cons_self it rest)
              have hdu2 : (settleState s it rest).dist it.id = .fin du := hdu
              have hO2 := settle_pres_O hclosed hnonneg hpq hvs hinvB hinvO adjL
                (fun L hL nb hnb => by rw [hadj] at hL; cases hL; exact hnb)
              have hO3 := relaxD_pres_O2 hclosed hnonneg hadj (fun nb h => h)
                (List.mem_cons_self it.id s.vset) hdu2 hinvB2 hO2
              have hinvB3 := relaxD_pres_B hclosed hadj (fun nb h => h)
                (List.mem_cons_self it.id s.vset) hinvB2
              exact ih _ out hinvB3 (DInvO_of_O2_nil hO3) hrun2
            | none =>
              rw [hadj] at hrun
              have hrun2 : dijkstraLoop nmap adj startId endId n
                  (settleState s it rest) = some out := hrun
              have hO2 := settle_pres_O hclosed hnonneg hpq hvs hinvB hinvO []
                (fun L hL => absurd (hadj ▸ hL) (by simp))
              exact ih _ out hinvB2 (DInvO_of_O2_nil hO2) hrun2


end DijkstraOpt

/-! ### The initial states and the runner equations -/

theorem runDijkstra_eq (g : GraphData) (startId endId : String) (fuel : Nat) :
    runDijkstra g startId endId fuel =
      match dijkstraLoop (nodeMapGet g) (buildAdjacencyList g) startId endId fuel
          (dInit g startId) with
      | none => none
      | some (s, some u) => some ⟨[], s.hist, .fin 0, some u⟩
      | some (s, none) =>
        some (reconstruct s.prev g.nodes.length startId endId s.hist (s.dist endId)) := rfl

theorem runAStarH_eq (g : GraphData) (h : String → ℚ) (startId endId : String) (fuel : Nat) :
    runAStarH g h startId endId fuel =
      match aStarLoop (nodeMapGet g) (buildAdjacencyList g) h startId endId fuel
          (aInit g h startId) with
      | none => none
      | some (s, some u) => some ⟨[], s.hist, .fin 0, some u⟩
      | some (s, none) =>
        some (reconstruct s.prev g.nodes.length startId endId s.hist
          (s.gScore endId)) := rfl

theorem foldl_update_inf (nodes : List Node) (base : String → JNum) (v : String) :
    nodes.foldl (fun d n => Function.update d n.id .inf) base v =
      if v ∈ nodes.map (fun n => n.id) then .inf else base v := by
  induction nodes generalizing base with
  | nil => simp
  | cons n ns ih =>
    rw [List.foldl_cons, ih, List.map_cons]
    by_cases hv : v ∈ List.map (fun n => n.id) ns
    · rw [if_pos hv, if_pos (List.mem_cons.mpr (Or.inr hv))]
    · rw [if_neg hv]
      by_cases he : v = n.id
      · rw [if_pos (List.mem_cons.mpr (Or.inl he)), he, Function.update_same]
      · rw [if_neg (fun hm => (List.mem_cons.mp hm).elim he hv), Function.update_noteq he]

theorem foldl_update_null (nodes : List Node) (base : String → JSV) (v : String) :
    nodes.foldl (fun p n => Function.update p n.id .null) base v =
      if v ∈ nodes.map (fun n => n.id) then .null else base v := by
  induction nodes generalizing base with
  | nil => simp
  | cons n ns ih =>
    rw [List.foldl_cons, ih, List.map_cons]
    by_cases hv : v ∈ List.map (fun n => n.id) ns
    · rw [if_pos hv, if_pos (List.mem_cons.mpr (Or.inr hv))]
    · rw [if_neg hv]
      by_cases he : v = n.id
      · rw [if_pos (List.mem_cons.mpr (Or.inl he)), he, Function.update_same]
      · rw [if_neg (fun hm => (List.mem_cons.mp hm).elim he hv), Function.update_noteq he]

theorem distInit_start (g : GraphData) (startId : String) :
    distInit g startId startId = .fin 0 := Function.update_same _ _ _

theorem distInit_of_ne (g : GraphData) {startId v : String} (h : v ≠ startId) :
    distInit g startId v = if v ∈ nodeIds g then .inf else .undef := by
  rw [distInit, Function.update_noteq h, foldl_update_inf]
  rfl

theorem fInit_start (g : GraphData) (h : String → ℚ) (startId : String) :
    fInit g h startId startId = .fin (h startId) := Function.update_same _ _ _

theorem fInit_of_ne (g : GraphData) (h : String → ℚ) {startId v : String}
    (hv : v ≠ startId) :
    fInit g h startId v = if v ∈ nodeIds g then .inf else .undef := by
  rw [fInit, Function.update_noteq hv, foldl_update_inf]
  rfl

theorem prevInit_eq (g : GraphData) (v : String) :
    prevInit g v = if v ∈ nodeIds g then .null else .undef := by
  rw [prevInit, foldl_update_null]
  rfl

theorem prevInit_not_str (g : GraphData) (v u : String) :
    prevInit g v ≠ .str u := by
  rw [prevInit_eq]
  by_cases hv : v ∈ nodeIds g <;> simp [hv]

theorem adjKeys_sub_nodeIds {g : GraphData} {k : String}
    (h : k ∈ adjKeys (buildAdjacencyList g)) : k ∈ nodeIds g :=
  (build_isSome_iff g k).mp (adjOf_isSome_iff.mpr h)

theorem dInit_invB (g : GraphData) (startId endId : String) :
    DInvB (nodeMapGet g) (buildAdjacencyList g) startId endId (dInit g startId) := by
  refine ⟨?_, rfl, ?_, trivial, ?_, ?_, ?_, ?_, ?_, ?_, ?_, ?_, ?_, ?_,
    ⟨0, distInit_start g startId⟩⟩
  · exact List.sorted_singleton _
  · simp [dInit, histIds]
  · intro v u hvu
    exact absurd hvu (prevInit_not_str g v u)
  · exact List.not_mem_nil endId
  · intro u hu
    simp [dInit, histIds] at hu
  · intro it hit
    rcases List.mem_singleton.mp hit with rfl
    exact Or.inl rfl
  · intro v hv
    exact absurd hv (List.not_mem_nil v)
  · intro v hv
    have hvn : v ∈ nodeIds g := adjKeys_sub_nodeIds hv
    by_cases hs : v = startId
    · rw [show (dInit g startId).dist v = distInit g startId v from rfl, hs, distInit_start]
      exact fun h => JNum.noConfusion h
    · rw [show (dInit g startId).dist v = distInit g startId v from rfl,
        distInit_of_ne g hs, if_pos hvn]
      exact fun h => JNum.noConfusion h
  · intro v c hvc
    by_cases hs : v = startId
    · left
      refine ⟨hs, ?_⟩
      rw [show (dInit g startId).dist v = distInit g startId v from rfl, hs,
        distInit_start] at hvc
      exact ((JNum.fin.injEq _ _).mp hvc).symm
    · rw [show (dInit g startId).dist v = distInit g startId v from rfl,
        distInit_of_ne g hs] at hvc
      by_cases hvn : v ∈ nodeIds g
      · rw [if_pos hvn] at hvc
        exact absurd hvc (fun h => JNum.noConfusion h)
      · rw [if_neg hvn] at hvc
        exact absurd hvc (fun h => JNum.noConfusion h)
  · intro v c hvc _
    by_cases hs : v = startId
    · refine ⟨⟨startId, 0⟩, List.mem_singleton_self _, hs.symm, ?_⟩
      rw [show (dInit g startId).dist v = distInit g startId v from rfl, hs,
        distInit_start] at hvc
      rw [show c = 0 from (((JNum.fin.injEq _ _).mp hvc)).symm ▸ rfl]
    · rw [show (dInit g startId).dist v = distInit g startId v from rfl,
        distInit_of_ne g hs] at hvc
      by_cases hvn : v ∈ nodeIds g
      · rw [if_pos hvn] at hvc
        exact absurd hvc (fun h => JNum.noConfusion h)
      · rw [if_neg hvn] at hvc
        exact absurd hvc (fun h => JNum.noConfusion h)
  · intro v u hvu
    exact absurd hvu (prevInit_not_str g v u)
  · intro k hk
    rw [show (dInit g startId).prev k = prevInit g k from rfl, prevInit_eq, if_neg]
    intro hkn
    exact hk (adjOf_isSome_iff.mp ((build_isSome_iff g k).mpr hkn))

theorem dInit_invO (g : GraphData) (startId : String)
    (hs : startId ∈ nodeIds g) :
    DInvO (buildAdjacencyList g) startId (dInit g startId) := by
  have hprev : prevInit g startId = .null := by
    rw [prevInit_eq, if_pos hs]
  refine ⟨?_, ?_, ?_, ?_, ?_, hprev, distInit_start g startId⟩
  · intro u hu
    exact absurd hu (List.not_mem_nil u)
  · intro u hu
    exact absurd hu (List.not_mem_nil u)
  · intro v hv
    exact absurd hv (List.not_mem_nil v)
  · intro it hit
    rcases List.mem_singleton.mp hit with rfl
    refine ⟨[startId], 0, distInit_start g startId, PrevChain.base hprev, ?_, ?_, ?_⟩
    · exact IsWalk.nil startId ((build_isSome_iff g startId).mpr hs)
    · exact List.nodup_singleton _
    · intro x hx
      exact Or.inl (List.mem_singleton.mp hx)
  · intro it hit
    rcases List.mem_singleton.mp hit with rfl
    exact ⟨0, distInit_start g startId, le_refl 0⟩


/-! ### Reconstruction follows the predecessor chain -/

theorem reconLoop_null (prev : String → JSV) (n fuel : Nat) (acc : List JSV) :
    reconLoop prev n fuel .null acc = acc := by
  cases fuel <;> rfl

theorem reconLoop_chain {prev : String → JSV} {startId : String} {n : Nat}
    {v : String} {ids : List String}
    (hchain : PrevChain prev startId v ids) :
    ∀ (acc : List JSV) (fuel : Nat),
    ids.length + acc.length ≤ n →
    ids.length + 1 ≤ fuel →
    reconLoop prev n fuel (.str v) acc = ids.map .str ++ acc := by
  induction hchain with
  | base hb =>
    intro acc fuel hlen hfuel
    cases fuel with
    | zero => exact absurd hfuel (by omega)
    | succ f =>
      rw [reconLoop]
      rw [if_neg (by simp only [List.length_cons]; simp only [List.length_singleton] at hlen; omega)]
      rw [show jsRead prev (.str startId) = prev startId from rfl, hb, reconLoop_null]
      rfl
      exact fun h => JSV.noConfusion h
  | @step u v0 ids0 hc hp ih =>
    intro acc fuel hlen hfuel
    rw [List.length_append, List.length_singleton] at hlen hfuel
    cases fuel with
    | zero => exact absurd hfuel (by omega)
    | succ f =>
      rw [reconLoop]
      rw [if_neg (by simp only [List.length_cons]; omega)]
      rw [show jsRead prev (.str v0) = prev v0 from rfl, hp,
        ih (.str v0 :: acc) f (by simp only [List.length_cons]; omega) (by omega)]
      simp
      exact fun h => JSV.noConfusion h

theorem nodup_length_le {l l2 : List String} (hn : l.Nodup)
    (hsub : ∀ x ∈ l, x ∈ l2) : l.length ≤ l2.length := by
  calc l.length = l.toFinset.card := (List.toFinset_card_of_nodup hn).symm
  _ ≤ l2.toFinset.card := Finset.card_le_card (fun x hx =>
      List.mem_toFinset.mpr (hsub x (List.mem_toFinset.mp hx)))
  _ ≤ l2.length := l2.toFinset_card_le

theorem build_nonneg {g : GraphData} (hnn : NonnegWeights g) :
    ∀ a b w, AdjStep (buildAdjacencyList g) a b w → 0 ≤ w := by
  intro a b w h
  obtain ⟨l, hl, he⟩ := build_weights h
  exact he ▸ hnn l hl

/-- The heart of the Dijkstra correctness claims: a completed run on a
graph whose end is reachable, with nonnegative weights and no hazard
abort, leaves the end node settled at the minimal walk cost, with a
duplicate-free predecessor chain realizing it. -/
theorem dijkstra_reachable_opt
    {g : GraphData} {startId endId : String} {fuel : Nat} {out : DState × Option String}
    (hnn : NonnegWeights g)
    (hrun : dijkstraLoop (nodeMapGet g) (buildAdjacencyList g) startId endId fuel
      (dInit g startId) = some out)
    (hout : out.2 = none)
    (hreach : Reachable (buildAdjacencyList g) startId endId) :
    ∃ ids de, out.1.dist endId = .fin de ∧ PrevChain out.1.prev startId endId ids ∧
      IsWalk (buildAdjacencyList g) startId endId ids de ∧ ids.Nodup ∧
      ids.length ≤ g.nodes.length ∧
      (∀ l c, IsWalk (buildAdjacencyList g) startId endId l c → de ≤ c) := by
  obtain ⟨wl, wc, hw⟩ := hreach
  have hsn : startId ∈ nodeIds g := (build_isSome_iff g startId).mp hw.src_isSome
  have hclosed : ∀ a b w, AdjStep (buildAdjacencyList g) a b w →
      (adjOf (buildAdjacencyList g) b).isSome ∧ (adjOf (buildAdjacencyList g) a).isSome :=
    fun _ _ _ h => build_closed h
  have post := dloopB hclosed fuel _ out (dInit_invB g startId endId) hrun
  have opt := dloopO hclosed (build_nonneg hnn) fuel _ out (dInit_invB g startId endId)
    (dInit_invO g startId hsn) hrun
  have hev : endId ∈ out.1.vset := by
    by_contra hnv
    obtain ⟨it, hit, -⟩ := walk_lower_bound hclosed (build_nonneg hnn) post.cover
      (opt.no_settle hout hnv) hw hnv
    rw [opt.pq_empty hout hnv] at hit
    exact absurd hit (List.not_mem_nil it)
  obtain ⟨⟨ids, dv, hdv, hchain, hwalk, hnodup, hmem⟩, de, hde, hminw⟩ :=
    opt.end_settled hout hev
  have hdveq : dv = de := by
    rw [hde] at hdv
    exact (JNum.fin.injEq _ _).mp hdv.symm
  refine ⟨ids, de, hde, hchain, hdveq ▸ hwalk, hnodup, ?_, hminw⟩
  have hsubn : ∀ x ∈ ids, x ∈ nodeIds g := by
    intro x hx
    have hxv : x ∈ out.1.vset := by
      rcases hmem x hx with h1 | h1
      · exact h1 ▸ hev
      · exact h1
    rcases opt.vset_sub x hxv with h1 | h1
    · exact h1 ▸ hsn
    · exact adjKeys_sub_nodeIds h1
  calc ids.length ≤ (nodeIds g).length := nodup_length_le hnodup hsubn
  _ = g.nodes.length := List.length_map _ _

/-- A completed runDijkstra whose result carries no hazard marker came
from a loop exit without hazard, followed by reconstruction. -/
theorem runDijkstra_none_case {g : GraphData} {startId endId : String} {fuel : Nat}
    {res : AlgoResult}
    (hrun : runDijkstra g startId endId fuel = some res)
    (hne : res.explodedAt = none) :
    ∃ out : DState × Option String,
      dijkstraLoop (nodeMapGet g) (buildAdjacencyList g) startId endId fuel
        (dInit g startId) = some out ∧ out.2 = none ∧
      res = reconstruct out.1.prev g.nodes.length startId endId out.1.hist
        (out.1.dist endId) := by
  rw [runDijkstra_eq] at hrun
  cases hloop : dijkstraLoop (nodeMapGet g) (buildAdjacencyList g) startId endId fuel
      (dInit g startId) with
  | none =>
    rw [hloop] at hrun
    exact Option.noConfusion hrun
  | some p =>
    obtain ⟨s, ou⟩ := p
    rw [hloop] at hrun
    cases ou with
    | some u =>
      have hrun2 : some (⟨[], s.hist, .fin 0, some u⟩ : AlgoResult) = some res := hrun
      injection hrun2 with h
      rw [← h] at hne
      exact Option.noConfusion hne
    | none =>
      have hrun2 : some (reconstruct s.prev g.nodes.length startId endId s.hist
          (s.dist endId)) = some res := hrun
      injection hrun2 with h
      exact ⟨(s, none), rfl, rfl, h.symm⟩

/-- When the predecessor chain of the end node is short and duplicate
free, reconstruction returns exactly it. -/
theorem reconstruct_of_chain {prev : String → JSV} {n : Nat} {startId endId : String}
    {hist : List VisitedStep} {de : ℚ} {ids : List String}
    (hchain : PrevChain prev startId endId ids)
    (hnodup : ids.Nodup)
    (hlen : ids.length ≤ n) :
    reconstruct prev n startId endId hist (.fin de) =
      ⟨ids.map .str, hist, .fin de, none⟩ := by
  rw [reconstruct]
  rw [if_neg (by rw [show (JNum.fin de).isInf = false from rfl]; exact Bool.false_ne_true)]
  have hpath : reconLoop prev n (n + 2) (.str endId) [] = ids.map .str ++ [] :=
    reconLoop_chain hchain [] (n + 2) (by simpa using hlen) (by omega)
  rw [List.append_nil] at hpath
  have hhead : (ids.map JSV.str).head? = some (.str startId) := by
    rw [List.head?_map, hchain.head_is_start]
    rfl
  rw [if_neg (by rw [hpath, hhead]; exact fun hne => hne rfl)]
  rw [hpath]

/-- C1: under the data model's nonnegative edge weights, a completed
hazard-free run of runDijkstra on a graph whose end is reachable from
the start returns a path through the adjacency index from start to end
whose cost it also returns, and no walk from start to end costs less. -/
theorem claim_c1 (g : GraphData) (startId endId : String) (fuel : Nat)
    (res : AlgoResult)
    (hnn : NonnegWeights g)
    (hrun : runDijkstra g startId endId fuel = some res)
    (hnoexp : res.explodedAt = none)
    (hreach : Reachable (buildAdjacencyList g) startId endId) :
    ∃ c ids, res.cost = .fin c ∧ res.path = ids.map JSV.str ∧
      IsWalk (buildAdjacencyList g) startId endId ids c ∧
      ∀ l c2, IsWalk (buildAdjacencyList g) startId endId l c2 → c ≤ c2 := by
  obtain ⟨out, hloop, hout, hres⟩ := runDijkstra_none_case hrun hnoexp
  obtain ⟨ids, de, hde, hchain, hwalk, hnodup, hlen, hmin⟩ :=
    dijkstra_reachable_opt hnn hloop hout hreach
  rw [hres, hde, reconstruct_of_chain hchain hnodup hlen]
  exact ⟨de, ids, rfl, rfl, hwalk, hmin⟩

theorem claim_c1_witness :
    ∃ c ids,
      (⟨[.str "A", .str "B", .str "C"],
        [⟨"A", none⟩, ⟨"B", some "A"⟩, ⟨"C", some "B"⟩], .fin 2, none⟩ : AlgoResult).cost
          = .fin c ∧
      (⟨[.str "A", .str "B", .str "C"],
        [⟨"A", none⟩, ⟨"B", some "A"⟩, ⟨"C", some "B"⟩], .fin 2, none⟩ : AlgoResult).path
          = ids.map JSV.str ∧
      IsWalk (buildAdjacencyList gLine3Free) "A" "C" ids c ∧
      ∀ l c2, IsWalk (buildAdjacencyList gLine3Free) "A" "C" l c2 → c ≤ c2 :=
  claim_c1 gLine3Free "A" "C" 10
    ⟨[.str "A", .str "B", .str "C"],
      [⟨"A", none⟩, ⟨"B", some "A"⟩, ⟨"C", some "B"⟩], .fin 2, none⟩
    (show ∀ l ∈ gLine3Free.links, 0 ≤ l.distance by with_unfolding_all decide)
    (by with_unfolding_all decide) rfl
    ⟨["A", "B", "C"], 1 + (1 + 0),
      IsWalk.cons ⟨[⟨"B", 1⟩], by with_unfolding_all decide, by with_unfolding_all decide⟩
        (IsWalk.cons ⟨[⟨"A", 1⟩, ⟨"C", 1⟩], by with_unfolding_all decide,
            by with_unfolding_all decide⟩
          (IsWalk.nil "C" (by with_unfolding_all decide)))⟩

/-! ### Shapes of the reconstruction result -/

theorem reconstruct_inf {prev : String → JSV} {n : Nat} {startId endId : String}
    {hist : List VisitedStep} {cost : JNum} (h : cost.isInf = true) :
    reconstruct prev n startId endId hist cost = ⟨[], hist, .fin 0, none⟩ := by
  rw [reconstruct, if_pos h]

theorem reconstruct_hist (prev : String → JSV) (n : Nat) (startId endId : String)
    (hist : List VisitedStep) (cost : JNum) :
    (reconstruct prev n startId endId hist cost).visitedHistory = hist := by
  rw [reconstruct]
  by_cases h : cost.isInf = true
  · rw [if_pos h]
  · rw [if_neg h]
    dsimp only
    split
    · rfl
    · rfl

theorem reconstruct_exploded (prev : String → JSV) (n : Nat) (startId endId : String)
    (hist : List VisitedStep) (cost : JNum) :
    (reconstruct prev n startId endId hist cost).explodedAt = none := by
  rw [reconstruct]
  by_cases h : cost.isInf = true
  · rw [if_pos h]
  · rw [if_neg h]
    dsimp only
    split
    · rfl
    · rfl

/-- A nonempty reconstructed path is the predecessor walk itself, the
cost is passed through, and the walk starts at the start identifier. -/
theorem reconstruct_path_cases {prev : String → JSV} {n : Nat} {startId endId : String}
    {hist : List VisitedStep} {cost : JNum}
    (hne : (reconstruct prev n startId endId hist cost).path ≠ []) :
    cost.isInf = false ∧
    (reconstruct prev n startId endId hist cost).path =
      reconLoop prev n (n + 2) (.str endId) [] ∧
    (reconstruct prev n startId endId hist cost).cost = cost ∧
    (reconLoop prev n (n + 2) (.str endId) []).head? = some (.str startId) := by
  rw [reconstruct] at hne ⊢
  by_cases h : cost.isInf = true
  · rw [if_pos h] at hne
    exact absurd rfl hne
  · rw [if_neg h]
    rw [if_neg h] at hne
    dsimp only at hne ⊢
    by_cases hh : (reconLoop prev n (n + 2) (.str endId) []).head? ≠ some (.str startId)
    · rw [if_pos hh] at hne
      exact absurd rfl hne
    · rw [if_neg hh]
      exact ⟨Bool.not_eq_true _ ▸ h, rfl, rfl, not_not.mp hh⟩

/-- The values the reconstruction loop can return: entries of the
accumulator, the cursor itself, or values read off the predecessor map. -/
theorem reconLoop_elems {prev : String → JSV} {n : Nat} :
    ∀ (fuel : Nat) (c : JSV) (acc : List JSV) (y : JSV),
    y ∈ reconLoop prev n fuel c acc →
    y ∈ acc ∨ y = c ∨ ∃ k, y = prev k := by
  intro fuel
  induction fuel with
  | zero =>
    intro c acc y hy
    exact Or.inl hy
  | succ f ih =>
    intro c acc y hy
    cases c with
    | null => exact Or.inl hy
    | undef =>
      rw [reconLoop] at hy
      by_cases hcap : (JSV.undef :: acc).length > n
      · rw [if_pos hcap] at hy
        rcases List.mem_cons.mp hy with hy | hy
        · exact Or.inr (Or.inl hy)
        · exact Or.inl hy
      · rw [if_neg hcap] at hy
        rcases ih _ _ _ hy with hy | hy | ⟨k, hk⟩
        · rcases List.mem_cons.mp hy with hy | hy
          · exact Or.inr (Or.inl hy)
          · exact Or.inl hy
        · exact Or.inr (Or.inr ⟨"undefined", hy⟩)
        · exact Or.inr (Or.inr ⟨k, hk⟩)
      exact fun h => JSV.noConfusion h
    | str v =>
      rw [reconLoop] at hy
      by_cases hcap : (JSV.str v :: acc).length > n
      · rw [if_pos hcap] at hy
        rcases List.mem_cons.mp hy with hy | hy
        · exact Or.inr (Or.inl hy)
        · exact Or.inl hy
      · rw [if_neg hcap] at hy
        rcases ih _ _ _ hy with hy | hy | ⟨k, hk⟩
        · rcases List.mem_cons.mp hy with hy | hy
          · exact Or.inr (Or.inl hy)
          · exact Or.inl hy
        · exact Or.inr (Or.inr ⟨v, hy⟩)
        · exact Or.inr (Or.inr ⟨k, hk⟩)
      exact fun h => JSV.noConfusion h

/-- Once the cursor reads undefined and previous["undefined"] is itself
undefined, the loop keeps prepending undefined, so the head of its
output is undefined. -/
theorem reconLoop_undef_head {prev : String → JSV} {n : Nat}
    (hU : prev "undefined" = .undef) :
    ∀ (fuel : Nat) (acc : List JSV),
    (reconLoop prev n (fuel + 1) .undef acc).head? = some .undef := by
  intro fuel
  induction fuel with
  | zero =>
    intro acc
    rw [reconLoop]
    by_cases hcap : (JSV.undef :: acc).length > n
    · rw [if_pos hcap]
      rfl
    · rw [if_neg hcap]
      rw [show jsRead prev .undef = prev "undefined" from rfl, hU, reconLoop]
      rfl
    exact fun h => JSV.noConfusion h
  | succ f ih =>
    intro acc
    rw [reconLoop]
    by_cases hcap : (JSV.undef :: acc).length > n
    · rw [if_pos hcap]
      rfl
    · rw [if_neg hcap]
      rw [show jsRead prev .undef = prev "undefined" from rfl, hU]
      exact ih _
    exact fun h => JSV.noConfusion h

/-- A cursor whose predecessor reads undefined hands the loop to the
undefined regime immediately after its first step. -/
theorem reconLoop_dead_start {prev : String → JSV} {n : Nat} {e : String}
    (hU : prev "undefined" = .undef) (he : prev e = .undef) (hn : 1 ≤ n) :
    (reconLoop prev n (n + 2) (.str e) []).head? = some .undef := by
  rw [show n + 2 = (n + 1) + 1 from rfl, reconLoop]
  rw [if_neg (by simp only [List.length_cons, List.length_nil]; omega)]
  rw [show jsRead prev (.str e) = prev e from rfl, he]
  exact reconLoop_undef_head hU n _
  exact fun h => JSV.noConfusion h

/-- When the predecessor walk dies into undefined, reconstruction
reports no path and cost 0. -/
theorem reconstruct_dead {prev : String → JSV} {n : Nat} {startId endId : String}
    {hist : List VisitedStep} {cost : JNum}
    (hU : prev "undefined" = .undef) (he : prev endId = .undef) (hn : 1 ≤ n) :
    reconstruct prev n startId endId hist cost = ⟨[], hist, .fin 0, none⟩ := by
  rw [reconstruct]
  by_cases h : cost.isInf = true
  · rw [if_pos h]
  · rw [if_neg h]
    dsimp only
    rw [if_pos]
    rw [reconLoop_dead_start hU he hn]
    intro hc
    injection hc with hc
    exact JSV.noConfusion hc

/-! ### Dijkstra: the three reconstruction-facing support results -/

theorem runDijkstra_path_case {g : GraphData} {startId endId : String} {fuel : Nat}
    {res : AlgoResult}
    (hrun : runDijkstra g startId endId fuel = some res)
    (hne : res.path ≠ []) :
    ∃ out : DState × Option String,
      dijkstraLoop (nodeMapGet g) (buildAdjacencyList g) startId endId fuel
        (dInit g startId) = some out ∧ out.2 = none ∧
      res = reconstruct out.1.prev g.nodes.length startId endId out.1.hist
        (out.1.dist endId) := by
  rw [runDijkstra_eq] at hrun
  cases hloop : dijkstraLoop (nodeMapGet g) (buildAdjacencyList g) startId endId fuel
      (dInit g startId) with
  | none =>
    rw [hloop] at hrun
    exact Option.noConfusion hrun
  | some p =>
    obtain ⟨s, ou⟩ := p
    rw [hloop] at hrun
    cases ou with
    | some u =>
      have hrun2 : some (⟨[], s.hist, .fin 0, some u⟩ : AlgoResult) = some res := hrun
      injection hrun2 with h
      rw [← h] at hne
      exact absurd rfl hne
    | none =>
      have hrun2 : some (reconstruct s.prev g.nodes.length startId endId s.hist
          (s.dist endId)) = some res := hrun
      injection hrun2 with h
      exact ⟨(s, none), rfl, rfl, h.symm⟩

/-- A finished loop holding a finite end distance has settled the end
at the least walk cost, with a short duplicate-free chain (the start
must name a node, or no finite-distance chain could begin there). -/
theorem dijkstra_fin_chain {g : GraphData} {startId endId : String} {fuel : Nat}
    {out : DState × Option String} {de : ℚ}
    (hnn : NonnegWeights g)
    (hrun : dijkstraLoop (nodeMapGet g) (buildAdjacencyList g) startId endId fuel
      (dInit g startId) = some out)
    (hout : out.2 = none)
    (hsn : startId ∈ nodeIds g)
    (hde : out.1.dist endId = .fin de) :
    ∃ ids, PrevChain out.1.prev startId endId ids ∧
      IsWalk (buildAdjacencyList g) startId endId ids de ∧ ids.Nodup ∧
      ids.length ≤ g.nodes.length ∧
      (∀ l c, IsWalk (buildAdjacencyList g) startId endId l c → de ≤ c) := by
  have hclosed : ∀ a b w, AdjStep (buildAdjacencyList g) a b w →
      (adjOf (buildAdjacencyList g) b).isSome ∧ (adjOf (buildAdjacencyList g) a).isSome :=
    fun _ _ _ h => build_closed h
  have post := dloopB hclosed fuel _ out (dInit_invB g startId endId) hrun
  have opt := dloopO hclosed (build_nonneg hnn) fuel _ out (dInit_invB g startId endId)
    (dInit_invO g startId hsn) hrun
  have hev : endId ∈ out.1.vset := by
    by_contra hnv
    obtain ⟨it, hit, -, -⟩ := post.cover endId de hde hnv
    rw [opt.pq_empty hout hnv] at hit
    exact absurd hit (List.not_mem_nil it)
  obtain ⟨⟨ids, dv, hdv, hchain, hwalk, hnodup, hmem⟩, de2, hde2, hminw⟩ :=
    opt.end_settled hout hev
  have hdveq : dv = de := by
    rw [hde] at hdv
    exact (JNum.fin.injEq _ _).mp hdv.symm
  have hde2eq : de2 = de := by
    rw [hde] at hde2
    exact (JNum.fin.injEq _ _).mp hde2.symm
  refine ⟨ids, hchain, hdveq ▸ hwalk, hnodup, ?_, hde2eq ▸ hminw⟩
  have hsubn : ∀ x ∈ ids, x ∈ nodeIds g := by
    intro x hx
    have hxv : x ∈ out.1.vset := by
      rcases hmem x hx with h1 | h1
      · exact h1 ▸ hev
      · exact h1
    rcases opt.vset_sub x hxv with h1 | h1
    · exact h1 ▸ hsn
    · exact adjKeys_sub_nodeIds h1
  calc ids.length ≤ (nodeIds g).length := nodup_length_le hnodup hsubn
  _ = g.nodes.length := List.length_map _ _

/-- Dijkstra half of the path-shape claims: a nonempty returned path on
a graph whose end names a node is, under nonnegative weights, a walk of
the adjacency index from start to end whose weights sum to the cost. -/
theorem dijkstra_path_walk {g : GraphData} {startId endId : String} {fuel : Nat}
    {res : AlgoResult}
    (hnn : NonnegWeights g)
    (hrun : runDijkstra g startId endId fuel = some res)
    (hen : endId ∈ nodeIds g)
    (hpath : res.path ≠ []) :
    ∃ ids c, res.path = ids.map JSV.str ∧ res.cost = .fin c ∧
      IsWalk (buildAdjacencyList g) startId endId ids c := by
  obtain ⟨out, hloop, hout, hres⟩ := runDijkstra_path_case hrun hpath
  have hclosed : ∀ a b w, AdjStep (buildAdjacencyList g) a b w →
      (adjOf (buildAdjacencyList g) b).isSome ∧ (adjOf (buildAdjacencyList g) a).isSome :=
    fun _ _ _ h => build_closed h
  have post := dloopB hclosed fuel _ out (dInit_invB g startId endId) hloop
  rw [hres] at hpath
  obtain ⟨hninf, hpeq, hceq, hhead⟩ := reconstruct_path_cases hpath
  by_cases hsn : startId ∈ nodeIds g
  · have hde : ∃ de, out.1.dist endId = .fin de := by
      cases hd : out.1.dist endId with
      | undef =>
        exact absurd hd (post.dist_keys endId
          (adjOf_isSome_iff.mp ((build_isSome_iff g endId).mpr hen)))
      | inf => rw [hd] at hninf; exact absurd hninf (by simp [JNum.isInf])
      | fin de => exact ⟨de, rfl⟩
    obtain ⟨de, hde⟩ := hde
    obtain ⟨ids, hchain, hwalk, hnodup, hlen, -⟩ :=
      dijkstra_fin_chain hnn hloop hout hsn hde
    rw [hres, hde, reconstruct_of_chain hchain hnodup hlen]
    exact ⟨ids, de, rfl, rfl, hwalk⟩
  · exfalso
    have hmem : (.str startId) ∈ reconLoop out.1.prev g.nodes.length
        (g.nodes.length + 2) (.str endId) [] := by
      rw [hpeq] at hpath
      cases hl : reconLoop out.1.prev g.nodes.length (g.nodes.length + 2) (.str endId) [] with
      | nil => exact absurd hl hpath
      | cons a tl =>
        rw [hl] at hhead
        injection hhead with hh
        rw [← hh]
        exact List.mem_cons_self a tl
    rcases reconLoop_elems _ _ _ _ hmem with hy | hy | ⟨k, hk⟩
    · exact absurd hy (List.not_mem_nil _)
    · injection hy with hy
      exact hsn (hy ▸ hen)
    · exact hsn ((build_isSome_iff g startId).mp (post.prev_key k startId hk.symm))

/-- Dijkstra half of the stop-at-end claim: a nonempty returned path on
a graph whose end names a node means no abort and a history ending at
the settlement of the end node. -/
theorem dijkstra_path_hist {g : GraphData} {startId endId : String} {fuel : Nat}
    {res : AlgoResult}
    (hrun : runDijkstra g startId endId fuel = some res)
    (hen : endId ∈ nodeIds g)
    (hpath : res.path ≠ []) :
    res.explodedAt = none ∧ ∃ pre f, res.visitedHistory = pre ++ [⟨endId, f⟩] := by
  obtain ⟨out, hloop, hout, hres⟩ := runDijkstra_path_case hrun hpath
  have hclosed : ∀ a b w, AdjStep (buildAdjacencyList g) a b w →
      (adjOf (buildAdjacencyList g) b).isSome ∧ (adjOf (buildAdjacencyList g) a).isSome :=
    fun _ _ _ h => build_closed h
  have post := dloopB hclosed fuel _ out (dInit_invB g startId endId) hloop
  rw [hres] at hpath
  obtain ⟨hninf, -, -, -⟩ := reconstruct_path_cases hpath
  refine ⟨by rw [hres, reconstruct_exploded], ?_⟩
  rcases post.endexit hout with ⟨hpq, hnv⟩ | ⟨pre, f, hh⟩
  · exfalso
    cases hd : out.1.dist endId with
    | undef =>
      exact absurd hd (post.dist_keys endId
        (adjOf_isSome_iff.mp ((build_isSome_iff g endId).mpr hen)))
    | inf => rw [hd] at hninf; exact absurd hninf (by simp [JNum.isInf])
    | fin de =>
      obtain ⟨it, hit, -, -⟩ := post.cover endId de hd hnv
      rw [hpq] at hit
      exact absurd hit (List.not_mem_nil it)
  · exact ⟨pre, f, by rw [hres, reconstruct_hist, hh]⟩

/-- Dijkstra half of the no-path claim: with a nonempty node set, no
node literally named "undefined" and no abort, a missing start, missing
end or unreachable end yields the empty path with cost 0. -/
theorem dijkstra_nopath {g : GraphData} {startId endId : String} {fuel : Nat}
    {res : AlgoResult}
    (hrun : runDijkstra g startId endId fuel = some res)
    (hnoexp : res.explodedAt = none)
    (hnodes : g.nodes ≠ [])
    (hund : "undefined" ∉ nodeIds g)
    (hmiss : startId ∉ nodeIds g ∨ endId ∉ nodeIds g ∨
      ¬ Reachable (buildAdjacencyList g) startId endId) :
    res.path = [] ∧ res.cost = .fin 0 := by
  obtain ⟨out, hloop, hout, hres⟩ := runDijkstra_none_case hrun hnoexp
  have hclosed : ∀ a b w, AdjStep (buildAdjacencyList g) a b w →
      (adjOf (buildAdjacencyList g) b).isSome ∧ (adjOf (buildAdjacencyList g) a).isSome :=
    fun _ _ _ h => build_closed h
  have post := dloopB hclosed fuel _ out (dInit_invB g startId endId) hloop
  have hn1 : 1 ≤ g.nodes.length := by
    cases hg : g.nodes with
    | nil => exact absurd hg hnodes
    | cons a tl => simp
  have hU : out.1.prev "undefined" = .undef :=
    post.prev_dom "undefined" (fun h => hund (adjKeys_sub_nodeIds h))
  cases hd : out.1.dist endId with
  | undef =>
    have hen : endId ∉ nodeIds g := by
      intro hen
      exact absurd hd (post.dist_keys endId
        (adjOf_isSome_iff.mp ((build_isSome_iff g endId).mpr hen)))
    have hse : endId ≠ startId := by
      intro he
      obtain ⟨c0, hc0⟩ := post.start_fin
      rw [← he] at hc0
      rw [hd] at hc0
      exact JNum.noConfusion hc0
    have hpe : out.1.prev endId = .undef :=
      post.prev_dom endId (fun h => hen (adjKeys_sub_nodeIds h))
    rw [hres, hd, reconstruct_dead hU hpe hn1]
    exact ⟨rfl, rfl⟩
  | inf =>
    rw [hres, hd,
      @reconstruct_inf out.1.prev g.nodes.length startId endId out.1.hist .inf rfl]
    exact ⟨rfl, rfl⟩
  | fin de =>
    rcases post.dist_sound endId de hd with ⟨hes, -⟩ | ⟨l, hl⟩
    · have hsn : startId ∉ nodeIds g := by
        rcases hmiss with h1 | h1 | h1
        · exact h1
        · exact hes ▸ h1
        · intro hs
          exact h1 ⟨[startId], 0, hes ▸ IsWalk.nil startId ((build_isSome_iff g startId).mpr hs)⟩
      have hpe : out.1.prev endId = .undef := by
        refine post.prev_dom endId (fun h => hsn ?_)
        rw [← hes]
        exact adjKeys_sub_nodeIds h
      rw [hres, hd, reconstruct_dead hU hpe hn1]
      exact ⟨rfl, rfl⟩
    · exfalso
      rcases hmiss with h1 | h1 | h1
      · exact h1 ((build_isSome_iff g startId).mp hl.src_isSome)
      · exact h1 ((build_isSome_iff g endId).mp hl.tgt_isSome)
      · exact h1 ⟨l, de, hl⟩

/-! ### The A* loop: basic invariant, arbitrary weights and heuristic -/

section AStarBasic

variable {nmap : String → Option Node} {adj : AdjIndex} {h : String → ℚ}
variable {startId endId : String}

theorem relaxA_eq (h : String → ℚ) (u : String) (adjL : List AdjEntry) (s : AState) :
    relaxA h u adjL s = adjL.foldl (relaxAStep h u) s := rfl

theorem relaxAStep_vset (h : String → ℚ) (u : String) (s : AState) (nb : AdjEntry) :
    (relaxAStep h u s nb).vset = s.vset := by
  rw [relaxAStep]
  split <;> rfl

theorem relaxAStep_hist (h : String → ℚ) (u : String) (s : AState) (nb : AdjEntry) :
    (relaxAStep h u s nb).hist = s.hist := by
  rw [relaxAStep]
  split <;> rfl

theorem relaxA_vset (h : String → ℚ) (u : String) (adjL : List AdjEntry) (s : AState) :
    (relaxA h u adjL s).vset = s.vset := by
  rw [relaxA_eq]
  induction adjL generalizing s with
  | nil => rfl
  | cons nb rest ih => rw [List.foldl_cons, ih, relaxAStep_vset]

theorem relaxA_hist (h : String → ℚ) (u : String) (adjL : List AdjEntry) (s : AState) :
    (relaxA h u adjL s).hist = s.hist := by
  rw [relaxA_eq]
  induction adjL generalizing s with
  | nil => rfl
  | cons nb rest ih => rw [List.foldl_cons, ih, relaxAStep_hist]

theorem isHazard_endId (nmap : String → Option Node) (startId endId : String) :
    isHazard nmap startId endId endId = false := by
  rw [isHazard]
  cases nmap endId with
  | none => rfl
  | some n => simp

theorem hist_push_nodup {hist : List VisitedStep} {x : String} {f : Option String}
    (hn : (histIds hist).Nodup) (hx : x ∉ histIds hist) :
    (histIds (hist ++ [⟨x, f⟩])).Nodup := by
  rw [histIds_append]
  refine List.Nodup.append hn (List.nodup_singleton _) ?_
  intro y hy hy2
  rw [show histIds ([⟨x, f⟩] : List VisitedStep) = [x] from rfl, List.mem_singleton] at hy2
  exact hx (hy2 ▸ hy)

theorem relaxAStep_pres_AB
    (hclosed : ∀ a b w, AdjStep adj a b w → (adjOf adj b).isSome ∧ (adjOf adj a).isSome)
    {s : AState} {u : String} {nb : AdjEntry}
    (hstep : AdjStep adj u nb.id nb.weight)
    (hu : u ∈ s.vset)
    (hinv : AInvB nmap adj h startId endId s) :
    AInvB nmap adj h startId endId (relaxAStep h u s nb) := by
  rw [relaxAStep]
  cases hlt : ((s.gScore u).add nb.weight).lt (s.gScore nb.id) with
  | false => simpa [hlt] using hinv
  | true =>
    simp only [hlt, if_true]
    obtain ⟨q, hq⟩ := JNum.lt_fin_left hlt
    obtain ⟨p, hp, hpq⟩ := JNum.add_fin_inv hq
    have hmemkeys : nb.id ∈ adjKeys adj := adjOf_isSome_iff.mp (hclosed _ _ _ hstep).1
    have huh : u ∈ histIds s.hist := by
      have h2 := hinv.vset_hist ▸ hu
      exact List.mem_reverse.mp h2
    refine ⟨?_, hinv.vset_hist, hinv.nodup, hinv.revok, ?_, hinv.no_end, hinv.no_hazard,
      ?_, hinv.vset_ids, ?_, ?_, ?_, ?_, ?_, ?_⟩
    · exact pqEnqueue_sorted _ _ _
    · intro v x hvx
      dsimp only at hvx ⊢
      by_cases hv : v = nb.id
      · subst hv
        rw [Function.update_same] at hvx
        cases hvx
        exact huh
      · rw [Function.update_noteq hv] at hvx
        exact hinv.prev_hist v x hvx
    · intro it hit
      dsimp only at hit
      rcases mem_pqEnqueue.mp hit with hit | hit
      · exact hinv.pq_ids it hit
      · subst hit
        exact Or.inr hmemkeys
    · intro v hv
      dsimp only
      by_cases hveq : v = nb.id
      · subst hveq
        rw [Function.update_same, hq]
        exact fun hcon => JNum.noConfusion hcon
      · rw [Function.update_noteq hveq]
        exact hinv.g_keys v hv
    · intro v c hvc
      dsimp only at hvc
      by_cases hveq : v = nb.id
      · subst hveq
        rw [Function.update_same, hq] at hvc
        cases hvc
        right
        rcases hinv.g_sound u p hp with ⟨hus, hp0⟩ | ⟨l, hl⟩
        · refine ⟨[startId, nb.id], ?_⟩
          rw [hpq, hp0, show (0 : ℚ) + nb.weight = nb.weight + 0 by ring]
          exact IsWalk.cons (hus ▸ hstep) (IsWalk.nil _ (hclosed _ _ _ hstep).1)
        · exact ⟨l ++ [nb.id], hpq ▸ hl.append_edge hstep (hclosed _ _ _ hstep).1⟩
      · rw [Function.update_noteq hveq] at hvc
        exact hinv.g_sound v c hvc
    · intro v c hvc hvset
      dsimp only at hvc hvset ⊢
      by_cases hveq : v = nb.id
      · subst hveq
        rw [Function.update_same, hq] at hvc
        cases hvc
        refine ⟨⟨nb.id, (((s.gScore u).add nb.weight).add (h nb.id)).toQ⟩,
          mem_pqEnqueue.mpr (Or.inr rfl), rfl, ?_⟩
        rw [hq]
        exact le_of_eq rfl
      · rw [Function.update_noteq hveq] at hvc
        obtain ⟨it, hit, hid, hle⟩ := hinv.cover v c hvc hvset
        exact ⟨it, mem_pqEnqueue.mpr (Or.inl hit), hid, hle⟩
    · intro v x hvx
      dsimp only at hvx
      by_cases hveq : v = nb.id
      · subst hveq
        rw [Function.update_same] at hvx
        cases hvx
        exact (hclosed _ _ _ hstep).2
      · rw [Function.update_noteq hveq] at hvx
        exact hinv.prev_key v x hvx
    · intro k hk
      dsimp only
      have hkne : k ≠ nb.id := fun he => hk (he ▸ hmemkeys)
      rw [Function.update_noteq hkne]
      exact hinv.prev_dom k hk
    · dsimp only
      by_cases hsy : startId = nb.id
      · exact ⟨q, by rw [hsy, Function.update_same, hq]⟩
      · obtain ⟨c0, hc0⟩ := hinv.start_fin
        exact ⟨c0, by rw [Function.update_noteq hsy, hc0]⟩

theorem relaxA_pres_AB
    (hclosed : ∀ a b w, AdjStep adj a b w → (adjOf adj b).isSome ∧ (adjOf adj a).isSome)
    {s : AState} {u : String} {L adjL : List AdjEntry}
    (hadj : adjOf adj u = some L) (hsub : ∀ nb ∈ adjL, nb ∈ L)
    (hu : u ∈ s.vset)
    (hinv : AInvB nmap adj h startId endId s) :
    AInvB nmap adj h startId endId (relaxA h u adjL s) := by
  rw [relaxA_eq]
  induction adjL generalizing s with
  | nil => exact hinv
  | cons nb rest ih =>
    rw [List.foldl_cons]
    have hstep : AdjStep adj u nb.id nb.weight :=
      ⟨L, hadj, hsub nb (List.mem_cons_self nb rest)⟩
    exact ih (fun x hx => hsub x (List.mem_cons_of_mem nb hx))
      ((relaxAStep_vset h u s nb).symm ▸ hu)
      (relaxAStep_pres_AB hclosed hstep hu hinv)

theorem aCover_after_pop {s : AState} {it : PQItem} {rest : List PQItem}
    (hpq : s.pq = it :: rest)
    (hinv : AInvB nmap adj h startId endId s) :
    ∀ v c, s.gScore v = .fin c → v ∉ it.id :: s.vset →
      ∃ it2 ∈ rest, it2.id = v ∧ it2.priority ≤ c + h v := by
  intro v c hvc hv
  rw [List.mem_cons] at hv
  push_neg at hv
  obtain ⟨it2, hit2, hid, hle⟩ := hinv.cover v c hvc hv.2
  rw [hpq] at hit2
  rcases List.mem_cons.mp hit2 with h2 | h2
  · exact absurd (h2 ▸ hid) (Ne.symm hv.1)
  · exact ⟨it2, h2, hid, hle⟩

/-- Settling a fresh, non-hazard, non-end head entry preserves the basic
A* invariant. -/
theorem aSettle_pres_AB {s : AState} {it : PQItem} {rest : List PQItem}
    (hpq : s.pq = it :: rest)
    (hnotv : it.id ∉ s.vset)
    (hnotbomb : isHazard nmap startId endId it.id = false)
    (hnotend : it.id ≠ endId)
    (hinv : AInvB nmap adj h startId endId s) :
    AInvB nmap adj h startId endId (aSettle s it rest) := by
  unfold aSettle
  have hni : it.id ∉ histIds s.hist := by
    intro hmem
    exact hnotv (hinv.vset_hist ▸ List.mem_reverse.mpr hmem)
  refine ⟨?_, ?_, ?_, ?_, ?_, ?_, ?_, ?_, ?_, hinv.g_keys, hinv.g_sound, ?_,
    hinv.prev_key, hinv.prev_dom, hinv.start_fin⟩ <;> dsimp only
  · exact (List.sorted_cons.mp (hpq ▸ hinv.sorted)).2
  · rw [histIds_append, List.reverse_append, hinv.vset_hist]
    rfl
  · exact hist_push_nodup hinv.nodup hni
  · exact revok_push hinv.revok (fun x hx => hinv.prev_hist _ _ (JSV.toOpt_eq_some hx))
  · intro v u hvu
    rw [histIds_append]
    exact List.mem_append.mpr (Or.inl (hinv.prev_hist v u hvu))
  · rw [List.mem_cons]
    rintro (h2 | h2)
    · exact hnotend h2.symm
    · exact hinv.no_end h2
  · intro u hu
    rw [histIds_append] at hu
    rcases List.mem_append.mp hu with hu | hu
    · exact hinv.no_hazard u hu
    · have he : u = it.id := by simpa [histIds] using hu
      rw [he]
      exact hnotbomb
  · intro x hx
    exact hinv.pq_ids x (hpq ▸ List.mem_cons_of_mem it hx)
  · intro v hv
    rcases List.mem_cons.mp hv with hv | hv
    · exact hv ▸ hinv.pq_ids it (hpq ▸ List.mem_cons_self it rest)
    · exact hinv.vset_ids v hv
  · exact aCover_after_pop hpq hinv

/-- Discarding a stale head entry preserves the basic A* invariant. -/
theorem aStale_pres_AB {s : AState} {it : PQItem} {rest : List PQItem}
    (hpq : s.pq = it :: rest)
    (hv : it.id ∈ s.vset)
    (hinv : AInvB nmap adj h startId endId s) :
    AInvB nmap adj h startId endId { s with pq := rest } := by
  refine ⟨(List.sorted_cons.mp (hpq ▸ hinv.sorted)).2, hinv.vset_hist, hinv.nodup, hinv.revok,
    hinv.prev_hist, hinv.no_end, hinv.no_hazard, ?_, hinv.vset_ids, hinv.g_keys,
    hinv.g_sound, ?_, hinv.prev_key, hinv.prev_dom, hinv.start_fin⟩
  · intro x hx
    exact hinv.pq_ids x (hpq ▸ List.mem_cons_of_mem it hx)
  · intro v c hvc hvset
    obtain ⟨it2, hit2, hid, hle⟩ := hinv.cover v c hvc hvset
    rw [hpq] at hit2
    rcases List.mem_cons.mp hit2 with h2 | h2
    · exact absurd (h2 ▸ hv) (hid ▸ hvset)
    · exact ⟨it2, h2, hid, hle⟩

/-- A terminated run of the A* loop satisfies the basic post-condition. -/
theorem aloopB
    (hclosed : ∀ a b w, AdjStep adj a b w → (adjOf adj b).isSome ∧ (adjOf adj a).isSome) :
    ∀ (fuel : Nat) (s : AState) (out : AState × Option String),
    AInvB nmap adj h startId endId s →
    aStarLoop nmap adj h startId endId fuel s = some out →
    ABasicPost nmap adj h startId endId s out := by
  intro fuel
  induction fuel with
  | zero =>
    intro s out hinv hrun
    rw [aStarLoop] at hrun
    by_cases hq : s.pq.isEmpty
    · rw [if_pos hq] at hrun
      cases hrun
      refine ⟨⟨[], (List.append_nil _).symm⟩, hinv.nodup, hinv.revok, hinv.g_keys,
        hinv.g_sound, fun _ _ => hinv.cover, fun u hcon => Option.noConfusion hcon,
        fun _ => hinv.no_hazard, ?_, hinv.prev_key, hinv.prev_dom, hinv.start_fin⟩
      intro _
      exact Or.inl ⟨List.isEmpty_iff.mp hq,
        fun hcon => hinv.no_end (hinv.vset_hist ▸ List.mem_reverse.mpr hcon), hinv.no_end⟩
    · rw [if_neg hq] at hrun
      exact Option.noConfusion hrun
  | succ n ih =>
    intro s out hinv hrun
    cases hpq : s.pq with
    | nil =>
      rw [aStarLoop, hpq] at hrun
      cases hrun
      refine ⟨⟨[], (List.append_nil _).symm⟩, hinv.nodup, hinv.revok, hinv.g_keys,
        hinv.g_sound, fun _ _ => hinv.cover, fun u hcon => Option.noConfusion hcon,
        fun _ => hinv.no_hazard, ?_, hinv.prev_key, hinv.prev_dom, hinv.start_fin⟩
      intro _
      exact Or.inl ⟨hpq,
        fun hcon => hinv.no_end (hinv.vset_hist ▸ List.mem_reverse.mpr hcon), hinv.no_end⟩
    | cons it rest =>
      rw [aStarLoop, hpq] at hrun
      dsimp only at hrun
      by_cases hbomb : isHazard nmap startId endId it.id = true
      · rw [if_pos hbomb] at hrun
        cases hrun
        have hni : it.id ∉ histIds s.hist := by
          intro hmem
          rw [hinv.no_hazard it.id hmem] at hbomb
          exact Bool.noConfusion hbomb
        refine ⟨⟨[⟨it.id, (s.prev it.id).toOpt⟩], rfl⟩, hist_push_nodup hinv.nodup hni,
          revok_push hinv.revok (fun x hx => hinv.prev_hist _ _ (JSV.toOpt_eq_some hx)),
          hinv.g_keys, hinv.g_sound, ?_, ?_, ?_, ?_, hinv.prev_key, hinv.prev_dom,
          hinv.start_fin⟩
        · intro hcon
          exact Option.noConfusion hcon
        · intro u hu
          cases hu
          exact ⟨hbomb, s.hist, (s.prev it.id).toOpt, rfl⟩
        · intro hcon
          exact Option.noConfusion hcon
        · intro hcon
          exact Option.noConfusion hcon
      · rw [if_neg hbomb] at hrun
        have hbombf : isHazard nmap startId endId it.id = false := by
          cases hbe : isHazard nmap startId endId it.id
          · rfl
          · exact absurd hbe hbomb
        by_cases hend : it.id = endId
        · rw [if_pos hend] at hrun
          cases hrun
          have hni : it.id ∉ histIds s.hist := by
            intro hmem
            exact hinv.no_end (hend ▸ hinv.vset_hist ▸ List.mem_reverse.mpr hmem)
          refine ⟨⟨[⟨it.id, (s.prev it.id).toOpt⟩], rfl⟩, hist_push_nodup hinv.nodup hni,
            revok_push hinv.revok (fun x hx => hinv.prev_hist _ _ (JSV.toOpt_eq_some hx)),
            hinv.g_keys, hinv.g_sound, ?_, ?_, ?_, ?_, hinv.prev_key, hinv.prev_dom,
            hinv.start_fin⟩
          · intro _ hem
            exfalso
            refine hem ?_
            rw [histIds_append]
            refine List.mem_append.mpr (Or.inr ?_)
            rw [show histIds ([⟨it.id, (s.prev it.id).toOpt⟩] : List VisitedStep) =
              [it.id] from rfl, hend]
            exact List.mem_singleton_self endId
          · intro u hcon
            exact Option.noConfusion hcon
          · intro _ u hu
            rw [histIds_append] at hu
            rcases List.mem_append.mp hu with hu | hu
            · exact hinv.no_hazard u hu
            · have he : u = it.id := by simpa [histIds] using hu
              rw [he, hend]
              exact isHazard_endId nmap startId endId
          · intro _
            exact Or.inr ⟨s.hist, (s.prev it.id).toOpt, by rw [hend]⟩
        · rw [if_neg hend] at hrun
          by_cases hvs : it.id ∈ s.vset
          · rw [if_pos hvs] at hrun
            have hinv1 := aStale_pres_AB hpq hvs hinv
            cases hadj : adjOf adj it.id with
            | some adjL =>
              rw [hadj] at hrun
              have hrun2 : aStarLoop nmap adj h startId endId n
                  (relaxA h it.id adjL { s with pq := rest }) = some out := hrun
              have hinv2 := relaxA_pres_AB hclosed hadj (fun nb hnb => hnb)
                (show it.id ∈ ({ s with pq := rest } : AState).vset from hvs) hinv1
              have post := ih _ out hinv2 hrun2
              obtain ⟨tail, htail⟩ := post.ext
              rw [relaxA_hist] at htail
              exact ⟨⟨tail, htail⟩, post.nodup, post.revok, post.g_keys, post.g_sound,
                post.cover, post.hazexit, post.nohaz, post.endexit, post.prev_key,
                post.prev_dom, post.start_fin⟩
            | none =>
              rw [hadj] at hrun
              have hrun2 : aStarLoop nmap adj h startId endId n
                  { s with pq := rest } = some out := hrun
              have post := ih _ out hinv1 hrun2
              obtain ⟨tail, htail⟩ := post.ext
              exact ⟨⟨tail, htail⟩, post.nodup, post.revok, post.g_keys, post.g_sound,
                post.cover, post.hazexit, post.nohaz, post.endexit, post.prev_key,
                post.prev_dom, post.start_fin⟩
          · rw [if_neg hvs] at hrun
            have hinv1 := aSettle_pres_AB hpq hvs hbombf hend hinv
            cases hadj : adjOf adj it.id with
            | some adjL =>
              rw [hadj] at hrun
              have hrun2 : aStarLoop nmap adj h startId endId n
                  (relaxA h it.id adjL (aSettle s it rest)) = some out := hrun
              have hinv2 := relaxA_pres_AB hclosed hadj (fun nb hnb => hnb)
                (List.mem_cons_self it.id s.vset) hinv1
              have post := ih _ out hinv2 hrun2
              obtain ⟨tail, htail⟩ := post.ext
              rw [relaxA_hist] at htail
              refine ⟨⟨⟨it.id, (s.prev it.id).toOpt⟩ :: tail, ?_⟩, post.nodup, post.revok,
                post.g_keys, post.g_sound, post.cover, post.hazexit, post.nohaz,
                post.endexit, post.prev_key, post.prev_dom, post.start_fin⟩
              rw [htail]
              simp [aSettle]
            | none =>
              rw [hadj] at hrun
              have hrun2 : aStarLoop nmap adj h startId endId n
                  (aSettle s it rest) = some out := hrun
              have post := ih _ out hinv1 hrun2
              obtain ⟨tail, htail⟩ := post.ext
              refine ⟨⟨⟨it.id, (s.prev it.id).toOpt⟩ :: tail, ?_⟩, post.nodup, post.revok,
                post.g_keys, post.g_sound, post.cover, post.hazexit, post.nohaz,
                post.endexit, post.prev_key, post.prev_dom, post.start_fin⟩
              rw [htail]
              simp [aSettle]

end AStarBasic

/-! ### Initial A* state and runner case analyses -/

theorem aInit_invAB (g : GraphData) (h : String → ℚ) (startId endId : String) :
    AInvB (nodeMapGet g) (buildAdjacencyList g) h startId endId (aInit g h startId) := by
  refine ⟨?_, rfl, ?_, trivial, ?_, ?_, ?_, ?_, ?_, ?_, ?_, ?_, ?_, ?_,
    ⟨0, distInit_start g startId⟩⟩
  · exact List.sorted_singleton _
  · simp [aInit, histIds]
  · intro v u hvu
    exact absurd hvu (prevInit_not_str g v u)
  · exact List.not_mem_nil endId
  · intro u hu
    simp [aInit, histIds] at hu
  · intro it hit
    rcases List.mem_singleton.mp hit with rfl
    exact Or.inl rfl
  · intro v hv
    exact absurd hv (List.not_mem_nil v)
  · intro v hv
    have hvn : v ∈ nodeIds g := adjKeys_sub_nodeIds hv
    by_cases hs : v = startId
    · rw [show (aInit g h startId).gScore v = distInit g startId v from rfl, hs, distInit_start]
      exact fun hcon => JNum.noConfusion hcon
    · rw [show (aInit g h startId).gScore v = distInit g startId v from rfl,
        distInit_of_ne g hs, if_pos hvn]
      exact fun hcon => JNum.noConfusion hcon
  · intro v c hvc
    by_cases hs : v = startId
    · left
      refine ⟨hs, ?_⟩
      rw [show (aInit g h startId).gScore v = distInit g startId v from rfl, hs,
        distInit_start] at hvc
      exact ((JNum.fin.injEq _ _).mp hvc).symm
    · rw [show (aInit g h startId).gScore v = distInit g startId v from rfl,
        distInit_of_ne g hs] at hvc
      by_cases hvn : v ∈ nodeIds g
      · rw [if_pos hvn] at hvc
        exact absurd hvc (fun hcon => JNum.noConfusion hcon)
      · rw [if_neg hvn] at hvc
        exact absurd hvc (fun hcon => JNum.noConfusion hcon)
  · intro v c hvc _
    by_cases hs : v = startId
    · refine ⟨⟨startId, h startId⟩, List.mem_singleton_self _, hs.symm, ?_⟩
      rw [show (aInit g h startId).gScore v = distInit g startId v from rfl, hs,
        distInit_start] at hvc
      have hc0 : c = 0 := ((JNum.fin.injEq _ _).mp hvc).symm
      rw [hc0, hs]
      simp
    · rw [show (aInit g h startId).gScore v = distInit g startId v from rfl,
        distInit_of_ne g hs] at hvc
      by_cases hvn : v ∈ nodeIds g
      · rw [if_pos hvn] at hvc
        exact absurd hvc (fun hcon => JNum.noConfusion hcon)
      · rw [if_neg hvn] at hvc
        exact absurd hvc (fun hcon => JNum.noConfusion hcon)
  · intro v u hvu
    exact absurd hvu (prevInit_not_str g v u)
  · intro k hk
    rw [show (aInit g h startId).prev k = prevInit g k from rfl, prevInit_eq, if_neg]
    intro hkn
    exact hk (adjOf_isSome_iff.mp ((build_isSome_iff g k).mpr hkn))

theorem runDijkstra_cases {g : GraphData} {startId endId : String} {fuel : Nat}
    {res : AlgoResult}
    (hrun : runDijkstra g startId endId fuel = some res) :
    ∃ out : DState × Option String,
      dijkstraLoop (nodeMapGet g) (buildAdjacencyList g) startId endId fuel
        (dInit g startId) = some out ∧
      ((∃ u, out.2 = some u ∧ res = ⟨[], out.1.hist, .fin 0, some u⟩) ∨
       (out.2 = none ∧ res = reconstruct out.1.prev g.nodes.length startId endId
         out.1.hist (out.1.dist endId))) := by
  rw [runDijkstra_eq] at hrun
  cases hloop : dijkstraLoop (nodeMapGet g) (buildAdjacencyList g) startId endId fuel
      (dInit g startId) with
  | none =>
    rw [hloop] at hrun
    exact Option.noConfusion hrun
  | some p =>
    obtain ⟨s, ou⟩ := p
    rw [hloop] at hrun
    cases ou with
    | some u =>
      have hrun2 : some (⟨[], s.hist, .fin 0, some u⟩ : AlgoResult) = some res := hrun
      injection hrun2 with h2
      exact ⟨(s, some u), rfl, Or.inl ⟨u, rfl, h2.symm⟩⟩
    | none =>
      have hrun2 : some (reconstruct s.prev g.nodes.length startId endId s.hist
          (s.dist endId)) = some res := hrun
      injection hrun2 with h2
      exact ⟨(s, none), rfl, Or.inr ⟨rfl, h2.symm⟩⟩

theorem runAStarH_cases {g : GraphData} {h : String → ℚ} {startId endId : String}
    {fuel : Nat} {res : AlgoResult}
    (hrun : runAStarH g h startId endId fuel = some res) :
    ∃ out : AState × Option String,
      aStarLoop (nodeMapGet g) (buildAdjacencyList g) h startId endId fuel
        (aInit g h startId) = some out ∧
      ((∃ u, out.2 = some u ∧ res = ⟨[], out.1.hist, .fin 0, some u⟩) ∨
       (out.2 = none ∧ res = reconstruct out.1.prev g.nodes.length startId endId
         out.1.hist (out.1.gScore endId))) := by
  rw [runAStarH_eq] at hrun
  cases hloop : aStarLoop (nodeMapGet g) (buildAdjacencyList g) h startId endId fuel
      (aInit g h startId) with
  | none =>
    rw [hloop] at hrun
    exact Option.noConfusion hrun
  | some p =>
    obtain ⟨s, ou⟩ := p
    rw [hloop] at hrun
    cases ou with
    | some u =>
      have hrun2 : some (⟨[], s.hist, .fin 0, some u⟩ : AlgoResult) = some res := hrun
      injection hrun2 with h2
      exact ⟨(s, some u), rfl, Or.inl ⟨u, rfl, h2.symm⟩⟩
    | none =>
      have hrun2 : some (reconstruct s.prev g.nodes.length startId endId s.hist
          (s.gScore endId)) = some res := hrun
      injection hrun2 with h2
      exact ⟨(s, none), rfl, Or.inr ⟨rfl, h2.symm⟩⟩

/-- runAStar either rejects a missing end node outright or runs the
engine with the euclidean heuristic of the source. -/
theorem runAStar_cases (sqrtFn : ℚ → ℚ) (g : GraphData) (startId endId : String)
    (fuel : Nat) :
    (nodeMapGet g endId = none ∧
      runAStar sqrtFn g startId endId fuel = some ⟨[], [], .fin 0, none⟩) ∨
    ∃ endNode, nodeMapGet g endId = some endNode ∧
      runAStar sqrtFn g startId endId fuel =
        runAStarH g
          (fun id =>
            match nodeMapGet g id with
            | none => 0
            | some n => getDistance sqrtFn n endNode)
          startId endId fuel := by
  rw [runAStar]
  cases he : nodeMapGet g endId with
  | none => exact Or.inl ⟨rfl, rfl⟩
  | some endNode => exact Or.inr ⟨endNode, rfl, rfl⟩

/-! ### A* reconstruction-facing support results and first settlements -/

theorem isHazard_startId (nmap : String → Option Node) (startId endId : String) :
    isHazard nmap startId endId startId = false := by
  rw [isHazard]
  cases nmap startId with
  | none => rfl
  | some n => simp

/-- A* half of the stop-at-end claim. -/
theorem astar_path_hist {g : GraphData} {h : String → ℚ} {startId endId : String}
    {fuel : Nat} {res : AlgoResult}
    (hrun : runAStarH g h startId endId fuel = some res)
    (hen : endId ∈ nodeIds g)
    (hpath : res.path ≠ []) :
    res.explodedAt = none ∧ ∃ pre f, res.visitedHistory = pre ++ [⟨endId, f⟩] := by
  obtain ⟨out, hloop, hcase⟩ := runAStarH_cases hrun
  have hclosed : ∀ a b w, AdjStep (buildAdjacencyList g) a b w →
      (adjOf (buildAdjacencyList g) b).isSome ∧ (adjOf (buildAdjacencyList g) a).isSome :=
    fun _ _ _ hx => build_closed hx
  rcases hcase with ⟨u, hu2, hres⟩ | ⟨hout, hres⟩
  · rw [hres] at hpath
    exact absurd rfl hpath
  · have post := aloopB hclosed fuel _ out (aInit_invAB g h startId endId) hloop
    rw [hres] at hpath
    obtain ⟨hninf, -, -, -⟩ := reconstruct_path_cases hpath
    refine ⟨by rw [hres, reconstruct_exploded], ?_⟩
    rcases post.endexit hout with ⟨hpq, hnh, hnv⟩ | ⟨pre, f, hh⟩
    · exfalso
      cases hd : out.1.gScore endId with
      | undef =>
        exact absurd hd (post.g_keys endId
          (adjOf_isSome_iff.mp ((build_isSome_iff g endId).mpr hen)))
      | inf => rw [hd] at hninf; exact absurd hninf (by simp [JNum.isInf])
      | fin de =>
        obtain ⟨it, hit, -, -⟩ := post.cover hout hnh endId de hd hnv
        rw [hpq] at hit
        exact absurd hit (List.not_mem_nil it)
    · exact ⟨pre, f, by rw [hres, reconstruct_hist, hh]⟩

/-- A* half of the no-path claim, for an end that names a node. -/
theorem astar_nopath {g : GraphData} {h : String → ℚ} {startId endId : String}
    {fuel : Nat} {res : AlgoResult}
    (hrun : runAStarH g h startId endId fuel = some res)
    (hnoexp : res.explodedAt = none)
    (hen : endId ∈ nodeIds g)
    (hmiss : startId ∉ nodeIds g ∨
      ¬ Reachable (buildAdjacencyList g) startId endId) :
    res.path = [] ∧ res.cost = .fin 0 := by
  obtain ⟨out, hloop, hcase⟩ := runAStarH_cases hrun
  have hclosed : ∀ a b w, AdjStep (buildAdjacencyList g) a b w →
      (adjOf (buildAdjacencyList g) b).isSome ∧ (adjOf (buildAdjacencyList g) a).isSome :=
    fun _ _ _ hx => build_closed hx
  rcases hcase with ⟨u, hu2, hres⟩ | ⟨hout, hres⟩
  · rw [hres] at hnoexp
    exact Option.noConfusion hnoexp
  · have post := aloopB hclosed fuel _ out (aInit_invAB g h startId endId) hloop
    cases hd : out.1.gScore endId with
    | undef =>
      exact absurd hd (post.g_keys endId
        (adjOf_isSome_iff.mp ((build_isSome_iff g endId).mpr hen)))
    | inf =>
      rw [hres, hd,
        @reconstruct_inf out.1.prev g.nodes.length startId endId out.1.hist .inf rfl]
      exact ⟨rfl, rfl⟩
    | fin de =>
      exfalso
      rcases post.g_sound endId de hd with ⟨hes, -⟩ | ⟨l, hl⟩
      · rcases hmiss with h1 | h1
        · exact h1 (hes ▸ hen)
        · exact h1 ⟨[startId], 0, hes ▸ IsWalk.nil startId
            ((build_isSome_iff g startId).mpr (hes ▸ hen))⟩
      · rcases hmiss with h1 | h1
        · exact h1 ((build_isSome_iff g startId).mp hl.src_isSome)
        · exact h1 ⟨l, de, hl⟩

/-- The first entry the Dijkstra loop records is the start, with no
predecessor, whenever the start names a node. -/
theorem dijkstra_first_hist {g : GraphData} {startId endId : String} {fuel : Nat}
    {out : DState × Option String}
    (hs : startId ∈ nodeIds g)
    (hrun : dijkstraLoop (nodeMapGet g) (buildAdjacencyList g) startId endId fuel
      (dInit g startId) = some out) :
    out.1.hist.head? = some ⟨startId, none⟩ := by
  have hclosed : ∀ a b w, AdjStep (buildAdjacencyList g) a b w →
      (adjOf (buildAdjacencyList g) b).isSome ∧ (adjOf (buildAdjacencyList g) a).isSome :=
    fun _ _ _ hx => build_closed hx
  have hp0 : (prevInit g startId).toOpt = none := by
    rw [prevInit_eq, if_pos hs]
    rfl
  cases fuel with
  | zero =>
    rw [dijkstraLoop] at hrun
    rw [if_neg (by rw [show (dInit g startId).pq = [⟨startId, 0⟩] from rfl]; simp)] at hrun
    exact Option.noConfusion hrun
  | succ n =>
    rw [dijkstraLoop, show (dInit g startId).pq = [⟨startId, 0⟩] from rfl] at hrun
    dsimp only at hrun
    rw [show (dInit g startId).vset = [] from rfl] at hrun
    rw [if_neg (List.not_mem_nil _)] at hrun
    rw [if_neg (by rw [isHazard_startId]; exact Bool.false_ne_true)] at hrun
    by_cases hse : startId = endId
    · rw [if_pos hse] at hrun
      have hrun2 : some ((⟨(dInit g startId).dist, (dInit g startId).prev,
          [⟨startId, (prevInit g startId).toOpt⟩], [], [startId]⟩ : DState), none) =
          some out := hrun
      injection hrun2 with h2
      rw [← h2]
      rw [hp0]
      rfl
    · rw [if_neg hse] at hrun
      have hinv2 : DInvB (nodeMapGet g) (buildAdjacencyList g) startId endId
          (settleState (dInit g startId) ⟨startId, 0⟩ []) :=
        settle_pres_B rfl (List.not_mem_nil _)
          (isHazard_startId (nodeMapGet g) startId endId) hse (dInit_invB g startId endId)
      cases hadj : adjOf (buildAdjacencyList g) startId with
      | some adjL =>
        rw [hadj] at hrun
        have hrun2 : dijkstraLoop (nodeMapGet g) (buildAdjacencyList g) startId endId n
            (relaxD startId adjL (settleState (dInit g startId) ⟨startId, 0⟩ [])) =
            some out := hrun
        have hinv3 := relaxD_pres_B hclosed hadj (fun nb hnb => hnb)
          (List.mem_cons_self _ _) hinv2
        obtain ⟨tail, htail⟩ := (dloopB hclosed n _ out hinv3 hrun2).ext
        rw [relaxD_hist] at htail
        rw [htail, show (settleState (dInit g startId) ⟨startId, 0⟩ []).hist =
          [⟨startId, (prevInit g startId).toOpt⟩] from rfl, hp0]
        rfl
      | none =>
        rw [hadj] at hrun
        have hrun2 : dijkstraLoop (nodeMapGet g) (buildAdjacencyList g) startId endId n
            (settleState (dInit g startId) ⟨startId, 0⟩ []) = some out := hrun
        obtain ⟨tail, htail⟩ := (dloopB hclosed n _ out hinv2 hrun2).ext
        rw [htail, show (settleState (dInit g startId) ⟨startId, 0⟩ []).hist =
          [⟨startId, (prevInit g startId).toOpt⟩] from rfl, hp0]
        rfl

/-- The first entry the A* loop records is the start, with no
predecessor, whenever the start names a node. -/
theorem astar_first_hist {g : GraphData} {h : String → ℚ} {startId endId : String}
    {fuel : Nat} {out : AState × Option String}
    (hs : startId ∈ nodeIds g)
    (hrun : aStarLoop (nodeMapGet g) (buildAdjacencyList g) h startId endId fuel
      (aInit g h startId) = some out) :
    out.1.hist.head? = some ⟨startId, none⟩ := by
  have hclosed : ∀ a b w, AdjStep (buildAdjacencyList g) a b w →
      (adjOf (buildAdjacencyList g) b).isSome ∧ (adjOf (buildAdjacencyList g) a).isSome :=
    fun _ _ _ hx => build_closed hx
  have hp0 : (prevInit g startId).toOpt = none := by
    rw [prevInit_eq, if_pos hs]
    rfl
  cases fuel with
  | zero =>
    rw [aStarLoop] at hrun
    rw [show (aInit g h startId).pq = [⟨startId, h startId⟩] from rfl] at hrun
    rw [if_neg (by simp)] at hrun
    exact Option.noConfusion hrun
  | succ n =>
    rw [aStarLoop, show (aInit g h startId).pq = [⟨startId, h startId⟩] from rfl] at hrun
    dsimp only at hrun
    rw [if_neg (by rw [isHazard_startId]; exact Bool.false_ne_true)] at hrun
    by_cases hse : startId = endId
    · rw [if_pos hse] at hrun
      have hrun2 : some ((⟨(aInit g h startId).gScore, (aInit g h startId).fScore,
          (aInit g h startId).prev, [⟨startId, (prevInit g startId).toOpt⟩], [], []⟩ :
          AState), none) = some out := hrun
      injection hrun2 with h2
      rw [← h2]
      rw [hp0]
      rfl
    · rw [if_neg hse] at hrun
      rw [show (aInit g h startId).vset = [] from rfl] at hrun
      rw [if_neg (List.not_mem_nil _)] at hrun
      have hinv2 : AInvB (nodeMapGet g) (buildAdjacencyList g) h startId endId
          (aSettle (aInit g h startId) ⟨startId, h startId⟩ []) :=
        aSettle_pres_AB rfl (List.not_mem_nil _)
          (isHazard_startId (nodeMapGet g) startId endId) hse (aInit_invAB g h startId endId)
      cases hadj : adjOf (buildAdjacencyList g) startId with
      | some adjL =>
        rw [hadj] at hrun
        have hrun2 : aStarLoop (nodeMapGet g) (buildAdjacencyList g) h startId endId n
            (relaxA h startId adjL (aSettle (aInit g h startId) ⟨startId, h startId⟩ [])) =
            some out := hrun
        have hinv3 := relaxA_pres_AB hclosed hadj (fun nb hnb => hnb)
          (List.mem_cons_self _ _) hinv2
        obtain ⟨tail, htail⟩ := (aloopB hclosed n _ out hinv3 hrun2).ext
        rw [relaxA_hist] at htail
        rw [htail, show (aSettle (aInit g h startId) ⟨startId, h startId⟩ []).hist =
          [⟨startId, (prevInit g startId).toOpt⟩] from rfl, hp0]
        rfl
      | none =>
        rw [hadj] at hrun
        have hrun2 : aStarLoop (nodeMapGet g) (buildAdjacencyList g) h startId endId n
            (aSettle (aInit g h startId) ⟨startId, h startId⟩ []) = some out := hrun
        obtain ⟨tail, htail⟩ := (aloopB hclosed n _ out hinv2 hrun2).ext
        rw [htail, show (aSettle (aInit g h startId) ⟨startId, h startId⟩ []).hist =
          [⟨startId, (prevInit g startId).toOpt⟩] from rfl, hp0]
        rfl

/-! ### Node-map membership -/

theorem nodeMapGet_isSome (g : GraphData) (v : String) :
    (nodeMapGet g v).isSome = true ↔ v ∈ nodeIds g := by
  rw [nodeMapGet]
  have main : ∀ (nodes : List Node) (base : String → Option Node),
      (nodes.foldl (fun (m : String → Option Node) n =>
        Function.update m n.id (some n)) base v).isSome = true ↔
      v ∈ nodes.map (fun n => n.id) ∨ (base v).isSome = true := by
    intro nodes
    induction nodes with
    | nil => simp
    | cons n ns ih =>
      intro base
      rw [List.foldl_cons, ih, List.map_cons, List.mem_cons]
      by_cases he : v = n.id
      · rw [he, Function.update_same]
        simp
      · rw [Function.update_noteq he]
        constructor
        · rintro (h1 | h1)
          · exact Or.inl (Or.inr h1)
          · exact Or.inr h1
        · rintro ((h1 | h1) | h1)
          · exact absurd h1 he
          · exact Or.inl h1
          · exact Or.inr h1
  rw [main]
  simp [nodeIds]

/-! ### The claims settled so far by the basic machinery -/

/-- C2: for both runners, a result marked with explodedAt = u means u
was extracted as a hazard (a flagged node distinct from start and end),
with empty path, cost 0 and a history ending at u; and a result not so
marked settled no hazardous node. -/
theorem claim_c2 (g : GraphData) (sqrtFn : ℚ → ℚ) (startId endId : String)
    (fuel1 fuel2 : Nat) (res1 res2 : AlgoResult)
    (hd : runDijkstra g startId endId fuel1 = some res1)
    (ha : runAStar sqrtFn g startId endId fuel2 = some res2) :
    ((∀ u, res1.explodedAt = some u →
        isHazard (nodeMapGet g) startId endId u = true ∧
        res1.path = [] ∧ res1.cost = .fin 0 ∧
        ∃ pre f, res1.visitedHistory = pre ++ [⟨u, f⟩]) ∧
      (res1.explodedAt = none →
        ∀ u ∈ histIds res1.visitedHistory, isHazard (nodeMapGet g) startId endId u = false)) ∧
    ((∀ u, res2.explodedAt = some u →
        isHazard (nodeMapGet g) startId endId u = true ∧
        res2.path = [] ∧ res2.cost = .fin 0 ∧
        ∃ pre f, res2.visitedHistory = pre ++ [⟨u, f⟩]) ∧
      (res2.explodedAt = none →
        ∀ u ∈ histIds res2.visitedHistory, isHazard (nodeMapGet g) startId endId u = false)) := by
  have hclosed : ∀ a b w, AdjStep (buildAdjacencyList g) a b w →
      (adjOf (buildAdjacencyList g) b).isSome ∧ (adjOf (buildAdjacencyList g) a).isSome :=
    fun _ _ _ hx => build_closed hx
  constructor
  · obtain ⟨out, hloop, hcase⟩ := runDijkstra_cases hd
    have post := dloopB hclosed fuel1 _ out (dInit_invB g startId endId) hloop
    rcases hcase with ⟨u, hu2, hres⟩ | ⟨hout, hres⟩
    · obtain ⟨hhaz, pre, f, hh⟩ := post.hazexit u hu2
      constructor
      · intro u2 hu2e
        rw [hres] at hu2e
        injection hu2e with hu2e
        subst hu2e
        exact ⟨hhaz, by rw [hres], by rw [hres], pre, f, by rw [hres]; exact hh⟩
      · intro hnone
        rw [hres] at hnone
        exact absurd hnone (by simp)
    · constructor
      · intro u2 hu2e
        rw [hres, reconstruct_exploded] at hu2e
        exact Option.noConfusion hu2e
      · intro _ u hu
        rw [hres, reconstruct_hist] at hu
        exact post.nohaz hout u hu
  · rcases runAStar_cases sqrtFn g startId endId fuel2 with ⟨hmiss, hrun⟩ | ⟨endNode, hsome, hrun⟩
    · rw [hrun] at ha
      injection ha with ha
      rw [← ha]
      refine ⟨fun u hu => Option.noConfusion hu, fun _ u hu => ?_⟩
      simp [histIds] at hu
    · rw [hrun] at ha
      obtain ⟨out, hloop, hcase⟩ := runAStarH_cases ha
      have post := aloopB hclosed fuel2 _ out (aInit_invAB g _ startId endId) hloop
      rcases hcase with ⟨u, hu2, hres⟩ | ⟨hout, hres⟩
      · obtain ⟨hhaz, pre, f, hh⟩ := post.hazexit u hu2
        constructor
        · intro u2 hu2e
          rw [hres] at hu2e
          injection hu2e with hu2e
          subst hu2e
          exact ⟨hhaz, by rw [hres], by rw [hres], pre, f, by rw [hres]; exact hh⟩
        · intro hnone
          rw [hres] at hnone
          exact absurd hnone (by simp)
      · constructor
        · intro u2 hu2e
          rw [hres, reconstruct_exploded] at hu2e
          exact Option.noConfusion hu2e
        · intro _ u hu
          rw [hres, reconstruct_hist] at hu
          exact post.nohaz hout u hu

theorem claim_c2_witness :
    ((∀ u, (⟨[], [⟨"A", none⟩, ⟨"B", some "A"⟩], .fin 0, some "B"⟩ : AlgoResult).explodedAt
          = some u →
        isHazard (nodeMapGet gLine3) "A" "C" u = true ∧
        (⟨[], [⟨"A", none⟩, ⟨"B", some "A"⟩], .fin 0, some "B"⟩ : AlgoResult).path = [] ∧
        (⟨[], [⟨"A", none⟩, ⟨"B", some "A"⟩], .fin 0, some "B"⟩ : AlgoResult).cost = .fin 0 ∧
        ∃ pre f, (⟨[], [⟨"A", none⟩, ⟨"B", some "A"⟩], .fin 0, some "B"⟩ :
          AlgoResult).visitedHistory = pre ++ [⟨u, f⟩]) ∧
      ((⟨[], [⟨"A", none⟩, ⟨"B", some "A"⟩], .fin 0, some "B"⟩ : AlgoResult).explodedAt
          = none →
        ∀ u ∈ histIds (⟨[], [⟨"A", none⟩, ⟨"B", some "A"⟩], .fin 0, some "B"⟩ :
          AlgoResult).visitedHistory,
          isHazard (nodeMapGet gLine3) "A" "C" u = false)) ∧
    ((∀ u, (⟨[], [⟨"A", none⟩, ⟨"B", some "A"⟩], .fin 0, some "B"⟩ : AlgoResult).explodedAt
          = some u →
        isHazard (nodeMapGet gLine3) "A" "C" u = true ∧
        (⟨[], [⟨"A", none⟩, ⟨"B", some "A"⟩], .fin 0, some "B"⟩ : AlgoResult).path = [] ∧
        (⟨[], [⟨"A", none⟩, ⟨"B", some "A"⟩], .fin 0, some "B"⟩ : AlgoResult).cost = .fin 0 ∧
        ∃ pre f, (⟨[], [⟨"A", none⟩, ⟨"B", some "A"⟩], .fin 0, some "B"⟩ :
          AlgoResult).visitedHistory = pre ++ [⟨u, f⟩]) ∧
      ((⟨[], [⟨"A", none⟩, ⟨"B", some "A"⟩], .fin 0, some "B"⟩ : AlgoResult).explodedAt
          = none →
        ∀ u ∈ histIds (⟨[], [⟨"A", none⟩, ⟨"B", some "A"⟩], .fin 0, some "B"⟩ :
          AlgoResult).visitedHistory,
          isHazard (nodeMapGet gLine3) "A" "C" u = false)) :=
  claim_c2 gLine3 (fun q => q) "A" "C" 10 10
    ⟨[], [⟨"A", none⟩, ⟨"B", some "A"⟩], .fin 0, some "B"⟩
    ⟨[], [⟨"A", none⟩, ⟨"B", some "A"⟩], .fin 0, some "B"⟩
    (by with_unfolding_all decide) (by with_unfolding_all decide)

/-- C4: for both runners, the history names each node at most once and
every recorded predecessor was itself settled strictly earlier. -/
theorem claim_c4 (g : GraphData) (sqrtFn : ℚ → ℚ) (startId endId : String)
    (fuel1 fuel2 : Nat) (res1 res2 : AlgoResult)
    (hd : runDijkstra g startId endId fuel1 = some res1)
    (ha : runAStar sqrtFn g startId endId fuel2 = some res2) :
    ((histIds res1.visitedHistory).Nodup ∧
      ∀ pre x post, res1.visitedHistory = pre ++ x :: post →
        ∀ u, x.«from» = some u → u ∈ histIds pre) ∧
    ((histIds res2.visitedHistory).Nodup ∧
      ∀ pre x post, res2.visitedHistory = pre ++ x :: post →
        ∀ u, x.«from» = some u → u ∈ histIds pre) := by
  have hclosed : ∀ a b w, AdjStep (buildAdjacencyList g) a b w →
      (adjOf (buildAdjacencyList g) b).isSome ∧ (adjOf (buildAdjacencyList g) a).isSome :=
    fun _ _ _ hx => build_closed hx
  constructor
  · obtain ⟨out, hloop, hcase⟩ := runDijkstra_cases hd
    have post := dloopB hclosed fuel1 _ out (dInit_invB g startId endId) hloop
    have hh : res1.visitedHistory = out.1.hist := by
      rcases hcase with ⟨u, -, hres⟩ | ⟨-, hres⟩
      · rw [hres]
      · rw [hres, reconstruct_hist]
    rw [hh]
    exact ⟨post.nodup, fun pre x p hsplit => revok_earlier post.revok hsplit⟩
  · rcases runAStar_cases sqrtFn g startId endId fuel2 with ⟨hmiss, hrun⟩ | ⟨endNode, hsome, hrun⟩
    · rw [hrun] at ha
      injection ha with ha
      rw [← ha]
      refine ⟨by simp [histIds], ?_⟩
      intro pre x post hsplit
      exact absurd hsplit (by simp)
    · rw [hrun] at ha
      obtain ⟨out, hloop, hcase⟩ := runAStarH_cases ha
      have post := aloopB hclosed fuel2 _ out (aInit_invAB g _ startId endId) hloop
      have hh : res2.visitedHistory = out.1.hist := by
        rcases hcase with ⟨u, -, hres⟩ | ⟨-, hres⟩
        · rw [hres]
        · rw [hres, reconstruct_hist]
      rw [hh]
      exact ⟨post.nodup, fun pre x p hsplit => revok_earlier post.revok hsplit⟩

theorem claim_c4_witness :
    ((histIds (⟨[], [⟨"A", none⟩, ⟨"B", some "A"⟩], .fin 0, some "B"⟩ :
        AlgoResult).visitedHistory).Nodup ∧
      ∀ pre x post, (⟨[], [⟨"A", none⟩, ⟨"B", some "A"⟩], .fin 0, some "B"⟩ :
          AlgoResult).visitedHistory = pre ++ x :: post →
        ∀ u, x.«from» = some u → u ∈ histIds pre) ∧
    ((histIds (⟨[], [⟨"A", none⟩, ⟨"B", some "A"⟩], .fin 0, some "B"⟩ :
        AlgoResult).visitedHistory).Nodup ∧
      ∀ pre x post, (⟨[], [⟨"A", none⟩, ⟨"B", some "A"⟩], .fin 0, some "B"⟩ :
          AlgoResult).visitedHistory = pre ++ x :: post →
        ∀ u, x.«from» = some u → u ∈ histIds pre) :=
  claim_c4 gLine3 (fun q => q) "A" "C" 10 10
    ⟨[], [⟨"A", none⟩, ⟨"B", some "A"⟩], .fin 0, some "B"⟩
    ⟨[], [⟨"A", none⟩, ⟨"B", some "A"⟩], .fin 0, some "B"⟩
    (by with_unfolding_all decide) (by with_unfolding_all decide)

/-- C9: when start and end both name nodes, both runners record a
nonempty history whose first entry is the start with a null
predecessor. -/
theorem claim_c9 (g : GraphData) (sqrtFn : ℚ → ℚ) (startId endId : String)
    (fuel1 fuel2 : Nat) (res1 res2 : AlgoResult)
    (hs : startId ∈ nodeIds g) (he : endId ∈ nodeIds g)
    (hd : runDijkstra g startId endId fuel1 = some res1)
    (ha : runAStar sqrtFn g startId endId fuel2 = some res2) :
    res1.visitedHistory.head? = some ⟨startId, none⟩ ∧
    res2.visitedHistory.head? = some ⟨startId, none⟩ := by
  constructor
  · obtain ⟨out, hloop, hcase⟩ := runDijkstra_cases hd
    have hh : res1.visitedHistory = out.1.hist := by
      rcases hcase with ⟨u, -, hres⟩ | ⟨-, hres⟩
      · rw [hres]
      · rw [hres, reconstruct_hist]
    rw [hh]
    exact dijkstra_first_hist hs hloop
  · rcases runAStar_cases sqrtFn g startId endId fuel2 with ⟨hmiss, hrun⟩ | ⟨endNode, hsome, hrun⟩
    · exfalso
      have h2 := (nodeMapGet_isSome g endId).mpr he
      rw [hmiss] at h2
      exact Bool.noConfusion h2
    · rw [hrun] at ha
      obtain ⟨out, hloop, hcase⟩ := runAStarH_cases ha
      have hh : res2.visitedHistory = out.1.hist := by
        rcases hcase with ⟨u, -, hres⟩ | ⟨-, hres⟩
        · rw [hres]
        · rw [hres, reconstruct_hist]
      rw [hh]
      exact astar_first_hist hs hloop

theorem claim_c9_witness :
    (⟨[.str "A", .str "B", .str "C"],
      [⟨"A", none⟩, ⟨"B", some "A"⟩, ⟨"C", some "B"⟩], .fin 2, none⟩ :
      AlgoResult).visitedHistory.head? = some ⟨"A", none⟩ ∧
    (⟨[.str "A", .str "B", .str "C"],
      [⟨"A", none⟩, ⟨"B", some "A"⟩, ⟨"C", some "B"⟩], .fin 2, none⟩ :
      AlgoResult).visitedHistory.head? = some ⟨"A", none⟩ :=
  claim_c9 gLine3Free (fun q => q) "A" "C" 10 10
    ⟨[.str "A", .str "B", .str "C"],
      [⟨"A", none⟩, ⟨"B", some "A"⟩, ⟨"C", some "B"⟩], .fin 2, none⟩
    ⟨[.str "A", .str "B", .str "C"],
      [⟨"A", none⟩, ⟨"B", some "A"⟩, ⟨"C", some "B"⟩], .fin 2, none⟩
    (by decide) (by decide)
    (by with_unfolding_all decide) (by with_unfolding_all decide)

/-- C10, amended with the end naming a node: for both runners a
nonempty returned path means no hazard abort and a history whose last
entry is the settlement of the end. -/
theorem claim_c10 (g : GraphData) (sqrtFn : ℚ → ℚ) (startId endId : String)
    (fuel1 fuel2 : Nat) (res1 res2 : AlgoResult)
    (he : endId ∈ nodeIds g)
    (hd : runDijkstra g startId endId fuel1 = some res1)
    (ha : runAStar sqrtFn g startId endId fuel2 = some res2) :
    (res1.path ≠ [] → res1.explodedAt = none ∧
      ∃ pre f, res1.visitedHistory = pre ++ [⟨endId, f⟩]) ∧
    (res2.path ≠ [] → res2.explodedAt = none ∧
      ∃ pre f, res2.visitedHistory = pre ++ [⟨endId, f⟩]) := by
  constructor
  · intro hpath
    exact dijkstra_path_hist hd he hpath
  · intro hpath
    rcases runAStar_cases sqrtFn g startId endId fuel2 with ⟨hmiss, hrun⟩ | ⟨endNode, hsome, hrun⟩
    · exfalso
      have h2 := (nodeMapGet_isSome g endId).mpr he
      rw [hmiss] at h2
      exact Bool.noConfusion h2
    · rw [hrun] at ha
      exact astar_path_hist ha he hpath

theorem claim_c10_witness :
    ((⟨[.str "A", .str "B", .str "C"],
        [⟨"A", none⟩, ⟨"B", some "A"⟩, ⟨"C", some "B"⟩], .fin 2, none⟩ :
        AlgoResult).path ≠ [] →
      (⟨[.str "A", .str "B", .str "C"],
        [⟨"A", none⟩, ⟨"B", some "A"⟩, ⟨"C", some "B"⟩], .fin 2, none⟩ :
        AlgoResult).explodedAt = none ∧
      ∃ pre f, (⟨[.str "A", .str "B", .str "C"],
        [⟨"A", none⟩, ⟨"B", some "A"⟩, ⟨"C", some "B"⟩], .fin 2, none⟩ :
        AlgoResult).visitedHistory = pre ++ [⟨"C", f⟩]) ∧
    ((⟨[.str "A", .str "B", .str "C"],
        [⟨"A", none⟩, ⟨"B", some "A"⟩, ⟨"C", some "B"⟩], .fin 2, none⟩ :
        AlgoResult).path ≠ [] →
      (⟨[.str "A", .str "B", .str "C"],
        [⟨"A", none⟩, ⟨"B", some "A"⟩, ⟨"C", some "B"⟩], .fin 2, none⟩ :
        AlgoResult).explodedAt = none ∧
      ∃ pre f, (⟨[.str "A", .str "B", .str "C"],
        [⟨"A", none⟩, ⟨"B", some "A"⟩, ⟨"C", some "B"⟩], .fin 2, none⟩ :
        AlgoResult).visitedHistory = pre ++ [⟨"C", f⟩]) :=
  claim_c10 gLine3Free (fun q => q) "A" "C" 10 10
    ⟨[.str "A", .str "B", .str "C"],
      [⟨"A", none⟩, ⟨"B", some "A"⟩, ⟨"C", some "B"⟩], .fin 2, none⟩
    ⟨[.str "A", .str "B", .str "C"],
      [⟨"A", none⟩, ⟨"B", some "A"⟩, ⟨"C", some "B"⟩], .fin 2, none⟩
    (by decide)
    (by with_unfolding_all decide) (by with_unfolding_all decide)

/-- C10 as stated fails: with an end identifier that names no node,
runDijkstra can return a nonempty path whose history does not end at
the end identifier. -/
theorem claim_c10_cex :
    ∃ res, runDijkstra gUndef "A" "X" 10 = some res ∧ res.path ≠ [] ∧
      (histIds res.visitedHistory).getLast? ≠ some "X" :=
  ⟨⟨[.str "A", .undef, .str "X"], [⟨"A", none⟩, ⟨"undefined", some "A"⟩], .undef, none⟩,
    by with_unfolding_all decide, by decide, by decide⟩

/-- C7, amended: with a nonempty node set, no node named "undefined"
and no hazard abort, a missing start, missing end or unreachable end
yields the uniform no-path result from both runners. -/
theorem claim_c7 (g : GraphData) (sqrtFn : ℚ → ℚ) (startId endId : String)
    (fuel1 fuel2 : Nat) (res1 res2 : AlgoResult)
    (hnodes : g.nodes ≠ [])
    (hund : "undefined" ∉ nodeIds g)
    (hd : runDijkstra g startId endId fuel1 = some res1)
    (ha : runAStar sqrtFn g startId endId fuel2 = some res2)
    (hne1 : res1.explodedAt = none)
    (hne2 : res2.explodedAt = none)
    (hmiss : startId ∉ nodeIds g ∨ endId ∉ nodeIds g ∨
      ¬ Reachable (buildAdjacencyList g) startId endId) :
    res1.path = [] ∧ res1.cost = .fin 0 ∧ res2.path = [] ∧ res2.cost = .fin 0 := by
  obtain ⟨hp1, hc1⟩ := dijkstra_nopath hd hne1 hnodes hund hmiss
  refine ⟨hp1, hc1, ?_⟩
  rcases runAStar_cases sqrtFn g startId endId fuel2 with ⟨hmiss2, hrun⟩ | ⟨endNode, hsome, hrun⟩
  · rw [hrun] at ha
    injection ha with ha
    rw [← ha]
    exact ⟨rfl, rfl⟩
  · rw [hrun] at ha
    have he : endId ∈ nodeIds g := by
      rw [← nodeMapGet_isSome, hsome]
      rfl
    have hmiss3 : startId ∉ nodeIds g ∨
        ¬ Reachable (buildAdjacencyList g) startId endId := by
      rcases hmiss with h1 | h1 | h1
      · exact Or.inl h1
      · exact absurd he h1
      · exact Or.inr h1
    exact astar_nopath ha hne2 he hmiss3

theorem claim_c7_witness :
    (⟨[], [⟨"A", none⟩, ⟨"B", some "A"⟩, ⟨"C", some "B"⟩], .fin 0, none⟩ :
      AlgoResult).path = [] ∧
    (⟨[], [⟨"A", none⟩, ⟨"B", some "A"⟩, ⟨"C", some "B"⟩], .fin 0, none⟩ :
      AlgoResult).cost = .fin 0 ∧
    (⟨[], [], .fin 0, none⟩ : AlgoResult).path = [] ∧
    (⟨[], [], .fin 0, none⟩ : AlgoResult).cost = .fin 0 :=
  claim_c7 gLine3Free (fun q => q) "A" "Z" 10 10
    ⟨[], [⟨"A", none⟩, ⟨"B", some "A"⟩, ⟨"C", some "B"⟩], .fin 0, none⟩
    ⟨[], [], .fin 0, none⟩
    (by decide) (by decide)
    (by with_unfolding_all decide) (by with_unfolding_all decide)
    rfl rfl
    (Or.inr (Or.inl (by decide)))

/-- C7 as stated fails: on the empty graph with the same missing start
and end identifier, runDijkstra returns a nonempty path. -/
theorem claim_c7_cex :
    ∃ res, runDijkstra (⟨[], []⟩ : GraphData) "X" "X" 10 = some res ∧
      "X" ∉ nodeIds (⟨[], []⟩ : GraphData) ∧
      res.explodedAt = none ∧ res.path ≠ [] :=
  ⟨⟨[.str "X"], [⟨"X", none⟩], .fin 0, none⟩,
    by with_unfolding_all decide, by decide, rfl, by decide⟩

/-! ### The priority queue refines the timestamped specification queue -/

theorem insertionSort_sorted_append (x : PQItem) :
    ∀ {l : List PQItem}, List.Sorted pqLE l →
    List.insertionSort pqLE (l ++ [x]) = insertAfterLE x l := by
  intro l
  induction l with
  | nil =>
    intro _
    rfl
  | cons a l ih =>
    intro hs
    obtain ⟨hha, hs2⟩ := List.sorted_cons.mp hs
    rw [List.cons_append, List.insertionSort, ih hs2]
    by_cases hxa : x.priority < a.priority
    · rw [insertAfterLE, if_pos hxa]
      cases hl : l with
      | nil =>
        rw [show insertAfterLE x [] = [x] from rfl]
        rw [List.orderedInsert, if_neg (show ¬ pqLE a x from not_le.mpr hxa)]
        rfl
      | cons b bs =>
        have hab : a.priority ≤ b.priority := hha b (hl ▸ List.mem_cons_self b bs)
        rw [insertAfterLE, if_pos (lt_of_lt_of_le hxa hab)]
        rw [List.orderedInsert, if_neg (show ¬ pqLE a x from not_le.mpr hxa)]
        rw [List.orderedInsert, if_pos (show pqLE a b from hab)]
    · rw [insertAfterLE, if_neg hxa]
      have hax : pqLE a x := le_of_not_lt hxa
      cases hl : l with
      | nil =>
        rw [show insertAfterLE x [] = [x] from rfl]
        rw [List.orderedInsert, if_pos hax]
      | cons b bs =>
        have hab : pqLE a b := hha b (hl ▸ List.mem_cons_self b bs)
        rw [insertAfterLE]
        by_cases hxb : x.priority < b.priority
        · rw [if_pos hxb]
          rw [List.orderedInsert, if_pos hax]
        · rw [if_neg hxb]
          rw [List.orderedInsert, if_pos hab]

theorem specInsert_map {t : Nat} {i : String} {p : ℚ}
    {pend : List (Nat × String × ℚ)}
    (ht : ∀ y ∈ pend, y.1 < t) :
    (specInsert (t, i, p) pend).map forgetT =
      insertAfterLE ⟨i, p⟩ (pend.map forgetT) := by
  induction pend with
  | nil => rfl
  | cons y ys ih =>
    rw [specInsert]
    dsimp only
    by_cases hc : p < y.2.2 ∨ (p = y.2.2 ∧ t < y.1)
    · have hlt : p < y.2.2 := by
        rcases hc with hc | ⟨he, hty⟩
        · exact hc
        · exact absurd (lt_trans (ht y (List.mem_cons_self y ys)) hty) (lt_irrefl y.1)
      rw [if_pos hc, List.map_cons, List.map_cons, insertAfterLE,
        if_pos (show (⟨i, p⟩ : PQItem).priority < (forgetT y).priority from hlt)]
      rfl
    · rw [if_neg hc, List.map_cons, List.map_cons, insertAfterLE, if_neg]
      · rw [ih (fun z hz => ht z (List.mem_cons_of_mem y hz))]
      · intro hlt
        exact hc (Or.inl hlt)

theorem specInsert_mem {x y : Nat × String × ℚ} {pend : List (Nat × String × ℚ)}
    (hy : y ∈ specInsert x pend) : y = x ∨ y ∈ pend := by
  induction pend with
  | nil =>
    rw [specInsert] at hy
    exact Or.inl (List.mem_singleton.mp hy)
  | cons z zs ih =>
    rw [specInsert] at hy
    by_cases hc : x.2.2 < z.2.2 ∨ (x.2.2 = z.2.2 ∧ x.1 < z.1)
    · rw [if_pos hc] at hy
      rcases List.mem_cons.mp hy with hy | hy
      · exact Or.inl hy
      · exact Or.inr hy
    · rw [if_neg hc] at hy
      rcases List.mem_cons.mp hy with hy | hy
      · exact Or.inr (hy ▸ List.mem_cons_self z zs)
      · rcases ih hy with hy | hy
        · exact Or.inl hy
        · exact Or.inr (List.mem_cons_of_mem z hy)

theorem specInsert_pairwise {t : Nat} {i : String} {p : ℚ}
    {pend : List (Nat × String × ℚ)}
    (hpw : List.Pairwise specLT pend)
    (ht : ∀ y ∈ pend, y.1 < t) :
    List.Pairwise specLT (specInsert (t, i, p) pend) := by
  induction pend with
  | nil => exact List.pairwise_singleton _ _
  | cons y ys ih =>
    obtain ⟨hy, hpw2⟩ := List.pairwise_cons.mp hpw
    rw [specInsert]
    dsimp only
    by_cases hc : p < y.2.2 ∨ (p = y.2.2 ∧ t < y.1)
    · rw [if_pos hc]
      have hlt : p < y.2.2 := by
        rcases hc with hc | ⟨he, hty⟩
        · exact hc
        · exact absurd (lt_trans (ht y (List.mem_cons_self y ys)) hty) (lt_irrefl y.1)
      refine List.pairwise_cons.mpr ⟨?_, hpw⟩
      intro z hz
      rcases List.mem_cons.mp hz with hz | hz
      · exact Or.inl (hz ▸ hlt)
      · rcases hy z hz with h1 | ⟨h1, h2⟩
        · exact Or.inl (lt_trans hlt h1)
        · exact Or.inl (h1 ▸ hlt)
    · rw [if_neg hc]
      refine List.pairwise_cons.mpr ⟨?_, ih hpw2 (fun z hz => ht z (List.mem_cons_of_mem y hz))⟩
      intro z hz
      rcases specInsert_mem hz with hz | hz
      · subst hz
        push_neg at hc
        rcases lt_or_eq_of_le hc.1 with h1 | h1
        · exact Or.inl h1
        · exact Or.inr ⟨h1, ht y (List.mem_cons_self y ys)⟩
      · exact hy z hz

theorem pairwise_specLT_sorted {pend : List (Nat × String × ℚ)}
    (hpw : List.Pairwise specLT pend) :
    List.Sorted pqLE (pend.map forgetT) := by
  refine List.pairwise_map.mpr (hpw.imp ?_)
  intro a b hab
  rcases hab with h1 | ⟨h1, -⟩
  · exact le_of_lt h1
  · exact le_of_eq h1

theorem pqRun_refines :
    ∀ (ops : List QOp) (pend : List (Nat × String × ℚ)) (t : Nat) (q : List PQItem),
    q = pend.map forgetT →
    List.Pairwise specLT pend →
    (∀ y ∈ pend, y.1 < t) →
    pqRun ops q = ((specRun ops (pend, t)).1).map forgetT ∧
      List.Pairwise specLT (specRun ops (pend, t)).1 := by
  intro ops
  induction ops with
  | nil =>
    intro pend t q hmap hpw ht
    exact ⟨hmap, hpw⟩
  | cons op ops ih =>
    intro pend t q hmap hpw ht
    cases op with
    | enq i p =>
      rw [pqRun, specRun]
      refine ih _ (t + 1) _ ?_ (specInsert_pairwise hpw ht) ?_
      · rw [hmap, pqEnqueue, insertionSort_sorted_append _ (pairwise_specLT_sorted hpw),
          specInsert_map ht]
      · intro y hy
        rcases specInsert_mem hy with hy | hy
        · rw [hy]
          exact Nat.lt_succ_self t
        · exact Nat.lt_succ_of_lt (ht y hy)
    | deq =>
      rw [pqRun, specRun]
      cases hp : pend with
      | nil =>
        rw [hmap, hp]
        exact ih [] t _ rfl List.Pairwise.nil (fun y hy => absurd hy (List.not_mem_nil y))
      | cons z zs =>
        rw [hmap, hp, List.map_cons]
        rw [show pqDequeue (forgetT z :: zs.map forgetT) =
          some (forgetT z, zs.map forgetT) from rfl]
        refine ih zs t _ rfl ?_ ?_
        · exact (List.pairwise_cons.mp (hp ▸ hpw)).2
        · intro y hy
          exact ht y (hp ▸ List.mem_cons_of_mem z hy)

/-- C6: the adjacency index has an entry exactly for every node
identifier, records neighbors symmetrically with their weights, and
links with a missing endpoint contribute nothing. -/
theorem claim_c6 (g : GraphData) :
    (∀ k, (adjOf (buildAdjacencyList g) k).isSome ↔ k ∈ nodeIds g) ∧
    (∀ a b w, AdjStep (buildAdjacencyList g) a b w ↔
      AdjStep (buildAdjacencyList g) b a w) ∧
    buildAdjacencyList g =
      buildAdjacencyList
        ⟨g.nodes, g.links.filter
          (fun l => decide (l.source ∈ nodeIds g) && decide (l.target ∈ nodeIds g))⟩ :=
  ⟨fun k => build_isSome_iff g k, fun a b w => build_symm g a b w, build_skips_invalid g⟩

/-- C8: running any operation sequence, the push-then-stable-sort queue
is the timestamped specification queue with timestamps forgotten: the
pending list stays strictly ordered by priority then insertion time, so
a dequeue returns the lowest-priority pending item, the first inserted
among equal priorities; duplicates are retained; and isEmpty holds
exactly when nothing is pending. -/
theorem claim_c8 (ops : List QOp) :
    pqRun ops [] = ((specRun ops ([], 0)).1).map forgetT ∧
    List.Pairwise specLT (specRun ops ([], 0)).1 ∧
    (pqIsEmpty (pqRun ops []) = true ↔ (specRun ops ([], 0)).1 = []) := by
  obtain ⟨h1, h2⟩ := pqRun_refines ops [] 0 [] rfl List.Pairwise.nil
    (fun y hy => absurd hy (List.not_mem_nil y))
  refine ⟨h1, h2, ?_⟩
  rw [pqIsEmpty, h1, List.isEmpty_iff, List.map_eq_nil]

theorem claim_c8_witness :
    pqIsEmpty (pqRun [.enq "a" 2, .enq "b" 1, .deq, .deq] []) = true := by
  rw [(claim_c8 [.enq "a" 2, .enq "b" 1, .deq, .deq]).2.2]
  with_unfolding_all decide

/-! ### A* under a consistent heuristic: the queue covers every walk -/

section AStarOpt

variable {nmap : String → Option Node} {adj : AdjIndex} {h : String → ℚ}
variable {startId endId : String}

/-- Consistency telescopes along a walk. -/
theorem consistent_walk (hcons : Consistent adj h) {a b : String} {l : List String}
    {c : ℚ} (hw : IsWalk adj a b l c) : h a ≤ c + h b := by
  induction hw with
  | nil u _ => simp
  | @cons u v e l c w hstep tail ih =>
    have h1 := hcons u v w hstep
    linarith

theorem frontier_path_A
    (hcons : Consistent adj h)
    {s : AState}
    (hcover : ∀ v c, s.gScore v = .fin c → v ∉ s.vset →
      ∃ it ∈ s.pq, it.id = v ∧ it.priority ≤ c + h v)
    (hmin : ∀ x ∈ s.vset, ∃ dx, s.gScore x = .fin dx ∧
      ∀ l c, IsWalk adj startId x l c → dx ≤ c)
    (hrel : ∀ x ∈ s.vset, ∀ dx, s.gScore x = .fin dx → ∀ L, adjOf adj x = some L →
      ∀ nb ∈ L, ∃ dy, s.gScore nb.id = .fin dy ∧ dy ≤ dx + nb.weight) :
    ∀ {v t : String} {l : List String} {c : ℚ}, IsWalk adj v t l c → v ∈ s.vset →
      ∀ dv, s.gScore v = .fin dv → t ∉ s.vset →
      ∃ it ∈ s.pq, it.priority ≤ dv + c + h t := by
  intro v t l c hw
  induction hw with
  | nil x _ =>
    intro hx dv _ hnx
    exact absurd hx hnx
  | @cons v0 y t0 l0 c0 w0 hstep tail ih =>
    intro hv dv hdv ht
    obtain ⟨L, hL, hnb⟩ := hstep
    obtain ⟨dy, hdy, hdyle⟩ := hrel v0 hv dv hdv L hL ⟨y, w0⟩ hnb
    by_cases hyv : y ∈ s.vset
    · obtain ⟨dymin, hdymin, hmins⟩ := hmin y hyv
      have heq : dy = dymin := by
        rw [hdy] at hdymin
        exact (JNum.fin.injEq _ _ ▸ hdymin).symm ▸ rfl
      obtain ⟨it, hit, hle⟩ := ih hyv dy (heq ▸ hdymin) ht
      refine ⟨it, hit, le_trans hle ?_⟩
      have : dy ≤ dv + w0 := hdyle
      linarith
    · obtain ⟨it, hit, hid, hle⟩ := hcover y dy hdy hyv
      refine ⟨it, hit, ?_⟩
      have htel : h y ≤ c0 + h t0 := consistent_walk hcons tail
      linarith

theorem walk_lower_bound_A
    (hcons : Consistent adj h)
    {s : AState}
    (hcover : ∀ v c, s.gScore v = .fin c → v ∉ s.vset →
      ∃ it ∈ s.pq, it.id = v ∧ it.priority ≤ c + h v)
    (hinvO : AInvO adj h startId s)
    {t : String} {l : List String} {c : ℚ}
    (hw : IsWalk adj startId t l c) (ht : t ∉ s.vset) :
    ∃ it ∈ s.pq, it.priority ≤ c + h t := by
  by_cases hs : startId ∈ s.vset
  · obtain ⟨it, hit, hle⟩ := frontier_path_A hcons hcover hinvO.settled_min
      hinvO.settled_relaxed hw hs 0 hinvO.g_start ht
    exact ⟨it, hit, by linarith⟩
  · obtain ⟨it, hit, hid, hle⟩ := hcover startId 0 hinvO.g_start hs
    have htel : h startId ≤ c + h t := consistent_walk hcons hw
    exact ⟨it, hit, by linarith⟩

/-- The head of the A* queue names a node whose g-score no walk from
the start beats. -/
theorem popped_min_A
    (hcons : Consistent adj h)
    {s : AState} {it : PQItem} {rest : List PQItem}
    (hpq : s.pq = it :: rest)
    (hinvB : AInvB nmap adj h startId endId s)
    (hinv : AInvO adj h startId s) :
    ∃ d, s.gScore it.id = .fin d ∧ ∀ l c, IsWalk adj startId it.id l c → d ≤ c := by
  obtain ⟨d, hd, hdp⟩ := hinv.pq_g it (hpq ▸ List.mem_cons_self it rest)
  refine ⟨d, hd, ?_⟩
  intro l c hw
  by_cases hv : it.id ∈ s.vset
  · obtain ⟨dm, hdm, hmins⟩ := hinv.settled_min it.id hv
    rw [hd] at hdm
    have : dm = d := (JNum.fin.injEq _ _).mp hdm.symm
    exact this ▸ hmins l c hw
  · obtain ⟨it2, hit2, hle⟩ := walk_lower_bound_A hcons hinvB.cover hinv hw hv
    rcases List.mem_cons.mp (hpq ▸ hit2) with he | hm
    · rw [he] at hle
      linarith
    · have hhead : it.priority ≤ it2.priority :=
        sorted_head_min (hpq ▸ hinvB.sorted) it2 hm
      linarith

/-- Relaxing from a settled node under the optimality invariant changes
nothing: every neighbor is already at least as tight. -/
theorem relaxAStep_noop {s : AState} {u : String} {nb : AdjEntry}
    (hstep : AdjStep adj u nb.id nb.weight)
    (hu : u ∈ s.vset)
    (hinv : AInvO adj h startId s) :
    relaxAStep h u s nb = s := by
  obtain ⟨L, hL, hnb⟩ := hstep
  obtain ⟨du, hdu, -⟩ := hinv.settled_min u hu
  obtain ⟨dy, hdy, hdyle⟩ := hinv.settled_relaxed u hu du hdu L hL nb hnb
  rw [relaxAStep]
  rw [if_neg]
  rw [hdu, hdy]
  intro hcon
  rw [show ((JNum.fin du).add nb.weight).lt (JNum.fin dy) =
    decide (du + nb.weight < dy) from rfl] at hcon
  rw [decide_eq_true_eq] at hcon
  linarith

theorem relaxA_noop {s : AState} {u : String} {L adjL : List AdjEntry}
    (hadj : adjOf adj u = some L) (hsub : ∀ nb ∈ adjL, nb ∈ L)
    (hu : u ∈ s.vset)
    (hinv : AInvO adj h startId s) :
    relaxA h u adjL s = s := by
  rw [relaxA_eq]
  induction adjL with
  | nil => rfl
  | cons nb rest ih =>
    rw [List.foldl_cons,
      relaxAStep_noop ⟨L, hadj, hsub nb (List.mem_cons_self nb rest)⟩ hu hinv]
    exact ih (fun x hx => hsub x (List.mem_cons_of_mem nb hx))

end AStarOpt

section AStarOpt2

variable {nmap : String → Option Node} {adj : AdjIndex} {h : String → ℚ}
variable {startId endId : String}

theorem relaxAStep_pres_O2
    (hclosed : ∀ a b w, AdjStep adj a b w → (adjOf adj b).isSome ∧ (adjOf adj a).isSome)
    (hnonneg : ∀ a b w, AdjStep adj a b w → 0 ≤ w)
    {s : AState} {u : String} {nb : AdjEntry} {pending : List AdjEntry} {du : ℚ}
    (hstep : AdjStep adj u nb.id nb.weight)
    (hu : u ∈ s.vset)
    (hdu : s.gScore u = .fin du)
    (hinvB : AInvB nmap adj h startId endId s)
    (hinv : AInvO2 adj h startId u (nb :: pending) s) :
    AInvO2 adj h startId u pending (relaxAStep h u s nb) ∧
      (relaxAStep h u s nb).gScore u = .fin du := by
  have hykeys : (adjOf adj nb.id).isSome := (hclosed _ _ _ hstep).1
  have hw0 : 0 ≤ nb.weight := hnonneg _ _ _ hstep
  obtain ⟨idsU, duC, hduC, hchainU, hwalkU, hndU, hmemU⟩ := hinv.chain_settled u hu
  have hduCeq : duC = du := by
    rw [hdu] at hduC
    exact (JNum.fin.injEq _ _).mp hduC.symm
  rw [hduCeq] at hwalkU
  have hdu0 : 0 ≤ du := hwalkU.cost_nonneg hnonneg
  have hwalkY : IsWalk adj startId nb.id (idsU ++ [nb.id]) (du + nb.weight) :=
    hwalkU.append_edge hstep hykeys
  rw [relaxAStep]
  cases hlt : ((s.gScore u).add nb.weight).lt (s.gScore nb.id) with
  | false =>
    rw [if_neg (by simp [hlt])]
    refine ⟨⟨hinv.settled_min, ?_, hinv.chain_settled, hinv.chain_queued, hinv.pq_g,
      hinv.prev_start, hinv.g_start⟩, hdu⟩
    intro x hx dx hdx L hL nb2 hnb2
    rcases hinv.settled_relaxed2 x hx dx hdx L hL nb2 hnb2 with ⟨hxu, hpend⟩ | hob
    · rcases List.mem_cons.mp hpend with he | hpend2
      · subst he
        right
        have hdxu : dx = du := by
          rw [hxu, hdu] at hdx
          exact ((JNum.fin.injEq _ _).mp hdx).symm
        rw [hdu] at hlt
        cases hdy : s.gScore nb2.id with
        | undef =>
          exact absurd hdy (hinvB.g_keys nb2.id (adjOf_isSome_iff.mp
            (hclosed _ _ _ ⟨L, hxu ▸ hL, hnb2⟩).1))
        | inf =>
          rw [hdy] at hlt
          exact absurd (show (true : Bool) = false from hlt) (by simp)
        | fin dy =>
          rw [hdy] at hlt
          simp only [JNum.add, JNum.lt, decide_eq_true_eq] at hlt
          refine ⟨dy, rfl, ?_⟩
          rw [hdxu]
          exact not_lt.mp (by simpa using hlt)
      · exact Or.inl ⟨hxu, hpend2⟩
    · exact Or.inr hob
  | true =>
    simp only [hlt, if_true]
    rw [hdu] at hlt
    obtain ⟨q, hq⟩ := JNum.lt_fin_left hlt
    have hqval : q = du + nb.weight := by
      simp only [JNum.add] at hq
      exact ((JNum.fin.injEq _ _).mp hq).symm
    have hynv : nb.id ∉ s.vset := by
      intro hyv
      obtain ⟨dmin, hdmin, hminp⟩ := hinv.settled_min nb.id hyv
      have h1 : dmin ≤ du + nb.weight := hminp _ _ hwalkY
      rw [hq, hdmin] at hlt
      simp only [JNum.lt, decide_eq_true_eq] at hlt
      rw [hqval] at hlt
      exact absurd hlt (not_lt.mpr h1)
    have hynu : nb.id ≠ u := fun he => hynv (by rw [he]; exact hu)
    have hyns : nb.id ≠ startId := by
      intro he
      rw [he, hinv.g_start, hq] at hlt
      simp only [JNum.lt, decide_eq_true_eq] at hlt
      rw [hqval] at hlt
      linarith
    have hdistU : Function.update s.gScore nb.id ((s.gScore u).add nb.weight) u =
        s.gScore u :=
      Function.update_noteq (Ne.symm hynu) _ _
    have hchainNew : ChainOK adj (Function.update s.prev nb.id (.str u))
        (Function.update s.gScore nb.id ((s.gScore u).add nb.weight)) startId nb.id
        s.vset := by
      refine ⟨idsU ++ [nb.id], du + nb.weight, ?_, ?_, hwalkY, ?_, ?_⟩
      · rw [Function.update_same, hdu]
        simp [JNum.add]
      · refine PrevChain.step (hchainU.update_outside ?_) (Function.update_same _ _ _)
        intro hmem
        rcases hmemU nb.id hmem with h1 | h1
        · exact hynu h1
        · exact hynv h1
      · rw [List.nodup_append]
        refine ⟨hndU, List.nodup_singleton _, ?_⟩
        intro x hx hx2
        rw [List.mem_singleton] at hx2
        subst hx2
        rcases hmemU nb.id hx with h1 | h1
        · exact hynu h1
        · exact hynv h1
      · intro x hx
        rcases List.mem_append.mp hx with hx | hx
        · rcases hmemU x hx with h1 | h1
          · exact Or.inr (by rw [h1]; exact hu)
          · exact Or.inr h1
        · exact Or.inl (List.mem_singleton.mp hx)
    refine ⟨⟨?_, ?_, ?_, ?_, ?_, ?_, ?_⟩, by rw [hdistU, hdu]⟩
    · intro x hx
      dsimp only at hx ⊢
      obtain ⟨dx, hdx, hminp⟩ := hinv.settled_min x hx
      have hxny : x ≠ nb.id := fun he => hynv (by rw [← he]; exact hx)
      exact ⟨dx, by rw [Function.update_noteq hxny, hdx], hminp⟩
    · intro x hx dx hdx L hL nb2 hnb2
      dsimp only at hx hdx ⊢
      have hxny : x ≠ nb.id := fun he => hynv (by rw [← he]; exact hx)
      rw [Function.update_noteq hxny] at hdx
      rcases hinv.settled_relaxed2 x hx dx hdx L hL nb2 hnb2 with ⟨hxu, hpend⟩ | ⟨dy2, hdy2, hle2⟩
      · rcases List.mem_cons.mp hpend with he | hpend2
        · subst he
          right
          have hdxu : dx = du := by
            rw [hxu, hdu] at hdx
            exact ((JNum.fin.injEq _ _).mp hdx).symm
          refine ⟨q, by rw [Function.update_same, hdu, hq], ?_⟩
          rw [hqval, hdxu]
        · exact Or.inl ⟨hxu, hpend2⟩
      · right
        by_cases hzy : nb2.id = nb.id
        · refine ⟨q, by rw [hzy, Function.update_same, hdu, hq], ?_⟩
          have hqlt : q < dy2 := by
            rw [hq] at hlt
            rw [← hzy, hdy2] at hlt
            simpa [JNum.lt] using hlt
          linarith
        · exact ⟨dy2, by rw [Function.update_noteq hzy, hdy2], hle2⟩
    · intro v hv
      dsimp only at hv ⊢
      have hvny : nb.id ≠ v := fun he => hynv (by rw [he]; exact hv)
      exact ((hinv.chain_settled v hv).update_dist_outside hvny).update_prev_outside hvny hynv
    · intro it hit
      dsimp only at hit ⊢
      rcases mem_pqEnqueue.mp hit with hit | hit
      · by_cases hzy : it.id = nb.id
        · rw [hzy]
          exact hchainNew
        · exact ((hinv.chain_queued it hit).update_dist_outside
            (fun he => hzy he.symm)).update_prev_outside (fun he => hzy he.symm) hynv
      · subst hit
        exact hchainNew
    · intro it hit
      dsimp only at hit ⊢
      rcases mem_pqEnqueue.mp hit with hit | hit
      · obtain ⟨c0, hc0, hle0⟩ := hinv.pq_g it hit
        by_cases hzy : it.id = nb.id
        · refine ⟨q, by rw [hzy, Function.update_same, hdu, hq], ?_⟩
          have hqlt : q < c0 := by
            rw [hq] at hlt
            rw [← hzy] at hlt
            rw [hc0] at hlt
            simpa [JNum.lt] using hlt
          linarith
        · exact ⟨c0, by rw [Function.update_noteq hzy, hc0], hle0⟩
      · subst hit
        refine ⟨q, by rw [Function.update_same, hdu, hq], ?_⟩
        rw [hdu, hq]
        rw [show ((JNum.fin q).add (h nb.id)).toQ = q + h nb.id from rfl]
    · dsimp only
      rw [Function.update_noteq (Ne.symm hyns), hinv.prev_start]
    · dsimp only
      rw [Function.update_noteq (Ne.symm hyns), hinv.g_start]

theorem relaxA_pres_O2
    (hclosed : ∀ a b w, AdjStep adj a b w → (adjOf adj b).isSome ∧ (adjOf adj a).isSome)
    (hnonneg : ∀ a b w, AdjStep adj a b w → 0 ≤ w)
    {s : AState} {u : String} {L adjL : List AdjEntry} {du : ℚ}
    (hadj : adjOf adj u = some L) (hsub : ∀ nb ∈ adjL, nb ∈ L)
    (hu : u ∈ s.vset)
    (hdu : s.gScore u = .fin du)
    (hinvB : AInvB nmap adj h startId endId s)
    (hinv : AInvO2 adj h startId u adjL s) :
    AInvO2 adj h startId u [] (relaxA h u adjL s) := by
  rw [relaxA_eq]
  induction adjL generalizing s with
  | nil => exact hinv
  | cons nb rest ih =>
    rw [List.foldl_cons]
    have hstep : AdjStep adj u nb.id nb.weight :=
      ⟨L, hadj, hsub nb (List.mem_cons_self nb rest)⟩
    obtain ⟨hinv2, hdu2⟩ := relaxAStep_pres_O2 hclosed hnonneg hstep hu hdu hinvB hinv
    exact ih (fun x hx => hsub x (List.mem_cons_of_mem nb hx))
      ((relaxAStep_vset h u s nb).symm ▸ hu) hdu2
      (relaxAStep_pres_AB hclosed hstep hu hinvB) hinv2

theorem AInvO_of_O2_nil {s : AState} {u : String}
    (hinv : AInvO2 adj h startId u [] s) : AInvO adj h startId s := by
  refine ⟨hinv.settled_min, ?_, hinv.chain_settled, hinv.chain_queued, hinv.pq_g,
    hinv.prev_start, hinv.g_start⟩
  intro x hx dx hdx L hL nb hnb
  rcases hinv.settled_relaxed2 x hx dx hdx L hL nb hnb with ⟨_, hpend⟩ | h2
  · exact absurd hpend (List.not_mem_nil nb)
  · exact h2

/-- Settling a fresh head entry moves the A* optimality invariant to the
mid-relax form, with the full neighbor list of the settled node pending. -/
theorem aSettle_pres_O
    (hcons : Consistent adj h)
    {s : AState} {it : PQItem} {rest : List PQItem}
    (hpq : s.pq = it :: rest)
    (hnotv : it.id ∉ s.vset)
    (hinvB : AInvB nmap adj h startId endId s)
    (hinv : AInvO adj h startId s)
    (pending : List AdjEntry)
    (hpend : ∀ L, adjOf adj it.id = some L → ∀ nb ∈ L, nb ∈ pending) :
    AInvO2 adj h startId it.id pending (aSettle s it rest) := by
  unfold aSettle
  refine ⟨?_, ?_, ?_, ?_, ?_, hinv.prev_start, hinv.g_start⟩ <;> dsimp only
  · intro x hx
    rcases List.mem_cons.mp hx with he | hm
    · obtain ⟨d, hd, hmin⟩ := popped_min_A hcons hpq hinvB hinv
      exact ⟨d, he ▸ hd, fun l c hw => hmin l c (he ▸ hw)⟩
    · exact hinv.settled_min x hm
  · intro x hx dx hdx L hL nb hnb
    rcases List.mem_cons.mp hx with he | hm
    · exact Or.inl ⟨he, hpend L (he ▸ hL) nb hnb⟩
    · exact Or.inr (hinv.settled_relaxed x hm dx hdx L hL nb hnb)
  · intro v hv
    rcases List.mem_cons.mp hv with he | hm
    · exact he ▸ (hinv.chain_queued it (hpq ▸ List.mem_cons_self it rest)).mono_vset
        (fun x hx => List.mem_cons_of_mem _ hx)
    · exact (hinv.chain_settled v hm).mono_vset (fun x hx => List.mem_cons_of_mem _ hx)
  · intro it2 hit2
    exact (hinv.chain_queued it2 (hpq ▸ List.mem_cons_of_mem it hit2)).mono_vset
      (fun x hx => List.mem_cons_of_mem _ hx)
  · intro it2 hit2
    exact hinv.pq_g it2 (hpq ▸ List.mem_cons_of_mem it hit2)

/-- Discarding a head entry (stale or otherwise) preserves the A*
optimality invariant. -/
theorem aStale_pres_O {s : AState} {it : PQItem} {rest : List PQItem}
    (hpq : s.pq = it :: rest)
    (hinv : AInvO adj h startId s) :
    AInvO adj h startId { s with pq := rest } := by
  refine ⟨hinv.settled_min, hinv.settled_relaxed, hinv.chain_settled, ?_, ?_,
    hinv.prev_start, hinv.g_start⟩
  · intro it2 hit2
    exact hinv.chain_queued it2 (hpq ▸ List.mem_cons_of_mem it hit2)
  · intro it2 hit2
    exact hinv.pq_g it2 (hpq ▸ List.mem_cons_of_mem it hit2)

end AStarOpt2

section AStarOpt3

variable {nmap : String → Option Node} {adj : AdjIndex} {h : String → ℚ}
variable {startId endId : String}

/-- A terminated run of the A* loop satisfies the optimality
post-condition, under nonnegative weights and a consistent heuristic. -/
theorem aloopO
    (hclosed : ∀ a b w, AdjStep adj a b w → (adjOf adj b).isSome ∧ (adjOf adj a).isSome)
    (hnonneg : ∀ a b w, AdjStep adj a b w → 0 ≤ w)
    (hcons : Consistent adj h) :
    ∀ (fuel : Nat) (s : AState) (out : AState × Option String),
    AInvB nmap adj h startId endId s →
    AInvO adj h startId s →
    aStarLoop nmap adj h startId endId fuel s = some out →
    AOptPost adj h startId endId out := by
  intro fuel
  induction fuel with
  | zero =>
    intro s out hinvB hinvO hrun
    rw [aStarLoop] at hrun
    by_cases hq : s.pq.isEmpty
    · rw [if_pos hq] at hrun
      cases hrun
      exact ⟨fun _ hem => absurd (hinvB.vset_hist ▸ List.mem_reverse.mpr hem) hinvB.no_end,
        fun _ _ => hinvO, fun _ _ => List.isEmpty_iff.mp hq, hinvB.vset_ids⟩
    · rw [if_neg hq] at hrun
      exact Option.noConfusion hrun
  | succ n ih =>
    intro s out hinvB hinvO hrun
    cases hpq : s.pq with
    | nil =>
      rw [aStarLoop, hpq] at hrun
      cases hrun
      exact ⟨fun _ hem => absurd (hinvB.vset_hist ▸ List.mem_reverse.mpr hem) hinvB.no_end,
        fun _ _ => hinvO, fun _ _ => hpq, hinvB.vset_ids⟩
    | cons it rest =>
      rw [aStarLoop, hpq] at hrun
      dsimp only at hrun
      by_cases hbomb : isHazard nmap startId endId it.id = true
      · rw [if_pos hbomb] at hrun
        cases hrun
        exact ⟨fun hcon => Option.noConfusion hcon, fun hcon => Option.noConfusion hcon,
          fun hcon => Option.noConfusion hcon, hinvB.vset_ids⟩
      · rw [if_neg hbomb] at hrun
        by_cases hend : it.id = endId
        · rw [if_pos hend] at hrun
          cases hrun
          refine ⟨?_, ?_, ?_, hinvB.vset_ids⟩
          · intro _ _
            constructor
            · exact hend ▸ (hinvO.chain_queued it (hpq ▸ List.mem_cons_self it rest))
            · obtain ⟨d, hd, hmin⟩ := popped_min_A hcons hpq hinvB hinvO
              exact ⟨d, hend ▸ hd, fun l c hw => hmin l c (hend ▸ hw)⟩
          · intro _ hem
            exfalso
            refine hem ?_
            rw [histIds_append]
            refine List.mem_append.mpr (Or.inr ?_)
            rw [show histIds ([⟨it.id, (s.prev it.id).toOpt⟩] : List VisitedStep) =
              [it.id] from rfl, hend]
            exact List.mem_singleton_self endId
          · intro _ hem
            exfalso
            refine hem ?_
            rw [histIds_append]
            refine List.mem_append.mpr (Or.inr ?_)
            rw [show histIds ([⟨it.id, (s.prev it.id).toOpt⟩] : List VisitedStep) =
              [it.id] from rfl, hend]
            exact List.mem_singleton_self endId
        · rw [if_neg hend] at hrun
          have hbombf : isHazard nmap startId endId it.id = false := by
            cases hbe : isHazard nmap startId endId it.id
            · rfl
            · exact absurd hbe hbomb
          by_cases hvs : it.id ∈ s.vset
          · rw [if_pos hvs] at hrun
            have hinvB1 := aStale_pres_AB hpq hvs hinvB
            have hinvO1 := aStale_pres_O hpq hinvO
            cases hadj : adjOf adj it.id with
            | some adjL =>
              rw [hadj] at hrun
              have hnoop : relaxA h it.id adjL { s with pq := rest } =
                  { s with pq := rest } :=
                relaxA_noop hadj (fun nb hnb => hnb)
                  (show it.id ∈ ({ s with pq := rest } : AState).vset from hvs) hinvO1
              have hrun2 : aStarLoop nmap adj h startId endId n
                  (relaxA h it.id adjL { s with pq := rest }) = some out := hrun
              rw [hnoop] at hrun2
              exact ih _ out hinvB1 hinvO1 hrun2
            | none =>
              rw [hadj] at hrun
              exact ih _ out hinvB1 hinvO1 hrun
          · rw [if_neg hvs] at hrun
            have hinvB2 := aSettle_pres_AB hpq hvs hbombf hend hinvB
            cases hadj : adjOf adj it.id with
            | some adjL =>
              rw [hadj] at hrun
              have hrun2 : aStarLoop nmap adj h startId endId n
                  (relaxA h it.id adjL (aSettle s it rest)) = some out := hrun
              obtain ⟨du, hdu, -⟩ := hinvO.pq_g it (hpq ▸ List.mem_cons_self it rest)
              have hdu2 : (aSettle s it rest).gScore it.id = .fin du := hdu
              have hO2 := aSettle_pres_O hcons hpq hvs hinvB hinvO adjL
                (fun L hL nb hnb => by rw [hadj] at hL; cases hL; exact hnb)
              have hO3 := relaxA_pres_O2 hclosed hnonneg hadj (fun nb hnb => hnb)
                (List.mem_cons_self it.id s.vset) hdu2 hinvB2 hO2
              have hinvB3 := relaxA_pres_AB hclosed hadj (fun nb hnb => hnb)
                (List.mem_cons_self it.id s.vset) hinvB2
              exact ih _ out hinvB3 (AInvO_of_O2_nil hO3) hrun2
            | none =>
              rw [hadj] at hrun
              have hrun2 : aStarLoop nmap adj h startId endId n
                  (aSettle s it rest) = some out := hrun
              have hO2 := aSettle_pres_O hcons hpq hvs hinvB hinvO []
                (fun L hL => absurd (hadj ▸ hL) (by simp))
              exact ih _ out hinvB2 (AInvO_of_O2_nil hO2) hrun2

end AStarOpt3

/-! ### A* end-to-end: optimal cost and exact path under consistency -/

theorem aInit_invO (g : GraphData) (h : String → ℚ) (startId : String)
    (hs : startId ∈ nodeIds g) :
    AInvO (buildAdjacencyList g) h startId (aInit g h startId) := by
  have hprev : prevInit g startId = .null := by
    rw [prevInit_eq, if_pos hs]
  refine ⟨?_, ?_, ?_, ?_, ?_, hprev, distInit_start g startId⟩
  · intro u hu
    exact absurd hu (List.not_mem_nil u)
  · intro u hu
    exact absurd hu (List.not_mem_nil u)
  · intro v hv
    exact absurd hv (List.not_mem_nil v)
  · intro it hit
    rcases List.mem_singleton.mp hit with rfl
    refine ⟨[startId], 0, distInit_start g startId, PrevChain.base hprev, ?_, ?_, ?_⟩
    · exact IsWalk.nil startId ((build_isSome_iff g startId).mpr hs)
    · exact List.nodup_singleton _
    · intro x hx
      exact Or.inl (List.mem_singleton.mp hx)
  · intro it hit
    rcases List.mem_singleton.mp hit with rfl
    exact ⟨0, distInit_start g startId, by simp⟩

theorem nodeMapGet_mem {g : GraphData} {u : String} {n : Node}
    (hn : nodeMapGet g u = some n) : n ∈ g.nodes := by
  rw [nodeMapGet] at hn
  have main : ∀ (nodes : List Node) (base : String → Option Node),
      (nodes.foldl (fun (m : String → Option Node) x =>
        Function.update m x.id (some x)) base) u = some n →
      n ∈ nodes ∨ base u = some n := by
    intro nodes
    induction nodes with
    | nil =>
      intro base hb
      exact Or.inr hb
    | cons x xs ih =>
      intro base hb
      rw [List.foldl_cons] at hb
      rcases ih _ hb with h1 | h1
      · exact Or.inl (List.mem_cons_of_mem x h1)
      · by_cases he : u = x.id
        · rw [he, Function.update_same] at h1
          injection h1 with h1
          exact Or.inl (h1 ▸ List.mem_cons_self x xs)
        · rw [Function.update_noteq he] at h1
          exact Or.inr h1
  rcases main g.nodes _ hn with h1 | h1
  · exact h1
  · exact Option.noConfusion h1

theorem hazardFree_isHazard {g : GraphData} (hhf : HazardFree g)
    (startId endId u : String) :
    isHazard (nodeMapGet g) startId endId u = false := by
  rw [isHazard]
  cases hnm : nodeMapGet g u with
  | none => rfl
  | some n =>
    show (n.isBomb && decide (u ≠ startId) && decide (u ≠ endId)) = false
    rw [hhf n (nodeMapGet_mem hnm)]
    rfl

theorem runAStar_euclidH {sqrtFn : ℚ → ℚ} {g : GraphData} {startId endId : String}
    {fuel : Nat} {endNode : Node}
    (hsome : nodeMapGet g endId = some endNode) :
    runAStar sqrtFn g startId endId fuel =
      runAStarH g (euclidH sqrtFn g endNode) startId endId fuel := by
  rw [runAStar, hsome]
  rfl

/-- After a hazard-free completed A* loop on a reachable instance, the
end carries a finite g-score. -/
theorem astar_reach_fin {g : GraphData} {h : String → ℚ} {startId endId : String}
    {fuel : Nat} {out : AState × Option String}
    (hnn : NonnegWeights g)
    (hcons : Consistent (buildAdjacencyList g) h)
    (hloop : aStarLoop (nodeMapGet g) (buildAdjacencyList g) h startId endId fuel
      (aInit g h startId) = some out)
    (hout : out.2 = none)
    (hsn : startId ∈ nodeIds g)
    (hreach : Reachable (buildAdjacencyList g) startId endId) :
    ∃ de, out.1.gScore endId = .fin de := by
  have hclosed : ∀ a b w, AdjStep (buildAdjacencyList g) a b w →
      (adjOf (buildAdjacencyList g) b).isSome ∧ (adjOf (buildAdjacencyList g) a).isSome :=
    fun _ _ _ hx => build_closed hx
  have post := aloopB hclosed fuel _ out (aInit_invAB g h startId endId) hloop
  have opt := aloopO hclosed (build_nonneg hnn) hcons fuel _ out
    (aInit_invAB g h startId endId) (aInit_invO g h startId hsn) hloop
  by_cases hem : endId ∈ histIds out.1.hist
  · obtain ⟨-, de, hde, -⟩ := opt.endopt hout hem
    exact ⟨de, hde⟩
  · have hinvO := opt.no_settle hout hem
    by_cases hev : endId ∈ out.1.vset
    · obtain ⟨de, hde, -⟩ := hinvO.settled_min endId hev
      exact ⟨de, hde⟩
    · exfalso
      obtain ⟨wl, wc, hw⟩ := hreach
      obtain ⟨it, hit, -⟩ := walk_lower_bound_A hcons (post.cover hout hem) hinvO hw hev
      rw [opt.pq_empty hout hem] at hit
      exact absurd hit (List.not_mem_nil it)

/-- A completed hazard-free A* loop holding a finite end g-score has
found the least walk cost, realized by a short duplicate-free chain. -/
theorem astar_fin_chain {g : GraphData} {h : String → ℚ} {startId endId : String}
    {fuel : Nat} {out : AState × Option String} {de : ℚ}
    (hnn : NonnegWeights g)
    (hcons : Consistent (buildAdjacencyList g) h)
    (hloop : aStarLoop (nodeMapGet g) (buildAdjacencyList g) h startId endId fuel
      (aInit g h startId) = some out)
    (hout : out.2 = none)
    (hsn : startId ∈ nodeIds g)
    (hen : endId ∈ nodeIds g)
    (hde : out.1.gScore endId = .fin de) :
    ∃ ids, PrevChain out.1.prev startId endId ids ∧
      IsWalk (buildAdjacencyList g) startId endId ids de ∧ ids.Nodup ∧
      ids.length ≤ g.nodes.length ∧
      (∀ l c, IsWalk (buildAdjacencyList g) startId endId l c → de ≤ c) := by
  have hclosed : ∀ a b w, AdjStep (buildAdjacencyList g) a b w →
      (adjOf (buildAdjacencyList g) b).isSome ∧ (adjOf (buildAdjacencyList g) a).isSome :=
    fun _ _ _ hx => build_closed hx
  have post := aloopB hclosed fuel _ out (aInit_invAB g h startId endId) hloop
  have opt := aloopO hclosed (build_nonneg hnn) hcons fuel _ out
    (aInit_invAB g h startId endId) (aInit_invO g h startId hsn) hloop
  have hmain : ChainOK (buildAdjacencyList g) out.1.prev out.1.gScore startId endId
      out.1.vset ∧ (∀ l c, IsWalk (buildAdjacencyList g) startId endId l c → de ≤ c) := by
    by_cases hem : endId ∈ histIds out.1.hist
    · obtain ⟨hchain, de2, hde2, hmin⟩ := opt.endopt hout hem
      have he2 : de2 = de := by
        rw [hde] at hde2
        exact (JNum.fin.injEq _ _).mp hde2.symm
      exact ⟨hchain, he2 ▸ hmin⟩
    · have hinvO := opt.no_settle hout hem
      by_cases hev : endId ∈ out.1.vset
      · obtain ⟨dm, hdm, hmins⟩ := hinvO.settled_min endId hev
        have he2 : dm = de := by
          rw [hde] at hdm
          exact (JNum.fin.injEq _ _).mp hdm.symm
        exact ⟨hinvO.chain_settled endId hev, he2 ▸ hmins⟩
      · exfalso
        obtain ⟨it, hit, -, -⟩ := post.cover hout hem endId de hde hev
        rw [opt.pq_empty hout hem] at hit
        exact absurd hit (List.not_mem_nil it)
  obtain ⟨⟨ids, dv, hdv, hchain, hwalk, hnodup, hmem⟩, hmin⟩ := hmain
  have hdveq : dv = de := by
    rw [hde] at hdv
    exact (JNum.fin.injEq _ _).mp hdv.symm
  refine ⟨ids, hchain, hdveq ▸ hwalk, hnodup, ?_, hmin⟩
  have hsubn : ∀ x ∈ ids, x ∈ nodeIds g := by
    intro x hx
    rcases hmem x hx with h1 | h1
    · exact h1 ▸ hen
    · rcases opt.vset_sub x h1 with h2 | h2
      · exact h2 ▸ hsn
      · exact adjKeys_sub_nodeIds h2
  calc ids.length ≤ (nodeIds g).length := nodup_length_le hnodup hsubn
  _ = g.nodes.length := List.length_map _ _

/-- A* half of the corrected path claims: under nonnegative weights, a
consistent heuristic and an end naming a node, a nonempty returned path
is a minimum-cost walk of the adjacency index summing to the cost. -/
theorem astar_path_walk {g : GraphData} {h : String → ℚ} {startId endId : String}
    {fuel : Nat} {res : AlgoResult}
    (hnn : NonnegWeights g)
    (hcons : Consistent (buildAdjacencyList g) h)
    (hrun : runAStarH g h startId endId fuel = some res)
    (hen : endId ∈ nodeIds g)
    (hpath : res.path ≠ []) :
    ∃ ids c, res.path = ids.map JSV.str ∧ res.cost = .fin c ∧
      IsWalk (buildAdjacencyList g) startId endId ids c := by
  obtain ⟨out, hloop, hcase⟩ := runAStarH_cases hrun
  have hclosed : ∀ a b w, AdjStep (buildAdjacencyList g) a b w →
      (adjOf (buildAdjacencyList g) b).isSome ∧ (adjOf (buildAdjacencyList g) a).isSome :=
    fun _ _ _ hx => build_closed hx
  have post := aloopB hclosed fuel _ out (aInit_invAB g h startId endId) hloop
  rcases hcase with ⟨u, -, hres⟩ | ⟨hout, hres⟩
  · rw [hres] at hpath
    exact absurd rfl hpath
  · rw [hres] at hpath
    obtain ⟨hninf, hpeq, -, hhead⟩ := reconstruct_path_cases hpath
    by_cases hsn : startId ∈ nodeIds g
    · have hde : ∃ de, out.1.gScore endId = .fin de := by
        cases hd : out.1.gScore endId with
        | undef =>
          exact absurd hd (post.g_keys endId
            (adjOf_isSome_iff.mp ((build_isSome_iff g endId).mpr hen)))
        | inf => rw [hd] at hninf; exact absurd hninf (by simp [JNum.isInf])
        | fin de => exact ⟨de, rfl⟩
      obtain ⟨de, hde⟩ := hde
      obtain ⟨ids, hchain, hwalk, hnodup, hlen, -⟩ :=
        astar_fin_chain hnn hcons hloop hout hsn hen hde
      rw [hres, hde, reconstruct_of_chain hchain hnodup hlen]
      exact ⟨ids, de, rfl, rfl, hwalk⟩
    · exfalso
      have hmem : (.str startId) ∈ reconLoop out.1.prev g.nodes.length
          (g.nodes.length + 2) (.str endId) [] := by
        rw [hpeq] at hpath
        cases hl : reconLoop out.1.prev g.nodes.length (g.nodes.length + 2) (.str endId) [] with
        | nil => exact absurd hl hpath
        | cons a tl =>
          rw [hl] at hhead
          injection hhead with hh
          rw [← hh]
          exact List.mem_cons_self a tl
      rcases reconLoop_elems _ _ _ _ hmem with hy | hy | ⟨k, hk⟩
      · exact absurd hy (List.not_mem_nil _)
      · injection hy with hy
        exact hsn (hy ▸ hen)
      · exact hsn ((build_isSome_iff g startId).mp (post.prev_key k startId hk.symm))

/-! ### Hazard-free runs never abort -/

theorem runDijkstra_hazfree_noexp {g : GraphData} {startId endId : String} {fuel : Nat}
    {res : AlgoResult}
    (hhf : HazardFree g)
    (hrun : runDijkstra g startId endId fuel = some res) :
    res.explodedAt = none := by
  obtain ⟨out, hloop, hcase⟩ := runDijkstra_cases hrun
  have hclosed : ∀ a b w, AdjStep (buildAdjacencyList g) a b w →
      (adjOf (buildAdjacencyList g) b).isSome ∧ (adjOf (buildAdjacencyList g) a).isSome :=
    fun _ _ _ hx => build_closed hx
  have post := dloopB hclosed fuel _ out (dInit_invB g startId endId) hloop
  rcases hcase with ⟨u, hu, hres⟩ | ⟨-, hres⟩
  · exfalso
    have hz := (post.hazexit u hu).1
    rw [hazardFree_isHazard hhf startId endId u] at hz
    exact Bool.noConfusion hz
  · rw [hres, reconstruct_exploded]

theorem runAStarH_hazfree_noexp {g : GraphData} {h : String → ℚ}
    {startId endId : String} {fuel : Nat} {res : AlgoResult}
    (hhf : HazardFree g)
    (hrun : runAStarH g h startId endId fuel = some res) :
    res.explodedAt = none := by
  obtain ⟨out, hloop, hcase⟩ := runAStarH_cases hrun
  have hclosed : ∀ a b w, AdjStep (buildAdjacencyList g) a b w →
      (adjOf (buildAdjacencyList g) b).isSome ∧ (adjOf (buildAdjacencyList g) a).isSome :=
    fun _ _ _ hx => build_closed hx
  have post := aloopB hclosed fuel _ out (aInit_invAB g h startId endId) hloop
  rcases hcase with ⟨u, hu, hres⟩ | ⟨-, hres⟩
  · exfalso
    have hz := (post.hazexit u hu).1
    rw [hazardFree_isHazard hhf startId endId u] at hz
    exact Bool.noConfusion hz
  · rw [hres, reconstruct_exploded]

/-- Dijkstra half of the unreachable case when the end names a node. -/
theorem dijkstra_nopath_end {g : GraphData} {startId endId : String} {fuel : Nat}
    {res : AlgoResult}
    (hrun : runDijkstra g startId endId fuel = some res)
    (hnoexp : res.explodedAt = none)
    (hen : endId ∈ nodeIds g)
    (hmiss : ¬ Reachable (buildAdjacencyList g) startId endId) :
    res.path = [] ∧ res.cost = .fin 0 := by
  obtain ⟨out, hloop, hout, hres⟩ := runDijkstra_none_case hrun hnoexp
  have hclosed : ∀ a b w, AdjStep (buildAdjacencyList g) a b w →
      (adjOf (buildAdjacencyList g) b).isSome ∧ (adjOf (buildAdjacencyList g) a).isSome :=
    fun _ _ _ hx => build_closed hx
  have post := dloopB hclosed fuel _ out (dInit_invB g startId endId) hloop
  cases hd : out.1.dist endId with
  | undef =>
    exact absurd hd (post.dist_keys endId
      (adjOf_isSome_iff.mp ((build_isSome_iff g endId).mpr hen)))
  | inf =>
    rw [hres, hd,
      @reconstruct_inf out.1.prev g.nodes.length startId endId out.1.hist .inf rfl]
    exact ⟨rfl, rfl⟩
  | fin de =>
    exfalso
    rcases post.dist_sound endId de hd with ⟨hes, -⟩ | ⟨l, hl⟩
    · exact hmiss ⟨[startId], 0, hes ▸ IsWalk.nil startId
        ((build_isSome_iff g startId).mpr (hes ▸ hen))⟩
    · exact hmiss ⟨l, de, hl⟩

/-- With the square root abstracted to the constant zero map, the
Euclidean heuristic vanishes everywhere. -/
theorem euclidH_zero (g : GraphData) (en : Node) (x : String) :
    euclidH (fun _ => 0) g en x = 0 := by
  rw [euclidH]
  cases h : nodeMapGet g x with
  | none => rfl
  | some n => rfl

/-- The vanishing heuristic is consistent on any nonnegatively weighted
adjacency index. -/
theorem consistent_zeroH {g : GraphData} (hnn : NonnegWeights g) (en : Node) :
    Consistent (buildAdjacencyList g) (euclidH (fun _ => 0) g en) := by
  intro a b w hstep
  rw [euclidH_zero, euclidH_zero]
  have h0 := build_nonneg hnn a b w hstep
  linarith

/-- C3 (amended): under the data model's nonnegative edge weights, on a
hazard-free graph whose end identifier names a node and whose Euclidean
heuristic is consistent on the adjacency index, completed runs of
runDijkstra and runAStar return the same total cost. -/
theorem claim_c3 (g : GraphData) (sqrtFn : ℚ → ℚ) (startId endId : String)
    (fuel1 fuel2 : Nat) (res1 res2 : AlgoResult) (endNode : Node)
    (hnn : NonnegWeights g)
    (hhf : HazardFree g)
    (hend : nodeMapGet g endId = some endNode)
    (hcons : Consistent (buildAdjacencyList g) (euclidH sqrtFn g endNode))
    (hrun1 : runDijkstra g startId endId fuel1 = some res1)
    (hrun2 : runAStar sqrtFn g startId endId fuel2 = some res2) :
    res1.cost = res2.cost := by
  have hen : endId ∈ nodeIds g := by
    rw [← nodeMapGet_isSome, hend]
    rfl
  have hrun2h : runAStarH g (euclidH sqrtFn g endNode) startId endId fuel2 = some res2 := by
    rw [← runAStar_euclidH hend]
    exact hrun2
  have hnoexp1 := runDijkstra_hazfree_noexp hhf hrun1
  have hnoexp2 := runAStarH_hazfree_noexp hhf hrun2h
  by_cases hreach : Reachable (buildAdjacencyList g) startId endId
  · obtain ⟨out1, hloop1, hout1, hres1⟩ := runDijkstra_none_case hrun1 hnoexp1
    obtain ⟨ids1, de, hde, hchain1, hwalk1, hnodup1, hlen1, hmin1⟩ :=
      dijkstra_reachable_opt hnn hloop1 hout1 hreach
    obtain ⟨out2, hloop2, hcase2⟩ := runAStarH_cases hrun2h
    rcases hcase2 with ⟨u, -, hres2⟩ | ⟨hout2, hres2⟩
    · rw [hres2] at hnoexp2
      exact Option.noConfusion hnoexp2
    · have hsn : startId ∈ nodeIds g := by
        obtain ⟨wl, wc, hw⟩ := hreach
        exact (build_isSome_iff g startId).mp hw.src_isSome
      obtain ⟨da, hda⟩ := astar_reach_fin hnn hcons hloop2 hout2 hsn hreach
      obtain ⟨ids2, hchain2, hwalk2, hnodup2, hlen2, hmin2⟩ :=
        astar_fin_chain hnn hcons hloop2 hout2 hsn hen hda
      rw [hres1, hde, reconstruct_of_chain hchain1 hnodup1 hlen1,
        hres2, hda, reconstruct_of_chain hchain2 hnodup2 hlen2]
      exact congrArg JNum.fin (le_antisymm (hmin1 ids2 da hwalk2) (hmin2 ids1 de hwalk1))
  · obtain ⟨-, hc1⟩ := dijkstra_nopath_end hrun1 hnoexp1 hen hreach
    obtain ⟨-, hc2⟩ := astar_nopath hrun2h hnoexp2 hen (Or.inr hreach)
    rw [hc1, hc2]

theorem claim_c3_witness :
    (⟨[.str "A", .str "B", .str "C"],
      [⟨"A", none⟩, ⟨"B", some "A"⟩, ⟨"C", some "B"⟩], .fin 2, none⟩ : AlgoResult).cost =
    (⟨[.str "A", .str "B", .str "C"],
      [⟨"A", none⟩, ⟨"B", some "A"⟩, ⟨"C", some "B"⟩], .fin 2, none⟩ : AlgoResult).cost :=
  claim_c3 gLine3Free (fun _ => 0) "A" "C" 10 10
    ⟨[.str "A", .str "B", .str "C"],
      [⟨"A", none⟩, ⟨"B", some "A"⟩, ⟨"C", some "B"⟩], .fin 2, none⟩
    ⟨[.str "A", .str "B", .str "C"],
      [⟨"A", none⟩, ⟨"B", some "A"⟩, ⟨"C", some "B"⟩], .fin 2, none⟩
    ⟨"C", 2, 0, 0, false⟩
    (show ∀ l ∈ gLine3Free.links, 0 ≤ l.distance by with_unfolding_all decide)
    (show ∀ n ∈ gLine3Free.nodes, n.isBomb = false by with_unfolding_all decide)
    (by with_unfolding_all decide)
    (consistent_zeroH
      (show ∀ l ∈ gLine3Free.links, 0 ≤ l.distance by with_unfolding_all decide) _)
    (by with_unfolding_all decide)
    (by with_unfolding_all decide)

set_option maxRecDepth 2000 in
/-- C3 refuted as stated: gHeur is hazard free, yet with the exact square
root on the squared distances arising there (1, 100 and 0 have roots 1,
10 and 0) Dijkstra returns the two-hop cost 2 while A* returns the
direct-link cost 10: the straight-line heuristic to the end overestimates
the remaining cost through the far-flung middle node. -/
theorem claim_c3_cex :
    (∀ n ∈ gHeur.nodes, n.isBomb = false) ∧
    ∃ res1 res2,
      runDijkstra gHeur "S" "E" 6 = some res1 ∧
      runAStar (fun q => if q = 100 then 10 else q) gHeur "S" "E" 6 = some res2 ∧
      res1.cost ≠ res2.cost := by
  refine ⟨by with_unfolding_all decide,
    ⟨[.str "S", .str "M", .str "E"],
      [⟨"S", none⟩, ⟨"M", some "S"⟩, ⟨"E", some "M"⟩], .fin 2, none⟩,
    ⟨[.str "S", .str "E"],
      [⟨"S", none⟩, ⟨"E", some "S"⟩], .fin 10, none⟩,
    by with_unfolding_all decide,
    by with_unfolding_all decide,
    by with_unfolding_all decide⟩

/-- C5 (amended): under the data model's nonnegative edge weights, when
the end identifier names a node and the Euclidean heuristic is consistent
on the adjacency index, each algorithm that returns a nonempty path
returns a list of node-id strings starting at start and ending at end
whose consecutive pairs step through the adjacency index with edge
weights summing to the returned cost. -/
theorem claim_c5 (g : GraphData) (sqrtFn : ℚ → ℚ) (startId endId : String)
    (fuel1 fuel2 : Nat) (res1 res2 : AlgoResult) (endNode : Node)
    (hnn : NonnegWeights g)
    (hend : nodeMapGet g endId = some endNode)
    (hcons : Consistent (buildAdjacencyList g) (euclidH sqrtFn g endNode))
    (hrun1 : runDijkstra g startId endId fuel1 = some res1)
    (hrun2 : runAStar sqrtFn g startId endId fuel2 = some res2) :
    (res1.path ≠ [] → ∃ ids c, res1.path = ids.map JSV.str ∧ res1.cost = .fin c ∧
      ids.head? = some startId ∧ ids.getLast? = some endId ∧
      IsWalk (buildAdjacencyList g) startId endId ids c) ∧
    (res2.path ≠ [] → ∃ ids c, res2.path = ids.map JSV.str ∧ res2.cost = .fin c ∧
      ids.head? = some startId ∧ ids.getLast? = some endId ∧
      IsWalk (buildAdjacencyList g) startId endId ids c) := by
  have hen : endId ∈ nodeIds g := by
    rw [← nodeMapGet_isSome, hend]
    rfl
  have hrun2h : runAStarH g (euclidH sqrtFn g endNode) startId endId fuel2 = some res2 := by
    rw [← runAStar_euclidH hend]
    exact hrun2
  constructor
  · intro hp
    obtain ⟨ids, c, hpe, hce, hwalk⟩ := dijkstra_path_walk hnn hrun1 hen hp
    exact ⟨ids, c, hpe, hce, hwalk.head_eq, hwalk.getLast_eq, hwalk⟩
  · intro hp
    obtain ⟨ids, c, hpe, hce, hwalk⟩ := astar_path_walk hnn hcons hrun2h hen hp
    exact ⟨ids, c, hpe, hce, hwalk.head_eq, hwalk.getLast_eq, hwalk⟩

theorem claim_c5_witness :
    ((⟨[.str "A", .str "B", .str "C"],
      [⟨"A", none⟩, ⟨"B", some "A"⟩, ⟨"C", some "B"⟩], .fin 2, none⟩ : AlgoResult).path ≠ [] →
      ∃ ids c,
        (⟨[.str "A", .str "B", .str "C"],
          [⟨"A", none⟩, ⟨"B", some "A"⟩, ⟨"C", some "B"⟩], .fin 2, none⟩ : AlgoResult).path =
            ids.map JSV.str ∧
        (⟨[.str "A", .str "B", .str "C"],
          [⟨"A", none⟩, ⟨"B", some "A"⟩, ⟨"C", some "B"⟩], .fin 2, none⟩ : AlgoResult).cost =
            .fin c ∧
        ids.head? = some "A" ∧ ids.getLast? = some "C" ∧
        IsWalk (buildAdjacencyList gLine3Free) "A" "C" ids c) ∧
    ((⟨[.str "A", .str "B", .str "C"],
      [⟨"A", none⟩, ⟨"B", some "A"⟩, ⟨"C", some "B"⟩], .fin 2, none⟩ : AlgoResult).path ≠ [] →
      ∃ ids c,
        (⟨[.str "A", .str "B", .str "C"],
          [⟨"A", none⟩, ⟨"B", some "A"⟩, ⟨"C", some "B"⟩], .fin 2, none⟩ : AlgoResult).path =
            ids.map JSV.str ∧
        (⟨[.str "A", .str "B", .str "C"],
          [⟨"A", none⟩, ⟨"B", some "A"⟩, ⟨"C", some "B"⟩], .fin 2, none⟩ : AlgoResult).cost =
            .fin c ∧
        ids.head? = some "A" ∧ ids.getLast? = some "C" ∧
        IsWalk (buildAdjacencyList gLine3Free) "A" "C" ids c) :=
  claim_c5 gLine3Free (fun _ => 0) "A" "C" 10 10
    ⟨[.str "A", .str "B", .str "C"],
      [⟨"A", none⟩, ⟨"B", some "A"⟩, ⟨"C", some "B"⟩], .fin 2, none⟩
    ⟨[.str "A", .str "B", .str "C"],
      [⟨"A", none⟩, ⟨"B", some "A"⟩, ⟨"C", some "B"⟩], .fin 2, none⟩
    ⟨"C", 2, 0, 0, false⟩
    (show ∀ l ∈ gLine3Free.links, 0 ≤ l.distance by with_unfolding_all decide)
    (by with_unfolding_all decide)
    (consistent_zeroH
      (show ∀ l ∈ gLine3Free.links, 0 ≤ l.distance by with_unfolding_all decide) _)
    (by with_unfolding_all decide)
    (by with_unfolding_all decide)

/-- C5 refuted as stated: with an end identifier absent from gUndef,
runDijkstra returns the nonempty path [A, undefined, X] whose cost is the
undefined number, equal to no sum of edge weights; its middle element is
not even an identifier string. -/
theorem claim_c5_cex :
    ∃ res, runDijkstra gUndef "A" "X" 10 = some res ∧ res.path ≠ [] ∧
      (∀ c : ℚ, res.cost ≠ .fin c) ∧
      (∀ ids : List String, res.path ≠ ids.map JSV.str) := by
  refine ⟨⟨[.str "A", .undef, .str "X"],
    [⟨"A", none⟩, ⟨"undefined", some "A"⟩], .undef, none⟩,
    by with_unfolding_all decide, fun hx => List.noConfusion hx,
    fun c hx => JNum.noConfusion hx, ?_⟩
  intro ids hx
  cases ids with
  | nil => exact List.noConfusion hx
  | cons a tl =>
    cases tl with
    | nil => injection hx with h1 h2; exact List.noConfusion h2
    | cons b tl2 =>
      injection hx with h1 hx2
      injection hx2 with h2 h3
      exact JSV.noConfusion h2

end PF
